import Mathlib

/-!
The dual-row text model of mzim.

A shallow embedding of the editing and wrapping core of `src/mzim.c`.

Conventions of the embedding.

* A C `int` is an `Int`; the sizes in play (line lengths, screen sizes) are far below
  `2^31`, so no wrap-around is modelled.
* A C array or heap buffer is a `List` that holds the elements of the allocation; a
  pointer into a buffer (`tmpbuf += newlen`) is the suffix of the list from that element on.
  Buffers are values: a struct copy or a pointer kept across a `realloc` still sees the
  bytes it pointed at. C does not promise that for the bytes a shrinking `realloc` drops:
  for the tail copy of `deleteCharacter`, which reads `currow->buf` after such a `realloc`,
  `deleteCharacter.reading` takes what the old pointer shows as a parameter.
* The structs keep their fields: `len` and `buf` are separate, as are `numrows` and `rows`.
* Every function that can run into an access outside an allocation, into a read of an
  uninitialised local, or into a loop that never ends, returns an `Option`; `none` stands
  for "no defined result".
* An allocation request `malloc(n)` or `realloc(p, n)` fails (returns `NULL`) exactly when
  `n < 0` (the size, converted to `size_t`, is out of reach); a request of size `0` gives an
  empty buffer. A `NULL` that the source tests is a case of the model; a `NULL` that the
  source does not test is written through next, so there the model has no result.
* `memcpy` reads its source bytes before it writes, also when the ranges overlap (the
  source shifts buffers in place with it).
-/

namespace Mzim

/-! ## Key codes (`enum editorKey`) -/

def ARROW_LEFT : Int := 1000
def ARROW_RIGHT : Int := 1001
def ARROW_UP : Int := 1002
def ARROW_DOWN : Int := 1003
def HOME_KEY : Int := 1004
def END_KEY : Int := 1005
def DELETE_KEY : Int := 1006
def PAGE_UP : Int := 1007
def PAGE_DOWN : Int := 1008
def ENTER_KEY : Int := 1009
def TAB_KEY : Int := 1010
def BACKSPACE : Int := 1011

/-! ## Data model -/

/-- Display line (`struct srow`): owner index (`-1` for a filler), length, bytes. -/
structure srow where
  row_index : Int
  len : Int
  buf : List Char
deriving DecidableEq, Inhabited

/-- Logical line (`struct erow`): `dirty = 0` marks a placeholder. -/
structure erow where
  dirty : Int
  len : Int
  buf : List Char
deriving DecidableEq, Inhabited

/-- Editor state (`struct editorInfo`, without the file name). -/
structure editorInfo where
  cursor_x : Int
  cursor_y : Int
  cursor_y_offset : Int
  screen_row : Int
  screen_col : Int
  numrows : Int
  numsrows : Int
  rows : List erow
  srows : List srow
deriving DecidableEq

/-- The bytes a logical line holds: the first `len` bytes of its buffer. -/
def erow.content (r : erow) : List Char := r.buf.take r.len.toNat

/-- The bytes a display line holds: the first `len` bytes of its buffer. -/
def srow.content (r : srow) : List Char := r.buf.take r.len.toNat

/-! ## Memory primitives -/

/-- Read of `xs[i]`. -/
def index {α : Type} (xs : List α) (i : Int) : Option α :=
  if 0 ≤ i then xs[i.toNat]? else none

/-- Write `xs[i] = v`. -/
def store {α : Type} (xs : List α) (i : Int) (v : α) : Option (List α) :=
  if 0 ≤ i ∧ i < xs.length then some (xs.set i.toNat v) else none

/-- Result of `realloc(xs, n)`: the first `n` elements are kept, new elements are
indeterminate (here `fill`); `none` is the `NULL` of a failed request. -/
def realloc {α : Type} (fill : α) (xs : List α) (n : Int) : Option (List α) :=
  if 0 ≤ n then some (xs.take n.toNat ++ List.replicate (n.toNat - xs.length) fill) else none

/-- Result of `malloc(n)`. -/
def malloc {α : Type} (fill : α) (n : Int) : Option (List α) :=
  realloc fill [] n

/-- Effect of `memcpy(dst + d, src + s, n)` on `dst`: the `n` source elements are read,
then written. -/
def memcpy {α : Type} (dst : List α) (d : Int) (src : List α) (s : Int) (n : Int) :
    Option (List α) :=
  if 0 ≤ n ∧ 0 ≤ d ∧ d + n ≤ dst.length ∧ 0 ≤ s ∧ s + n ≤ src.length then
    some (dst.take d.toNat ++ (src.drop s.toNat).take n.toNat ++ dst.drop (d + n).toNat)
  else none

/-- Content of a byte that was allocated and not yet written. -/
def junk : Char := Char.ofNat 0

/-! ## Wrapper -/

/-- Source: `addRowToSrows`. -/
def addRowToSrows (s : editorInfo) (row_index add_index : Int) (buf : List Char) (len : Int) :
    Option editorInfo := do
  let newsrow : srow := { row_index := row_index, len := len, buf := buf }
  let newsrows ← realloc default s.srows (s.numsrows + 1)
  let newsrows ← store newsrows add_index newsrow
  some { s with srows := newsrows, numsrows := s.numsrows + 1 }

/-- The `for` loop of `findSplitPoint`; `loop s buf (j + 1)` is the iteration at index `j`. -/
def findSplitPoint.loop (s : editorInfo) (buf : List Char) : Nat → Int
  | 0 => s.screen_col
  | j + 1 =>
    if buf[j]? = some ' ' ∧ (j : Int) < s.screen_col ∧ (j : Int) > Int.tdiv s.screen_col 2 then
      (j : Int) + 1
    else findSplitPoint.loop s buf j

/-- Source: `findSplitPoint`. -/
def findSplitPoint (s : editorInfo) (rowlen : Int) (buf : List Char) : Int :=
  findSplitPoint.loop s buf rowlen.toNat

/-- The `while (rowlen >= info.screen_col)` loop of `updateSrows` for logical line `i`;
the first argument bounds the number of iterations. -/
def updateSrows.carve (i : Int) : Nat → editorInfo → Int → List Char →
    Option (editorInfo × Int × List Char)
  | 0, s, rowlen, tmpbuf => if rowlen ≥ s.screen_col then none else some (s, rowlen, tmpbuf)
  | fuel + 1, s, rowlen, tmpbuf =>
    if rowlen ≥ s.screen_col then do
      let split_point := findSplitPoint s rowlen tmpbuf
      let newlen := split_point
      let newbuf ← malloc junk newlen
      let newbuf ← memcpy newbuf 0 tmpbuf 0 newlen
      let s ← addRowToSrows s i s.numsrows newbuf newlen
      updateSrows.carve i fuel s (rowlen - newlen) (tmpbuf.drop newlen.toNat)
    else some (s, rowlen, tmpbuf)

/-- Body of the `for` loop of `updateSrows` for logical line `i`. -/
def updateSrows.row (s : editorInfo) (i : Int) : Option editorInfo := do
  let currow ← index s.rows i
  if currow.len ≥ s.screen_col then do
    let tmpbuf ← malloc junk currow.len
    let tmpbuf ← memcpy tmpbuf 0 currow.buf 0 currow.len
    let (s, rowlen, tmpbuf) ← updateSrows.carve i currow.len.toNat s currow.len tmpbuf
    if rowlen ≥ 0 then addRowToSrows s i s.numsrows tmpbuf rowlen else some s
  else addRowToSrows s i s.numsrows currow.buf currow.len

/-- The loop `for (i = ...; i < info.numrows; i++)` of `updateSrows`, with `todo` iterations
left. -/
def updateSrows.rows : Nat → editorInfo → Int → Option editorInfo
  | 0, s, _ => some s
  | todo + 1, s, i => do
    let s ← updateSrows.row s i
    updateSrows.rows todo s (i + 1)

/-- The filler loop of `updateSrows`, with `todo` iterations left. -/
def updateSrows.fill : Nat → editorInfo → Option editorInfo
  | 0, s => some s
  | todo + 1, s => do
    let s ← addRowToSrows s (-1) s.numsrows ['~'] 1
    updateSrows.fill todo s

/-- Source: `updateSrows`. -/
def updateSrows (s : editorInfo) : Option editorInfo := do
  let s := { s with numsrows := 0, srows := [] }
  let s ← updateSrows.rows s.numrows.toNat s 0
  let diff := s.screen_row - s.numsrows
  updateSrows.fill diff.toNat s

/-! ## CursorMap -/

/-- The loop of `getSrowLen` over `info.srows`; `loop srows c (i + 1) result` is the
iteration at index `i`. -/
def getSrowLen.loop (srows : List srow) (currow_index : Int) : Nat → Int → Option Int
  | 0, result => some result
  | i + 1, result => do
    let d ← srows[i]?
    if d.row_index ≠ currow_index then some result
    else getSrowLen.loop srows currow_index i (result + d.len)

/-- Source: `getSrowLen`; the walk starts at index `cursor_y - 2`. -/
def getSrowLen (s : editorInfo) (currow_index : Int) : Option Int :=
  getSrowLen.loop s.srows currow_index (s.cursor_y - 1).toNat 0

/-! ## EditEngine -/

/-- The block "This part removes welcome message ..." that `addCharacter` and `enter`
share: the line at index `screen_row / 2 - 2` is cut to one byte when it is a placeholder
longer than one byte. -/
def removeWelcomeMessage (s : editorInfo) : Option editorInfo := do
  let wi := Int.tdiv s.screen_row 2 - 2
  let welcome_msg_row ← index s.rows wi
  if welcome_msg_row.dirty = 0 ∧ welcome_msg_row.len > 1 then do
    let buf ← realloc junk welcome_msg_row.buf 1
    let rows ← store s.rows wi { welcome_msg_row with len := 1, buf := buf }
    some { s with rows := rows }
  else some s

/-- The block `if (currow->dirty == 0) { len = 0; buf = realloc(buf, len); }` that
`addCharacter` and `enter` share: a placeholder is truncated to empty. -/
def truncatePlaceholder (currow : erow) : Option erow :=
  if currow.dirty = 0 then do
    let b ← realloc junk currow.buf 0
    some { currow with len := 0, buf := b }
  else some currow

/-- Source: `addCharacter`; the result is the returned `int` and the new state. -/
def addCharacter (s : editorInfo) (buf : List Char) (len : Int) : Option (Int × editorInfo) := do
  let cursrow ← index s.srows (s.cursor_y + s.cursor_y_offset - 1)
  let row_index := cursrow.row_index
  let currow ← index s.rows row_index
  let currow ← truncatePlaceholder currow
  let rows ← store s.rows row_index currow
  let s := { s with rows := rows }
  match realloc junk currow.buf (currow.len + len) with
  | none => some (-1, s)
  | some newbuf =>
    let prev_srows_len ← getSrowLen s row_index
    let newbuf ← memcpy newbuf (prev_srows_len + s.cursor_x + len - 1)
      newbuf (prev_srows_len + s.cursor_x - 1) (currow.len - prev_srows_len - s.cursor_x + 1)
    let newbuf ← memcpy newbuf (prev_srows_len + s.cursor_x - 1) buf 0 len
    let rows ← store s.rows row_index { dirty := 1, len := currow.len + len, buf := newbuf }
    let s ← removeWelcomeMessage { s with rows := rows }
    let s ← updateSrows s
    some (len, s)

/-- The block `if (currow.dirty) { ... }` of `removeErow`: the copy `prevrow` takes the
bytes of `currow` behind its own. -/
def removeErow.absorb (prevrow currow : erow) : Option erow :=
  if currow.dirty ≠ 0 then do
    let b ← realloc junk prevrow.buf (prevrow.len + currow.len)
    let b ← memcpy b prevrow.len currow.buf 0 currow.len
    some { prevrow with buf := b, len := prevrow.len + currow.len }
  else some prevrow

/-- Source: `removeErow`. -/
def removeErow (s : editorInfo) (row_index : Int) : Option editorInfo := do
  let prevrow ← index s.rows (row_index - 1)
  let currow ← index s.rows row_index
  let prevrow ← removeErow.absorb prevrow currow
  let tmprows_size := s.numrows - row_index - 1
  let tmprows ← malloc default tmprows_size
  let tmprows ← memcpy tmprows 0 s.rows (row_index + 1) tmprows_size
  let newrows ← realloc default s.rows (s.numrows - 1)
  let newrows ← memcpy newrows row_index tmprows 0 tmprows_size
  let newrows ← store newrows (row_index - 1) prevrow
  some { s with
    rows := newrows, numrows := s.numrows - 1, cursor_y := s.cursor_y - 1,
    cursor_x := if currow.dirty ≠ 0 then prevrow.len - currow.len + 1 else prevrow.len + 1 }

/-- The local `offset` of `deleteCharacter`: 1 for `DELETE_KEY`, 2 for `BACKSPACE`, and
not initialised for any other mode. -/
def deleteCharacter.offset (mode : Int) : Option Int :=
  if mode = DELETE_KEY then some 1 else if mode = BACKSPACE then some 2 else none

/-- Source: `deleteCharacter`; `mode` is `DELETE_KEY` or `BACKSPACE`. With any other mode
the local `offset` is read uninitialised, which has no defined result. The tail is copied
out of `currow->buf` after `realloc` has cut that buffer to `currow->len - len` bytes; here
the old pointer still shows every byte it held (see `deleteCharacter.reading`). -/
def deleteCharacter (s : editorInfo) (mode len : Int) : Option (Int × editorInfo) := do
  let cursrow ← index s.srows (s.cursor_y + s.cursor_y_offset - 1)
  let row_index := cursrow.row_index
  if s.cursor_x = 1 ∧ s.cursor_y = 1 then some (-1, s)
  else if mode = BACKSPACE ∧ s.cursor_x = 1 ∧ s.cursor_y > 1 then do
    let s ← removeErow s row_index
    let s ← updateSrows s
    some (-2, s)
  else do
    let currow ← index s.rows row_index
    if currow.len - len = 0 then do
      let b ← realloc junk currow.buf 1
      let b ← memcpy b 0 ['~'] 0 1
      let rows ← store s.rows row_index { dirty := 0, len := 1, buf := b }
      some (len, { s with rows := rows })
    else do
      let offset ← deleteCharacter.offset mode
      let prev_srows_len ← getSrowLen s row_index
      let count := currow.len - prev_srows_len - s.cursor_x - len + offset
      match malloc junk count with
      | none => some (-1, s)
      | some tmpbuf =>
        match realloc junk currow.buf (currow.len - len) with
        | none => some (-1, s)
        | some newbuf =>
          let tmpbuf ← memcpy tmpbuf 0 currow.buf (prev_srows_len + s.cursor_x + len - offset) count
          let newbuf ← memcpy newbuf (s.cursor_x - offset) tmpbuf 0 count
          let rows ← store s.rows row_index { currow with len := currow.len - len, buf := newbuf }
          let s ← updateSrows { s with rows := rows }
          some (len, s)

/-- Source: `deleteCharacter`, with what the read of `currow->buf` after
`realloc(currow->buf, currow->len - len)` finds as a parameter: where the buffer held `buf`
before the call of `realloc`, the old pointer shows `view buf` after it. C keeps the first
`currow->len - len` bytes in the new buffer only; the bytes the old pointer shows are what
the allocator leaves there. `deleteCharacter` is the case `view = id`. -/
def deleteCharacter.reading (view : List Char → List Char) (s : editorInfo) (mode len : Int) :
    Option (Int × editorInfo) := do
  let cursrow ← index s.srows (s.cursor_y + s.cursor_y_offset - 1)
  let row_index := cursrow.row_index
  if s.cursor_x = 1 ∧ s.cursor_y = 1 then some (-1, s)
  else if mode = BACKSPACE ∧ s.cursor_x = 1 ∧ s.cursor_y > 1 then do
    let s ← removeErow s row_index
    let s ← updateSrows s
    some (-2, s)
  else do
    let currow ← index s.rows row_index
    if currow.len - len = 0 then do
      let b ← realloc junk currow.buf 1
      let b ← memcpy b 0 ['~'] 0 1
      let rows ← store s.rows row_index { dirty := 0, len := 1, buf := b }
      some (len, { s with rows := rows })
    else do
      let offset ← deleteCharacter.offset mode
      let prev_srows_len ← getSrowLen s row_index
      let count := currow.len - prev_srows_len - s.cursor_x - len + offset
      match malloc junk count with
      | none => some (-1, s)
      | some tmpbuf =>
        match realloc junk currow.buf (currow.len - len) with
        | none => some (-1, s)
        | some newbuf =>
          let tmpbuf ← memcpy tmpbuf 0 (view currow.buf)
            (prev_srows_len + s.cursor_x + len - offset) count
          let newbuf ← memcpy newbuf (s.cursor_x - offset) tmpbuf 0 count
          let rows ← store s.rows row_index { currow with len := currow.len - len, buf := newbuf }
          let s ← updateSrows { s with rows := rows }
          some (len, s)

/-- Source: `enter`. -/
def enter (s : editorInfo) : Option (Int × editorInfo) := do
  let cursrow ← index s.srows (s.cursor_y + s.cursor_y_offset - 1)
  let row_index := cursrow.row_index
  let currow ← index s.rows row_index
  let currow ← truncatePlaceholder currow
  let prev_srows_len ← getSrowLen s row_index
  let newrow_len := currow.len - prev_srows_len - s.cursor_x + 1
  let newrow_buf ← malloc junk newrow_len
  let edittedrow_len := prev_srows_len + s.cursor_x - 1
  let edittedrow_buf ← malloc junk edittedrow_len
  let s ← removeWelcomeMessage s
  let newrow_buf ← memcpy newrow_buf 0 currow.buf (prev_srows_len + s.cursor_x - 1) newrow_len
  let edittedrow_buf ← memcpy edittedrow_buf 0 currow.buf 0 edittedrow_len
  let newrow : erow := { dirty := 1, len := newrow_len, buf := newrow_buf }
  let edittedrow : erow := { dirty := 1, len := edittedrow_len, buf := edittedrow_buf }
  match realloc default s.rows (s.numrows + 1) with
  | none => some (-1, s)
  | some newrows =>
    let newrows ← memcpy newrows (row_index + 2) newrows (row_index + 1)
      (s.numrows - row_index - 1)
    let newrows ← store newrows row_index edittedrow
    let newrows ← store newrows (row_index + 1) newrow
    let s ← updateSrows { s with rows := newrows, numrows := s.numrows + 1 }
    some (0, s)

/-! ## Cursor movement and key commands -/

/-- The statement `if (srows[..].len < cursor_x) cursor_x = srows[..].len + 1;` that the
`ARROW_UP` and `ARROW_DOWN` cases of `moveCursor` share. -/
def moveCursor.clamp (s : editorInfo) : Option editorInfo := do
  let d ← index s.srows (s.cursor_y + s.cursor_y_offset - 1)
  if d.len < s.cursor_x then some { s with cursor_x := d.len + 1 } else some s

/-- The row change of the `ARROW_UP` case of `moveCursor`. -/
def moveCursor.up (s : editorInfo) : editorInfo :=
  if s.cursor_y > 1 then { s with cursor_y := s.cursor_y - 1 }
  else if s.cursor_y_offset > 0 then { s with cursor_y_offset := s.cursor_y_offset - 1 }
  else s

/-- The row change of the `ARROW_DOWN` case of `moveCursor`. -/
def moveCursor.down (s : editorInfo) : editorInfo :=
  if s.cursor_y + s.cursor_y_offset < s.numsrows then
    if s.cursor_y ≥ s.screen_row then { s with cursor_y_offset := s.cursor_y_offset + 1 }
    else { s with cursor_y := s.cursor_y + 1 }
  else s

/-- The `switch` of `moveCursor`. -/
def moveCursor.switch (s : editorInfo) (key : Int) : Option editorInfo :=
  if key = ARROW_UP then moveCursor.clamp (moveCursor.up s)
  else if key = ARROW_DOWN then moveCursor.clamp (moveCursor.down s)
  else if key = ARROW_RIGHT then do
    let d ← index s.srows (s.cursor_y + s.cursor_y_offset - 1)
    if s.cursor_x ≤ d.len then some { s with cursor_x := s.cursor_x + 1 } else some s
  else if key = ARROW_LEFT then
    if s.cursor_x > 1 then some { s with cursor_x := s.cursor_x - 1 } else some s
  else some s

/-- Source: `moveCursor`. -/
def moveCursor (s : editorInfo) (key : Int) : Option editorInfo := do
  let d ← index s.srows (s.cursor_y + s.cursor_y_offset - 1)
  let r ← index s.rows d.row_index
  if r.dirty = 0 then some s else moveCursor.switch s key

/-- The loop `while (--iter) moveCursor(..)` of the page keys, with `todo` calls left. -/
def manageKeyInput.page (key : Int) : Nat → editorInfo → Option editorInfo
  | 0, s => some s
  | todo + 1, s => do
    let s ← moveCursor s key
    manageKeyInput.page key todo s

/-- The loop of the `TAB_KEY` case, with `todo` rounds left. -/
def manageKeyInput.tab : Nat → editorInfo → Option editorInfo
  | 0, s => some s
  | todo + 1, s => do
    let r ← addCharacter s [' '] 1
    let s ← moveCursor r.2 ARROW_RIGHT
    manageKeyInput.tab todo s

/-- The cursor step of the `default` case of `manageKeyInput`, after the insert. -/
def manageKeyInput.advance (s : editorInfo) : Option editorInfo :=
  if s.cursor_x = s.screen_col then do
    let s1 : editorInfo := { s with cursor_y := s.cursor_y + 1 }
    let d ← index s1.srows (s1.cursor_y + s1.cursor_y_offset - 1)
    some { s1 with cursor_x := d.len + 1 }
  else moveCursor s ARROW_RIGHT

/-- Source: `manageKeyInput`, with the key that `getKey` returned as argument `c`. The quit
key (`CTRL_KEY('q')`, 17) ends the process, so there is no next state. With
`screen_row <= 0` the page loop does not come to an end. -/
def manageKeyInput (s : editorInfo) (c : Int) : Option editorInfo :=
  if c = 17 then none
  else if c = PAGE_UP ∨ c = PAGE_DOWN then
    if s.screen_row ≤ 0 then none
    else manageKeyInput.page (if c = PAGE_UP then ARROW_UP else ARROW_DOWN)
      (s.screen_row - 1).toNat s
  else if c = HOME_KEY then some { s with cursor_x := 1 }
  else if c = END_KEY then do
    let d ← index s.srows (s.cursor_y + s.cursor_y_offset - 1)
    some { s with cursor_x := d.len + 1 }
  else if c = ARROW_UP ∨ c = ARROW_DOWN ∨ c = ARROW_RIGHT ∨ c = ARROW_LEFT then moveCursor s c
  else if c = DELETE_KEY then do
    let r ← deleteCharacter s DELETE_KEY 1
    some r.2
  else if c = ENTER_KEY then do
    let r ← enter s
    let s ← moveCursor r.2 ARROW_DOWN
    some { s with cursor_x := 1 }
  else if c = BACKSPACE then do
    let r ← deleteCharacter s BACKSPACE 1
    if r.1 ≠ -2 then moveCursor r.2 ARROW_LEFT else some r.2
  else if c = TAB_KEY then manageKeyInput.tab 4 s
  else do
    let r ← addCharacter s [Char.ofNat (c % 256).toNat] 1
    manageKeyInput.advance r.2

/-- The key loop of `main` over the keys `keys`. -/
def run : editorInfo → List Int → Option editorInfo
  | s, [] => some s
  | s, c :: keys => do
    let s ← manageKeyInput s c
    run s keys

/-! ## Loading -/

/-- Text buffer (`struct cbuf`). -/
structure cbuf where
  len : Int
  buf : List Char
deriving DecidableEq, Inhabited

/-- Source: `addToCbuf`; the result is the returned `int` and the buffer. -/
def addToCbuf (cb : cbuf) (buf : List Char) (len : Int) : Option (Int × cbuf) :=
  match realloc junk cb.buf (cb.len + len) with
  | none => some (-1, cb)
  | some newbuf => do
    let newbuf ← memcpy newbuf cb.len buf 0 len
    some (len, { len := cb.len + len, buf := newbuf })

/-- Source: `addRowToErows`. -/
def addRowToErows (s : editorInfo) (dirty : Int) (buf : List Char) (len : Int) :
    Option (Int × editorInfo) :=
  match realloc default s.rows (s.numrows + 1) with
  | none => some (-1, s)
  | some newrows => do
    let newrows ← store newrows s.numrows { dirty := dirty, len := len, buf := buf }
    some (1, { s with rows := newrows, numrows := s.numrows + 1 })

/-- The `for` loop of `updateRows` at index `i` with `todo` iterations to go before `i`
reaches `screen_col`; the third argument is the current `buflen`, the result is the final
`buflen` and `is_entered`. -/
def updateRows.scan (cb : cbuf) (len_count : Int) : Nat → Int → Int → Option (Int × Int)
  | 0, _, buflen => some (buflen, 0)
  | todo + 1, i, _ => do
    let c ← index cb.buf (cb.len - len_count + i)
    if c = '\n' then some (i + 1, 1)
    else if i = len_count - 1 then some (i + 1, 0)
    else updateRows.scan cb len_count todo (i + 1) (i + 1)

/-- The `while (len_count > 0)` loop of `updateRows`; the first argument bounds the number
of iterations. The result is the state and whether the loop ran to its end (`true`) or was
left by the `return` after a failed `malloc` (`false`). With `screen_col <= 0` the `for`
loop leaves `buflen` uninitialised. -/
def updateRows.loop (dirty : Int) (cb : cbuf) : Nat → editorInfo → Int →
    Option (editorInfo × Bool)
  | 0, s, len_count => if len_count > 0 then none else some (s, true)
  | fuel + 1, s, len_count =>
    if len_count > 0 then
      if s.screen_col ≤ 0 then none
      else do
        let r ← updateRows.scan cb len_count s.screen_col.toNat 0 0
        let buflen := r.1
        let n := if r.2 ≠ 0 then buflen - 2 else buflen
        match malloc junk n with
        | none => some (s, false)
        | some newbuf => do
          let newbuf ← memcpy newbuf 0 cb.buf (cb.len - len_count) n
          let a ← addRowToErows s dirty newbuf n
          updateRows.loop dirty cb fuel a.2 (len_count - buflen)
    else some (s, true)

/-- Source: `updateRows`. -/
def updateRows (s : editorInfo) (dirty : Int) (cb : cbuf) : Option editorInfo := do
  let r ← updateRows.loop dirty cb cb.len.toNat s cb.len
  if r.2 then updateSrows r.1 else some r.1

/-- The text of the welcome message. -/
def welcome_msg : List Char := "Welcome to mzim! This program is the vim for mz gen!".toList

/-- Its length, as `initScreenNoArgs` has it. -/
def welcome_len : Int := 52

/-- The inner `for` loop of `initScreenNoArgs` (the spaces before the message). -/
def initScreenNoArgs.pad : Nat → cbuf → Option cbuf
  | 0, cb => some cb
  | todo + 1, cb => do
    let r ← addToCbuf cb [' '] 1
    initScreenNoArgs.pad todo r.2

/-- The outer `for` loop of `initScreenNoArgs` at index `i`, with `todo` iterations left. -/
def initScreenNoArgs.loop (s : editorInfo) : Nat → Int → cbuf → Option cbuf
  | 0, _, cb => some cb
  | todo + 1, i, cb => do
    let r ← addToCbuf cb ['~'] 1
    if i = Int.tdiv s.screen_row 2 - 2 then do
      let cb ← initScreenNoArgs.pad
        (Int.tdiv s.screen_col 2 - Int.tdiv welcome_len 2).toNat r.2
      let r ← addToCbuf cb welcome_msg welcome_len
      let r ← addToCbuf r.2 ['\r', '\n'] 2
      initScreenNoArgs.loop s todo (i + 1) r.2
    else if i < s.screen_row then do
      let r ← addToCbuf r.2 ['\r', '\n'] 2
      initScreenNoArgs.loop s todo (i + 1) r.2
    else initScreenNoArgs.loop s todo (i + 1) r.2

/-- Source: `initScreenNoArgs`. -/
def initScreenNoArgs (s : editorInfo) (cb : cbuf) : Option (cbuf × editorInfo) := do
  let cb ← initScreenNoArgs.loop s (s.screen_row - 1).toNat 0 cb
  let r ← addToCbuf cb ['~'] 1
  let s ← updateRows s 0 r.2
  some (r.2, s)

/-- The body of the read loop of `openFile` for the byte `c`: a `\r` goes in before a
newline (the test `strcmp(c, "\n") == 0` is taken as `c[0] == '\n'`). -/
def openFile.byte (cb : cbuf) (c : Char) : Option cbuf := do
  let cb ← if c = '\n' then (addToCbuf cb ['\r'] 1).map Prod.snd else some cb
  let r ← addToCbuf cb [c] 1
  some r.2

/-- The read loop of `openFile` over the bytes that `fread` delivers. -/
def openFile.read : List Char → cbuf → Option cbuf
  | [], cb => some cb
  | c :: rest, cb => do
    let cb ← openFile.byte cb c
    openFile.read rest cb

/-- Source: `openFile`; `file` holds the bytes of the file, `none` when `fopen` fails. -/
def openFile (s : editorInfo) (cb : cbuf) (file : Option (List Char)) :
    Option (Int × cbuf × editorInfo) :=
  match file with
  | none => some (1, cb, s)
  | some bytes => do
    let cb ← openFile.read bytes cb
    let s ← updateRows s 1 cb
    some (0, cb, s)

/-- Source: `initializeEditorInfo` followed by `getWindowSize`, which reports `ws_row`
rows and `ws_col` columns. -/
def initializeEditorInfo (ws_row ws_col : Int) : editorInfo :=
  { cursor_x := 1, cursor_y := 1, cursor_y_offset := 0,
    screen_row := ws_row, screen_col := ws_col,
    numrows := 0, numsrows := 0, rows := [], srows := [] }

/-- Source: `main` up to the key loop, started without a file name (blank start). -/
def blankStart (ws_row ws_col : Int) : Option editorInfo :=
  (initScreenNoArgs (initializeEditorInfo ws_row ws_col) { len := 0, buf := [] }).map Prod.snd

/-- Source: `main` up to the key loop, started with a file that holds `bytes`. -/
def fileStart (ws_row ws_col : Int) (bytes : List Char) : Option editorInfo :=
  (openFile (initializeEditorInfo ws_row ws_col) { len := 0, buf := [] } (some bytes)).map
    fun r => r.2.2

/-! ## States used in the examples -/

/-- A state that holds the given lines (all of them real content), not yet wrapped. -/
def mkDoc (screen_row screen_col : Int) (lines : List (List Char)) : editorInfo :=
  { cursor_x := 1, cursor_y := 1, cursor_y_offset := 0,
    screen_row := screen_row, screen_col := screen_col,
    numrows := lines.length, numsrows := 0,
    rows := lines.map fun l => { dirty := 1, len := l.length, buf := l },
    srows := [] }

/-- A placeholder line: not real content, the single filler byte. -/
def placeholder : erow := { dirty := 0, len := 1, buf := ['~'] }

/-- A state that holds one placeholder line, not yet wrapped. -/
def blankDoc (screen_row screen_col : Int) : editorInfo :=
  { cursor_x := 1, cursor_y := 1, cursor_y_offset := 0,
    screen_row := screen_row, screen_col := screen_col,
    numrows := 1, numsrows := 0, rows := [placeholder], srows := [] }

/-- The state `s` with the cursor at column `x`, row `y` and scroll offset `off`. -/
def editorInfo.at (s : editorInfo) (x y off : Int) : editorInfo :=
  { s with cursor_x := x, cursor_y := y, cursor_y_offset := off }

/-- Contents of the logical lines. -/
def editorInfo.text (s : editorInfo) : List (List Char) := s.rows.map erow.content


/-- The state `s` after a rebuild of its display lines (`s` itself when the rebuild has no
result). -/
def wrapOf (s : editorInfo) : editorInfo := (updateSrows s).getD s

/-- The state `s` with the display lines `segs` appended. -/
def editorInfo.push (s : editorInfo) (segs : List srow) : editorInfo :=
  { s with srows := s.srows ++ segs, numsrows := s.numsrows + segs.length }

/-- The condition under which the scan of `findSplitPoint` stops at index `j`. -/
def splitAt (s : editorInfo) (buf : List Char) (j : Nat) : Prop :=
  buf[j]? = some ' ' ∧ (j : Int) < s.screen_col ∧ (j : Int) > Int.tdiv s.screen_col 2

/-- How a display line carved off by a break looks: a hard break has `w` bytes, a soft
break has fewer and ends in the space it was found at. -/
def CarvedLine (w i : Int) (d : srow) : Prop :=
  d.row_index = i ∧ d.len = d.buf.length ∧ 1 ≤ d.len ∧
    (d.len = w ∨ (d.len < w ∧ d.buf.getLast? = some ' '))

/-- The display lines `segs` are a wrap of the logical line `r` with index `i` at width `w`. -/
structure RowWrap (w i : Int) (r : erow) (segs : List srow) : Prop where
  owner : ∀ d ∈ segs, d.row_index = i
  concat : (segs.map srow.content).flatten = r.content
  total : (segs.map srow.len).sum = r.len
  shape : ∃ init last, segs = init ++ [last] ∧ last.len < w ∧ ∀ d ∈ init, CarvedLine w i d

/-- A line cut to one byte, as the welcome-message block leaves it. -/
def erow.cut (r : erow) : erow :=
  { r with len := 1, buf := r.buf.take 1 ++ List.replicate (1 - r.buf.length) junk }

/-- The line that `removeErow` leaves in place of `prev` and `cur`: `prev` with the bytes
of `cur` appended when `cur` is real content, `prev` itself otherwise. -/
def mergeRows (prev cur : erow) : erow :=
  if cur.dirty ≠ 0 then
    { prev with len := prev.len + cur.len, buf := prev.content ++ cur.content }
  else prev

/-- The prefix length as the spec words it (4.3): the sum of the lengths of the display
lines immediately before index `a` that share the owner `i`, walking upward from `a - 1`
while the owner matches. -/
def prefixLength (srows : List srow) (a : Nat) (i : Int) : Int :=
  (((srows.take a).reverse.takeWhile fun d => d.row_index = i).map srow.len).sum

/-- The owner of the display line under the cursor. -/
def editorInfo.owner (s : editorInfo) : Option Int :=
  (index s.srows (s.cursor_y + s.cursor_y_offset - 1)).map srow.row_index

/-- The length of the display line under the cursor. -/
def editorInfo.lineLen (s : editorInfo) : Option Int :=
  (index s.srows (s.cursor_y + s.cursor_y_offset - 1)).map srow.len

/-- The filler display line. -/
def filler : srow := { row_index := -1, len := 1, buf := ['~'] }

/-- The display lines of `srows` that logical line `i` owns. -/
def owned (srows : List srow) (i : Int) : List srow :=
  srows.filter fun d => d.row_index = i

/-- A document: `numrows` counts the lines and each line's buffer holds its `len` bytes. -/
def editorInfo.Doc (s : editorInfo) : Prop :=
  s.numrows = s.rows.length ∧ ∀ r ∈ s.rows, r.len ≤ r.buf.length

/-- Modelled from the spec: the invariant `content.len() >= 0` of a logical line, for all
the lines that `numrows` counts. -/
def editorInfo.Lens (s : editorInfo) : Prop :=
  s.numrows = s.rows.length ∧ ∀ r ∈ s.rows, 0 ≤ r.len

/-- Modelled from the spec: "a placeholder line's content is exactly the filler byte". -/
def editorInfo.Placeholders (s : editorInfo) : Prop :=
  ∀ r ∈ s.rows, r.dirty = 0 → r.len = 1 ∧ r.content = ['~']

/-- The call `deleteCharacter(mode, ..)` in state `s` is a merge (`BACKSPACE` at column 1
below row 1) of a real line that is not empty into a placeholder line. -/
def mergesIntoPlaceholder (s : editorInfo) (mode : Int) : Prop :=
  mode = BACKSPACE ∧ s.cursor_x = 1 ∧ s.cursor_y > 1 ∧
    ∃ (d : srow) (prev cur : erow),
      index s.srows (s.cursor_y + s.cursor_y_offset - 1) = some d ∧
      index s.rows (d.row_index - 1) = some prev ∧ index s.rows d.row_index = some cur ∧
      prev.dirty = 0 ∧ cur.dirty ≠ 0 ∧ cur.len ≠ 0

/-- Modelled from the spec: one edit operation (insert of the bytes `b`, delete-forward or
backspace of one byte, enter), or a move of the cursor to any position; a delete in mode
`mode` from state `s` is taken only when `allow s mode` holds. -/
inductive EditStep (allow : editorInfo → Int → Prop) : editorInfo → editorInfo → Prop
  | cursor (s : editorInfo) (x y off : Int) : EditStep allow s (s.at x y off)
  | insert (s s' : editorInfo) (b : List Char) (ret : Int) :
      addCharacter s b b.length = some (ret, s') → EditStep allow s s'
  | delete (s s' : editorInfo) (mode ret : Int) :
      mode = DELETE_KEY ∨ mode = BACKSPACE → allow s mode →
      deleteCharacter s mode 1 = some (ret, s') → EditStep allow s s'
  | enter (s s' : editorInfo) (ret : Int) : Mzim.enter s = some (ret, s') → EditStep allow s s'

/-! ## Memory primitives: basic facts -/

theorem index_natCast {α : Type} (xs : List α) (i : Nat) : index xs (i : Int) = xs[i]? := by
  simp [index]

theorem malloc_eq {α : Type} (fill : α) {n : Int} (h : 0 ≤ n) :
    malloc fill n = some (List.replicate n.toNat fill) := by
  simp [malloc, realloc, h]

theorem memcpy_fresh {α : Type} (fill : α) (src : List α) {n : Int} (h0 : 0 ≤ n)
    (h1 : n ≤ src.length) :
    memcpy (List.replicate n.toNat fill) 0 src 0 n = some (src.take n.toNat) := by
  have h2 : (List.replicate n.toNat fill).length = n.toNat := by simp
  have h3 : ((n.toNat : Nat) : Int) = n := Int.toNat_of_nonneg h0
  simp only [memcpy]
  rw [if_pos ⟨h0, le_refl _, by simp, le_refl _, by omega⟩]
  simp

theorem addRowToSrows_eq (s : editorInfo) (ri : Int) (buf : List Char) (len : Int)
    (h : s.numsrows = s.srows.length) :
    addRowToSrows s ri s.numsrows buf len
      = some (s.push [{ row_index := ri, len := len, buf := buf }]) := by
  have h1 : (0 : Int) ≤ (s.srows.length : Int) + 1 := by omega
  have h2 : ((s.srows.length : Int) + 1).toNat = s.srows.length + 1 := by omega
  simp [addRowToSrows, realloc, store, h, h1, h2, editorInfo.push, List.take_of_length_le]

theorem push_push (s : editorInfo) (a b : List srow) : (s.push a).push b = s.push (a ++ b) := by
  simp [editorInfo.push, add_assoc]

theorem push_nil (s : editorInfo) : s.push [] = s := by
  simp [editorInfo.push]

theorem push_inv (s : editorInfo) (a : List srow) (h : s.numsrows = s.srows.length) :
    (s.push a).numsrows = (s.push a).srows.length := by
  simp [editorInfo.push, h]

/-! ## Wrapper: `findSplitPoint` -/

theorem findSplitPoint.loop_spec (s : editorInfo) (buf : List Char) (n : Nat) :
    (findSplitPoint.loop s buf n = s.screen_col ∧ ∀ k : Nat, k < n → ¬ splitAt s buf k) ∨
    (∃ j : Nat, j < n ∧ findSplitPoint.loop s buf n = (j : Int) + 1 ∧ splitAt s buf j ∧
      ∀ k : Nat, j < k → k < n → ¬ splitAt s buf k) := by
  induction n with
  | zero => left; simp [findSplitPoint.loop]
  | succ n ih =>
    by_cases hc : splitAt s buf n
    · right
      refine ⟨n, Nat.lt_succ_self n, ?_, hc, fun k h1 h2 => by omega⟩
      have hc2 := hc
      unfold splitAt at hc2
      simp only [findSplitPoint.loop, if_pos hc2]
    · have hc2 := hc
      unfold splitAt at hc2
      have hstep : findSplitPoint.loop s buf (n + 1) = findSplitPoint.loop s buf n := by
        simp only [findSplitPoint.loop, if_neg hc2]
      rcases ih with ⟨h1, h2⟩ | ⟨j, hj, h1, h2, h3⟩
      · left
        refine ⟨hstep.trans h1, fun k hk => ?_⟩
        rcases Nat.lt_succ_iff_lt_or_eq.mp hk with h | h
        · exact h2 k h
        · exact h ▸ hc
      · right
        refine ⟨j, Nat.lt_succ_of_lt hj, hstep.trans h1, h2, fun k hk1 hk2 => ?_⟩
        rcases Nat.lt_succ_iff_lt_or_eq.mp hk2 with h | h
        · exact h3 k hk1 h
        · exact h ▸ hc

/-- The split point is the screen width, or one past a space below the width. -/
theorem findSplitPoint_cases (s : editorInfo) (rowlen : Int) (buf : List Char) :
    findSplitPoint s rowlen buf = s.screen_col ∨
    (∃ j : Nat, findSplitPoint s rowlen buf = (j : Int) + 1 ∧ (j : Int) < s.screen_col ∧
      buf[j]? = some ' ') := by
  rcases findSplitPoint.loop_spec s buf rowlen.toNat with ⟨h1, _⟩ | ⟨j, _, h1, h2, _⟩
  · exact Or.inl h1
  · exact Or.inr ⟨j, h1, h2.2.1, h2.1⟩

theorem getLast?_take_succ {α : Type} (l : List α) (j : Nat) (a : α) (h : l[j]? = some a) :
    (l.take (j + 1)).getLast? = some a := by
  have hj : j < l.length := by
    rcases Nat.lt_or_ge j l.length with h1 | h1
    · exact h1
    · rw [List.getElem?_eq_none h1] at h; cases h
  rw [List.getLast?_eq_getElem?]
  have hl : (l.take (j + 1)).length = j + 1 := by simp; omega
  rw [hl, Nat.add_sub_cancel, List.getElem?_take_of_lt (Nat.lt_succ_self j)]
  exact h

/-! ## Wrapper: the carving loop -/

@[simp] theorem push_screen_col (s : editorInfo) (a : List srow) :
    (s.push a).screen_col = s.screen_col := rfl

@[simp] theorem push_screen_row (s : editorInfo) (a : List srow) :
    (s.push a).screen_row = s.screen_row := rfl

@[simp] theorem push_rows (s : editorInfo) (a : List srow) : (s.push a).rows = s.rows := rfl

@[simp] theorem push_numrows (s : editorInfo) (a : List srow) :
    (s.push a).numrows = s.numrows := rfl

/-- One iteration of the carving loop on a remainder that is at least one screen width
long: the first `findSplitPoint` bytes become a display line, the loop goes on after them. -/
theorem carve_step (i : Int) (fuel : Nat) (s : editorInfo) (tmpbuf : List Char)
    (hw : 1 ≤ s.screen_col) (hn : s.numsrows = s.srows.length)
    (hlen : s.screen_col ≤ tmpbuf.length) :
    1 ≤ findSplitPoint s tmpbuf.length tmpbuf ∧
    findSplitPoint s tmpbuf.length tmpbuf ≤ s.screen_col ∧
    updateSrows.carve i (fuel + 1) s tmpbuf.length tmpbuf =
      updateSrows.carve i fuel
        (s.push [{ row_index := i, len := findSplitPoint s tmpbuf.length tmpbuf,
                   buf := tmpbuf.take (findSplitPoint s tmpbuf.length tmpbuf).toNat }])
        ((tmpbuf.drop (findSplitPoint s tmpbuf.length tmpbuf).toNat).length : Int)
        (tmpbuf.drop (findSplitPoint s tmpbuf.length tmpbuf).toNat) := by
  have hsp : 1 ≤ findSplitPoint s tmpbuf.length tmpbuf ∧
      findSplitPoint s tmpbuf.length tmpbuf ≤ s.screen_col := by
    rcases findSplitPoint_cases s tmpbuf.length tmpbuf with h | ⟨j, h1, h2, _⟩
    · rw [h]; exact ⟨hw, le_refl _⟩
    · rw [h1]; omega
  refine ⟨hsp.1, hsp.2, ?_⟩
  have h0 : 0 ≤ findSplitPoint s tmpbuf.length tmpbuf := by omega
  have h1 : findSplitPoint s tmpbuf.length tmpbuf ≤ tmpbuf.length := by omega
  have hge : (tmpbuf.length : Int) ≥ s.screen_col := hlen
  have hdrop : ((tmpbuf.drop (findSplitPoint s tmpbuf.length tmpbuf).toNat).length : Int)
      = (tmpbuf.length : Int) - findSplitPoint s tmpbuf.length tmpbuf := by
    rw [List.length_drop]; omega
  rw [updateSrows.carve, if_pos hge]
  simp only [malloc_eq junk h0, memcpy_fresh junk tmpbuf h0 h1, addRowToSrows_eq s i _ _ hn,
    Option.bind_eq_bind, Option.some_bind, hdrop]

theorem carve_spec (i : Int) : ∀ (fuel : Nat) (s : editorInfo) (tmpbuf : List Char),
    1 ≤ s.screen_col → s.numsrows = s.srows.length → tmpbuf.length ≤ fuel →
    ∃ segs rest,
      updateSrows.carve i fuel s tmpbuf.length tmpbuf
        = some (s.push segs, (rest.length : Int), rest) ∧
      (rest.length : Int) < s.screen_col ∧
      (segs.map srow.content).flatten ++ rest = tmpbuf ∧
      (segs.map srow.len).sum + rest.length = tmpbuf.length ∧
      ∀ d ∈ segs, CarvedLine s.screen_col i d := by
  intro fuel
  induction fuel with
  | zero =>
    intro s tmpbuf hw _ hfuel
    have hnil : tmpbuf = [] := List.eq_nil_of_length_eq_zero (Nat.le_zero.mp hfuel)
    subst hnil
    refine ⟨[], [], ?_, ?_, rfl, rfl, by simp⟩
    · have : ¬ (((([] : List Char).length : Nat) : Int) ≥ s.screen_col) := by simp; omega
      rw [updateSrows.carve, if_neg this, push_nil]
    · simp; omega
  | succ fuel ih =>
    intro s tmpbuf hw hn hfuel
    by_cases hlen : s.screen_col ≤ tmpbuf.length
    · obtain ⟨hsp1, hsp2, hstep⟩ := carve_step i fuel s tmpbuf hw hn hlen
      rw [hstep]
      rcases findSplitPoint_cases s tmpbuf.length tmpbuf with hc | ⟨j, hj1, hj2, hj3⟩
      all_goals
        generalize hspdef : findSplitPoint s tmpbuf.length tmpbuf = sp at *
        have hsplen : sp.toNat ≤ tmpbuf.length := by omega
        have hsppos : 0 < sp.toNat := by omega
        obtain ⟨segs, rest, h1, h2, h3, h4, h5⟩ :=
          ih (s.push [{ row_index := i, len := sp, buf := tmpbuf.take sp.toNat }])
            (tmpbuf.drop sp.toNat) hw (push_inv s _ hn) (by rw [List.length_drop]; omega)
        refine ⟨{ row_index := i, len := sp, buf := tmpbuf.take sp.toNat } :: segs, rest,
          ?_, h2, ?_, ?_, ?_⟩
        · rw [h1, push_push]; rfl
        · simp only [List.map_cons, List.flatten_cons, List.append_assoc]
          rw [h3]
          simp only [srow.content, List.take_take, Nat.min_self, List.take_append_drop]
        · simp only [List.map_cons, List.sum_cons]
          rw [List.length_drop] at h4
          omega
        · intro d hd
          rcases List.mem_cons.mp hd with hd | hd
          · subst hd
            refine ⟨rfl, ?_, hsp1, ?_⟩
            · simp only [List.length_take]; omega
            · first
                | exact Or.inl hc
                | (rcases eq_or_lt_of_le hsp2 with he | hl
                   · exact Or.inl he
                   · refine Or.inr ⟨hl, ?_⟩
                     have : sp.toNat = j + 1 := by omega
                     simp only [this]
                     exact getLast?_take_succ tmpbuf j ' ' hj3)
          · exact h5 d hd
    · refine ⟨[], tmpbuf, ?_, by omega, rfl, by simp, by simp⟩
      have : ¬ ((tmpbuf.length : Int) ≥ s.screen_col) := by omega
      rw [updateSrows.carve, if_neg this, push_nil]

/-! ## Wrapper: one logical line, all lines, fillers -/

theorem row_spec (s : editorInfo) (i : Nat) (r : erow) (hr : s.rows[i]? = some r)
    (hw : 1 ≤ s.screen_col) (hn : s.numsrows = s.srows.length) (hlen : r.len ≤ r.buf.length) :
    ∃ segs, updateSrows.row s i = some (s.push segs) ∧ RowWrap s.screen_col i r segs := by
  by_cases hge : r.len ≥ s.screen_col
  · have h0 : 0 ≤ r.len := by omega
    have hclen : ((r.buf.take r.len.toNat).length : Int) = r.len := by
      rw [List.length_take]; omega
    obtain ⟨segs, rest, h1, h2, h3, h4, h5⟩ :=
      carve_spec i (r.len.toNat) s (r.buf.take r.len.toNat) hw hn (by rw [List.length_take]; omega)
    rw [hclen] at h1 h4
    have hrest : (rest.length : Int) ≥ 0 := by omega
    refine ⟨segs ++ [{ row_index := i, len := rest.length, buf := rest }], ?_, ?_⟩
    · simp only [updateSrows.row, index_natCast, hr, Option.bind_eq_bind, Option.some_bind,
        if_pos hge, malloc_eq junk h0, memcpy_fresh junk r.buf h0 hlen, h1, if_pos hrest]
      rw [addRowToSrows_eq _ _ _ _ (push_inv s segs hn), push_push]
    · refine ⟨?_, ?_, ?_, ⟨segs, _, rfl, h2, h5⟩⟩
      · intro d hd
        rcases List.mem_append.mp hd with hd | hd
        · exact (h5 d hd).1
        · rw [List.mem_singleton.mp hd]
      · simp only [List.map_append, List.flatten_append, List.map_cons, List.map_nil,
          List.flatten_cons, List.flatten_nil, List.append_nil]
        rw [erow.content, ← h3]
        simp [srow.content]
      · simp only [List.map_append, List.sum_append, List.map_cons, List.map_nil, List.sum_cons,
          List.sum_nil]
        omega
  · refine ⟨[{ row_index := i, len := r.len, buf := r.buf }], ?_, ?_⟩
    · simp only [updateSrows.row, index_natCast, hr, Option.bind_eq_bind, Option.some_bind,
        if_neg hge]
      exact addRowToSrows_eq s i r.buf r.len hn
    · refine ⟨?_, ?_, ?_, ⟨[], _, rfl, by simp only; omega, by simp⟩⟩
      · intro d hd
        rw [List.mem_singleton.mp hd]
      · simp [srow.content, erow.content]
      · simp

theorem rows_spec : ∀ (todo : Nat) (s : editorInfo) (i : Nat),
    1 ≤ s.screen_col → s.numsrows = s.srows.length → i + todo ≤ s.rows.length →
    (∀ r ∈ s.rows, r.len ≤ r.buf.length) →
    ∃ segss : List (List srow),
      updateSrows.rows todo s i = some (s.push segss.flatten) ∧ segss.length = todo ∧
      ∀ (k : Nat) (r : erow), k < todo → s.rows[i + k]? = some r →
        ∃ segs, segss[k]? = some segs ∧ RowWrap s.screen_col ((i + k : Nat) : Int) r segs := by
  intro todo
  induction todo with
  | zero =>
    intro s i _ _ _ _
    exact ⟨[], by simp [updateSrows.rows, push_nil], rfl, fun k r hk => absurd hk (Nat.not_lt_zero k)⟩
  | succ todo ih =>
    intro s i hw hn hi hlen
    have hilt : i < s.rows.length := by omega
    have hr : s.rows[i]? = some s.rows[i] := List.getElem?_eq_getElem hilt
    obtain ⟨segs0, h1, h2⟩ :=
      row_spec s i s.rows[i] hr hw hn (hlen _ (List.getElem_mem hilt))
    obtain ⟨segss, h3, h4, h5⟩ :=
      ih (s.push segs0) (i + 1) hw (push_inv s segs0 hn) (by simp only [push_rows]; omega) hlen
    refine ⟨segs0 :: segss, ?_, by simp [h4], ?_⟩
    · simp only [updateSrows.rows, h1, Option.bind_eq_bind, Option.some_bind]
      have hcast : ((i : Nat) : Int) + 1 = ((i + 1 : Nat) : Int) := by push_cast; rfl
      rw [hcast, h3, push_push]
      rfl
    · intro k r hk hkr
      cases k with
      | zero =>
        rw [Nat.add_zero, hr] at hkr
        cases hkr
        exact ⟨segs0, by simp, h2⟩
      | succ k =>
        have e : i + (k + 1) = i + 1 + k := by omega
        rw [e] at hkr ⊢
        obtain ⟨segs, h6, h7⟩ := h5 k r (by omega) hkr
        exact ⟨segs, by simpa using h6, h7⟩

theorem fill_spec : ∀ (todo : Nat) (s : editorInfo), s.numsrows = s.srows.length →
    updateSrows.fill todo s = some (s.push (List.replicate todo filler)) := by
  intro todo
  induction todo with
  | zero => intro s _; simp [updateSrows.fill, push_nil]
  | succ todo ih =>
    intro s hn
    simp only [updateSrows.fill, addRowToSrows_eq s (-1) ['~'] 1 hn, Option.bind_eq_bind,
      Option.some_bind]
    rw [ih _ (push_inv s _ hn), push_push]
    rfl

/-- What `updateSrows` computes on a document: the wraps of the logical lines, in order,
then the fillers. -/
theorem updateSrows_spec (s : editorInfo) (hw : 1 ≤ s.screen_col) (hd : s.Doc) :
    ∃ segss : List (List srow),
      updateSrows s = some { s with
        srows := segss.flatten ++
          List.replicate (s.screen_row - segss.flatten.length).toNat filler,
        numsrows := ((segss.flatten ++
          List.replicate (s.screen_row - segss.flatten.length).toNat filler).length : Nat) } ∧
      segss.length = s.rows.length ∧
      ∀ (k : Nat) (r : erow), s.rows[k]? = some r →
        ∃ segs, segss[k]? = some segs ∧ RowWrap s.screen_col (k : Int) r segs := by
  obtain ⟨hnum, hlen⟩ := hd
  obtain ⟨segss, h1, h2, h3⟩ :=
    rows_spec s.rows.length { s with numsrows := 0, srows := [] } 0 hw (by simp)
      (by simp) hlen
  refine ⟨segss, ?_, h2, ?_⟩
  · have hto : s.numrows.toNat = s.rows.length := by omega
    simp only [updateSrows, hto, Nat.cast_zero] at h1 ⊢
    rw [h1]
    simp only [Option.bind_eq_bind, Option.some_bind]
    rw [fill_spec _ _ (push_inv _ _ (by simp)), push_push]
    simp [editorInfo.push]
  · intro k r hk
    have hlt : k < s.rows.length := by
      rcases Nat.lt_or_ge k s.rows.length with h | h
      · exact h
      · rw [List.getElem?_eq_none h] at hk; cases hk
    simpa using h3 k r hlt (by simpa using hk)

/-! ## Wrapper: the display lines of one owner -/

theorem owned_append (a b : List srow) (c : Int) : owned (a ++ b) c = owned a c ++ owned b c := by
  simp [owned]

theorem owned_eq_self (a : List srow) (c : Int) (h : ∀ d ∈ a, d.row_index = c) :
    owned a c = a := by
  simp only [owned, List.filter_eq_self]
  intro d hd
  simp [h d hd]

theorem owned_eq_nil (a : List srow) (c : Int) (h : ∀ d ∈ a, d.row_index ≠ c) :
    owned a c = [] := by
  simp only [owned, List.filter_eq_nil_iff]
  intro d hd
  simp [h d hd]

theorem owned_flatten : ∀ (segss : List (List srow)) (i : Nat),
    (∀ (k : Nat) (segs : List srow), segss[k]? = some segs →
      ∀ d ∈ segs, d.row_index = ((i + k : Nat) : Int)) →
    ∀ (k : Nat) (segs : List srow), segss[k]? = some segs →
      owned segss.flatten ((i + k : Nat) : Int) = segs := by
  intro segss
  induction segss with
  | nil => intro i _ k segs hk; simp at hk
  | cons hd tl ih =>
    intro i hown k segs hk
    have hhd : ∀ d ∈ hd, d.row_index = (i : Int) := by
      simpa using hown 0 hd (by simp)
    have htl : ∀ (k : Nat) (segs : List srow), tl[k]? = some segs →
        ∀ d ∈ segs, d.row_index = ((i + 1 + k : Nat) : Int) := by
      intro k segs hk d hd
      have := hown (k + 1) segs (by simpa using hk) d hd
      rw [this]
      congr 1
      omega
    rw [List.flatten_cons, owned_append]
    cases k with
    | zero =>
      have hsegs : hd = segs := by simpa using hk
      subst hsegs
      rw [Nat.add_zero, owned_eq_self _ _ hhd, owned_eq_nil, List.append_nil]
      intro d hd
      obtain ⟨l, hl, hdl⟩ := List.mem_flatten.mp hd
      obtain ⟨n, hn, hnl⟩ := List.getElem_of_mem hl
      have := htl n l (by rw [List.getElem?_eq_getElem hn, hnl]) d hdl
      rw [this]
      omega
    | succ k =>
      have e : i + (k + 1) = i + 1 + k := by omega
      rw [e, ih (i + 1) htl k segs (by simpa using hk), owned_eq_nil, List.nil_append]
      intro d hd
      rw [hhd d hd]
      omega

theorem owned_filler (n : Nat) (k : Nat) : owned (List.replicate n filler) (k : Int) = [] := by
  apply owned_eq_nil
  intro d hd
  rw [List.eq_of_mem_replicate hd]
  simp only [filler]
  omega

/-- After `updateSrows` on a document, the display lines that logical line `k` owns are a
wrap of that line. -/
theorem updateSrows_owned (s : editorInfo) (hw : 1 ≤ s.screen_col) (hd : s.Doc) :
    ∃ s', updateSrows s = some s' ∧ s'.rows = s.rows ∧ s'.numrows = s.numrows ∧
      s'.screen_col = s.screen_col ∧ s'.screen_row = s.screen_row ∧
      s'.numsrows = s'.srows.length ∧
      ∀ (k : Nat) (r : erow), s.rows[k]? = some r →
        RowWrap s.screen_col (k : Int) r (owned s'.srows (k : Int)) := by
  obtain ⟨segss, h1, h2, h3⟩ := updateSrows_spec s hw hd
  refine ⟨_, h1, rfl, rfl, rfl, rfl, rfl, ?_⟩
  intro k r hk
  obtain ⟨segs, h4, h5⟩ := h3 k r hk
  have hown : ∀ (k : Nat) (segs : List srow), segss[k]? = some segs →
      ∀ d ∈ segs, d.row_index = ((0 + k : Nat) : Int) := by
    intro k segs hk d hd
    have hlt : k < s.rows.length := by
      rcases Nat.lt_or_ge k segss.length with h | h
      · omega
      · rw [List.getElem?_eq_none h] at hk; cases hk
    obtain ⟨segs2, h6, h7⟩ := h3 k _ (List.getElem?_eq_getElem hlt)
    rw [hk] at h6
    cases h6
    rw [Nat.zero_add]
    exact h7.owner d hd
  have := owned_flatten segss 0 hown k segs h4
  rw [Nat.zero_add] at this
  simp only [owned_append, this, owned_filler, List.append_nil]
  exact h5

/-! ## Claims on the Wrapper -/

/-- C1, as stated, fails: at width 6 the line "abcd efgh" has a soft break at the space at
index 4 (`findSplitPoint` gives 5), and the display lines of the line are "abcd " and
"efgh": the space is the last byte of the first display line, and the concatenation is the
whole content, not the content without that space. -/
theorem updateSrows_break_space_kept :
    findSplitPoint (mkDoc 3 6 ["abcd efgh".toList]) 9 "abcd efgh".toList = 5 ∧
    ∃ s', updateSrows (mkDoc 3 6 ["abcd efgh".toList]) = some s' ∧
      (owned s'.srows 0).map srow.content = ["abcd ".toList, "efgh".toList] ∧
      ((owned s'.srows 0).map srow.content).flatten ≠ "abcdefgh".toList := by
  refine ⟨by decide, _, rfl, by decide, by decide⟩

/-- C1, amended: for every document and every viewport width `>= 1`, `updateSrows` returns,
and for each logical line `i` the display lines owned by `i`, concatenated in order, are
exactly the content of line `i` (no byte is dropped, duplicated or reordered, the space at
a soft break included). -/
theorem updateSrows_concat (s : editorInfo) (hw : 1 ≤ s.screen_col) (hd : s.Doc) :
    ∃ s', updateSrows s = some s' ∧
      ∀ (i : Nat) (r : erow), s.rows[i]? = some r →
        ((owned s'.srows (i : Int)).map srow.content).flatten = r.content := by
  obtain ⟨s', h1, _, _, _, _, _, h2⟩ := updateSrows_owned s hw hd
  exact ⟨s', h1, fun i r hr => (h2 i r hr).concat⟩

theorem mkDoc_Doc (screen_row screen_col : Int) (lines : List (List Char)) :
    (mkDoc screen_row screen_col lines).Doc := by
  refine ⟨by simp [mkDoc], ?_⟩
  intro r hr
  simp only [mkDoc, List.mem_map] at hr
  obtain ⟨l, _, rfl⟩ := hr
  exact le_refl _

theorem updateSrows_concat_witness :
    (1 : Int) ≤ (mkDoc 3 4 ["abc def".toList, "xy".toList]).screen_col ∧
    (mkDoc 3 4 ["abc def".toList, "xy".toList]).Doc ∧
    ∃ s', updateSrows (mkDoc 3 4 ["abc def".toList, "xy".toList]) = some s' ∧
      ∀ (i : Nat) (r : erow), (mkDoc 3 4 ["abc def".toList, "xy".toList]).rows[i]? = some r →
        ((owned s'.srows (i : Int)).map srow.content).flatten = r.content :=
  ⟨by decide, mkDoc_Doc _ _ _,
    updateSrows_concat (mkDoc 3 4 ["abc def".toList, "xy".toList]) (by decide) (mkDoc_Doc _ _ _)⟩

/-- C2, as stated, fails: at width 10 the line "hello world foo" holds a space at index 5,
inside the range from 10 down to 5, yet `findSplitPoint` does not give 6 but 10, and the
display lines are "hello worl" and "d foo", not "hello" and "world foo". -/
theorem findSplitPoint_hello_world :
    "hello world foo".toList[5]? = some ' ' ∧
    findSplitPoint (mkDoc 2 10 ["hello world foo".toList]) 15 "hello world foo".toList ≠ 6 ∧
    findSplitPoint (mkDoc 2 10 ["hello world foo".toList]) 15 "hello world foo".toList = 10 ∧
    (updateSrows (mkDoc 2 10 ["hello world foo".toList])).map
        (fun s' => (owned s'.srows 0).map srow.content)
      ≠ some ["hello".toList, "world foo".toList] := by
  decide

/-- C2, amended: when the remaining length is at least the width `w >= 1`, the wrapper
breaks at `j + 1` where `j` is the highest index with `w / 2 < j < w` (both ends excluded)
that holds a space, and at `w` when no such index holds a space; the carved display line is
the first `findSplitPoint` bytes (the space included) and the loop goes on with the bytes
after them. With `w = 10` the line "hello world foo" is hard-broken into "hello worl"
(length 10) and "d foo" (length 5). -/
theorem findSplitPoint_break (s : editorInfo) (i : Int) (fuel : Nat) (tmpbuf : List Char)
    (hw : 1 ≤ s.screen_col) (hn : s.numsrows = s.srows.length)
    (hlen : s.screen_col ≤ tmpbuf.length) :
    ((∃ j : Nat, findSplitPoint s tmpbuf.length tmpbuf = (j : Int) + 1 ∧
        s.screen_col / 2 < (j : Int) ∧ (j : Int) < s.screen_col ∧ tmpbuf[j]? = some ' ' ∧
        ∀ k : Nat, j < k → (k : Int) < s.screen_col → tmpbuf[k]? ≠ some ' ') ∨
      (findSplitPoint s tmpbuf.length tmpbuf = s.screen_col ∧
        ∀ k : Nat, s.screen_col / 2 < (k : Int) → (k : Int) < s.screen_col →
          tmpbuf[k]? ≠ some ' ')) ∧
    updateSrows.carve i (fuel + 1) s tmpbuf.length tmpbuf =
      updateSrows.carve i fuel
        (s.push [{ row_index := i, len := findSplitPoint s tmpbuf.length tmpbuf,
                   buf := tmpbuf.take (findSplitPoint s tmpbuf.length tmpbuf).toNat }])
        ((tmpbuf.length : Int) - findSplitPoint s tmpbuf.length tmpbuf)
        (tmpbuf.drop (findSplitPoint s tmpbuf.length tmpbuf).toNat) ∧
    (updateSrows (mkDoc 2 10 ["hello world foo".toList])).map
        (fun s' => s'.srows.map fun d => (d.row_index, d.len, d.content))
      = some [(0, 10, "hello worl".toList), (0, 5, "d foo".toList)] := by
  have hdiv : Int.tdiv s.screen_col 2 = s.screen_col / 2 :=
    Int.tdiv_eq_ediv (by omega) (by omega)
  have htoNat : ((tmpbuf.length : Int)).toNat = tmpbuf.length := by omega
  refine ⟨?_, ?_, by decide⟩
  · rcases findSplitPoint.loop_spec s tmpbuf tmpbuf.length with ⟨h1, h2⟩ | ⟨j, hj, h1, h2, h3⟩
    · right
      refine ⟨by rw [findSplitPoint, htoNat]; exact h1, fun k hk1 hk2 hk3 => ?_⟩
      exact h2 k (by omega) ⟨hk3, hk2, by rw [hdiv]; exact hk1⟩
    · left
      obtain ⟨h4, h5, h6⟩ := h2
      rw [hdiv] at h6
      refine ⟨j, by rw [findSplitPoint, htoNat]; exact h1, h6, h5, h4, fun k hk1 hk2 hk3 => ?_⟩
      exact h3 k hk1 (by omega) ⟨hk3, hk2, by rw [hdiv]; omega⟩
  · obtain ⟨h1, h2, h3⟩ := carve_step i fuel s tmpbuf hw hn hlen
    rw [h3, List.length_drop]
    congr 1
    omega

theorem findSplitPoint_break_witness :
    (1 : Int) ≤ (mkDoc 3 6 []).screen_col ∧
    (mkDoc 3 6 []).screen_col ≤ ("abcd efgh".toList.length : Nat) ∧
    (∃ j : Nat, findSplitPoint (mkDoc 3 6 []) ("abcd efgh".toList.length : Nat)
          "abcd efgh".toList = (j : Int) + 1 ∧
        (mkDoc 3 6 []).screen_col / 2 < (j : Int) ∧ (j : Int) < (mkDoc 3 6 []).screen_col ∧
        "abcd efgh".toList[j]? = some ' ' ∧
        ∀ k : Nat, j < k → (k : Int) < (mkDoc 3 6 []).screen_col →
          "abcd efgh".toList[k]? ≠ some ' ') :=
  ⟨by decide, by decide,
    (findSplitPoint_break (mkDoc 3 6 []) 0 0 "abcd efgh".toList (by decide) (by decide)
      (by decide)).1.resolve_right (fun h => absurd h.1 (by decide))⟩

theorem RowWrap.len_le {w i : Int} {r : erow} {segs : List srow} (h : RowWrap w i r segs) :
    ∀ d ∈ segs, d.len ≤ w := by
  obtain ⟨init, last, h1, h2, h3⟩ := h.shape
  intro d hd
  rw [h1] at hd
  rcases List.mem_append.mp hd with hd | hd
  · obtain ⟨_, _, _, h4 | h4⟩ := h3 d hd
    · exact le_of_eq h4
    · exact le_of_lt h4.1
  · rw [List.mem_singleton.mp hd]
    exact le_of_lt h2

/-- C3: for every document and every viewport width `>= 1`, `updateSrows` returns, and for
each logical line the sum of the lengths of the display lines it owns is `<=` the length of
the line; the two are in fact equal in every case (no break drops a byte), so in particular
whenever no soft break consumed a space. -/
theorem updateSrows_length_sum (s : editorInfo) (hw : 1 ≤ s.screen_col) (hd : s.Doc) :
    ∃ s', updateSrows s = some s' ∧
      ∀ (i : Nat) (r : erow), s.rows[i]? = some r →
        ((owned s'.srows (i : Int)).map srow.len).sum ≤ r.len ∧
        ((owned s'.srows (i : Int)).map srow.len).sum = r.len := by
  obtain ⟨s', h1, _, _, _, _, _, h2⟩ := updateSrows_owned s hw hd
  exact ⟨s', h1, fun i r hr => ⟨le_of_eq (h2 i r hr).total, (h2 i r hr).total⟩⟩

theorem updateSrows_length_sum_witness :
    (1 : Int) ≤ (mkDoc 3 4 ["abc def".toList, "xy".toList]).screen_col ∧
    (mkDoc 3 4 ["abc def".toList, "xy".toList]).Doc ∧
    ∃ s', updateSrows (mkDoc 3 4 ["abc def".toList, "xy".toList]) = some s' ∧
      ∀ (i : Nat) (r : erow), (mkDoc 3 4 ["abc def".toList, "xy".toList]).rows[i]? = some r →
        ((owned s'.srows (i : Int)).map srow.len).sum ≤ r.len ∧
        ((owned s'.srows (i : Int)).map srow.len).sum = r.len :=
  ⟨by decide, mkDoc_Doc _ _ _,
    updateSrows_length_sum (mkDoc 3 4 ["abc def".toList, "xy".toList]) (by decide)
      (mkDoc_Doc _ _ _)⟩

/-- C4: for every document and every viewport width `w >= 1`, `updateSrows` returns and
every display line it produces fits the viewport: its length is `<= w`. The display lines
of a logical line are a run of carved lines followed by one last line: a carved line has
exactly `w` bytes (hard break, or soft break at `w - 1`) or fewer than `w` bytes ending in
the space of its soft break; the last line (final remainder or unwrapped line) has fewer
than `w` bytes. -/
theorem updateSrows_fits (s : editorInfo) (hw : 1 ≤ s.screen_col) (hd : s.Doc) :
    ∃ s', updateSrows s = some s' ∧
      (∀ d ∈ s'.srows, d.len ≤ s.screen_col ∧ (d.content.length : Int) ≤ s.screen_col) ∧
      ∀ (i : Nat) (r : erow), s.rows[i]? = some r →
        ∃ init last, owned s'.srows (i : Int) = init ++ [last] ∧ last.len < s.screen_col ∧
          ∀ d ∈ init, 1 ≤ d.len ∧
            (d.len = s.screen_col ∨ (d.len < s.screen_col ∧ d.content.getLast? = some ' ')) := by
  obtain ⟨segss, h1, h2, h3⟩ := updateSrows_spec s hw hd
  obtain ⟨s', h4, _, _, _, _, _, h5⟩ := updateSrows_owned s hw hd
  rw [h1] at h4
  cases h4
  refine ⟨_, h1, ?_, ?_⟩
  · have hlen : ∀ d : srow, d.len ≤ s.screen_col →
        d.len ≤ s.screen_col ∧ (d.content.length : Int) ≤ s.screen_col := by
      intro d hle
      refine ⟨hle, ?_⟩
      have : d.content.length ≤ d.len.toNat := by
        simp only [srow.content, List.length_take]; omega
      omega
    intro d hmem
    apply hlen
    simp only [List.mem_append] at hmem
    rcases hmem with hmem | hmem
    · obtain ⟨l, hl, hdl⟩ := List.mem_flatten.mp hmem
      obtain ⟨n, hn, hnl⟩ := List.getElem_of_mem hl
      obtain ⟨segs, h6, h7⟩ := h3 n _ (List.getElem?_eq_getElem (h2 ▸ hn))
      rw [List.getElem?_eq_getElem hn, hnl] at h6
      cases h6
      exact h7.len_le d hdl
    · rw [List.eq_of_mem_replicate hmem]
      exact hw
  · intro i r hr
    obtain ⟨init, last, h6, h7, h8⟩ := (h5 i r hr).shape
    refine ⟨init, last, h6, h7, fun d hd => ?_⟩
    obtain ⟨_, h9, h10, h11⟩ := h8 d hd
    refine ⟨h10, h11.imp id (fun h => ⟨h.1, ?_⟩)⟩
    have : d.content = d.buf := by
      simp only [srow.content]
      exact List.take_of_length_le (by omega)
    rw [this]
    exact h.2

theorem updateSrows_fits_witness :
    (1 : Int) ≤ (mkDoc 3 4 ["abc def".toList, "xy".toList]).screen_col ∧
    (mkDoc 3 4 ["abc def".toList, "xy".toList]).Doc ∧
    ∃ s', updateSrows (mkDoc 3 4 ["abc def".toList, "xy".toList]) = some s' ∧
      ∀ d ∈ s'.srows, d.len ≤ 4 ∧ (d.content.length : Int) ≤ 4 :=
  ⟨by decide, mkDoc_Doc _ _ _,
    (updateSrows_fits (mkDoc 3 4 ["abc def".toList, "xy".toList]) (by decide)
      (mkDoc_Doc _ _ _)).imp fun _ h => ⟨h.1, h.2.1⟩⟩

/-- C5: for every document, viewport width `w >= 1` and viewport height `h`, `updateSrows`
returns the display lines owned by the logical lines `0 .. numrows - 1`, in that order and
at least one for each line, followed by exactly `max(0, h - owned lines)` fillers (owner
`-1`, length 1, the byte `~`); the result has at least `h` entries and `numsrows` counts
them. A document of one placeholder line with `w = 20`, `h = 5` gives one owned line and
four fillers. -/
theorem updateSrows_layout (s : editorInfo) (hw : 1 ≤ s.screen_col) (hd : s.Doc) :
    (∃ (s' : editorInfo) (segss : List (List srow)), updateSrows s = some s' ∧
      s'.srows = segss.flatten ++
        List.replicate (s.screen_row - segss.flatten.length).toNat
          { row_index := -1, len := 1, buf := ['~'] } ∧
      (segss.length : Int) = s.numrows ∧
      (∀ (k : Nat) (segs : List srow), segss[k]? = some segs →
        segs ≠ [] ∧ ∀ d ∈ segs, d.row_index = (k : Int)) ∧
      s'.numsrows = s'.srows.length ∧ s.screen_row ≤ s'.numsrows) ∧
    (updateSrows (blankDoc 5 20)).map (fun s' => s'.srows)
      = some [srow.mk 0 1 ['~'], srow.mk (-1) 1 ['~'], srow.mk (-1) 1 ['~'],
          srow.mk (-1) 1 ['~'], srow.mk (-1) 1 ['~']] := by
  refine ⟨?_, by decide⟩
  obtain ⟨segss, h1, h2, h3⟩ := updateSrows_spec s hw hd
  refine ⟨_, segss, h1, rfl, by rw [h2, hd.1], ?_, rfl, ?_⟩
  · intro k segs hk
    have hlt : k < s.rows.length := by
      rcases Nat.lt_or_ge k segss.length with h | h
      · omega
      · rw [List.getElem?_eq_none h] at hk; cases hk
    obtain ⟨segs2, h6, h7⟩ := h3 k _ (List.getElem?_eq_getElem hlt)
    rw [hk] at h6
    cases h6
    refine ⟨?_, h7.owner⟩
    obtain ⟨init, last, h8, _⟩ := h7.shape
    rw [h8]
    simp
  · simp only [List.length_append, List.length_replicate]
    omega

theorem updateSrows_layout_witness :
    (1 : Int) ≤ (mkDoc 3 4 ["abc def".toList, "xy".toList]).screen_col ∧
    (mkDoc 3 4 ["abc def".toList, "xy".toList]).Doc ∧
    ∃ (s' : editorInfo) (segss : List (List srow)),
      updateSrows (mkDoc 3 4 ["abc def".toList, "xy".toList]) = some s' ∧
      s'.srows = segss.flatten ++
        List.replicate ((mkDoc 3 4 ["abc def".toList, "xy".toList]).screen_row
            - segss.flatten.length).toNat
          { row_index := -1, len := 1, buf := ['~'] } :=
  ⟨by decide, mkDoc_Doc _ _ _,
    (updateSrows_layout (mkDoc 3 4 ["abc def".toList, "xy".toList]) (by decide)
      (mkDoc_Doc _ _ _)).1.imp fun _ h => h.imp fun _ h => ⟨h.1, h.2.1⟩⟩

/-! ## Memory primitives: splicing -/

theorem store_natCast {α : Type} (xs : List α) (i : Nat) (v : α) (h : i < xs.length) :
    store xs (i : Int) v = some (xs.set i v) := by
  have h1 : (0 : Int) ≤ (i : Int) ∧ (i : Int) < xs.length := ⟨by omega, by omega⟩
  simp [store, h1]

theorem memcpy_mid {α : Type} (a m z x y w : List α) (hm : m.length = y.length) :
    memcpy (a ++ m ++ z) a.length (x ++ y ++ w) x.length y.length = some (a ++ y ++ z) := by
  have hc : (0 : Int) ≤ (y.length : Int) ∧ (0 : Int) ≤ (a.length : Int) ∧
      (a.length : Int) + y.length ≤ ((a ++ m ++ z).length : Nat) ∧
      (0 : Int) ≤ (x.length : Int) ∧
      (x.length : Int) + y.length ≤ ((x ++ y ++ w).length : Nat) := by
    simp only [List.length_append, Nat.cast_add]
    omega
  have h1 : ((a.length : Int) + y.length).toNat = a.length + m.length := by omega
  simp only [memcpy, if_pos hc, Int.toNat_ofNat, h1]
  simp [List.take_append_eq_append_take, List.take_of_length_le, ← hm]

theorem realloc_grow {α : Type} (fill : α) (c tail : List α) (n : Nat) :
    ∃ g : List α, g.length = n ∧
      realloc fill (c ++ tail) ((c.length : Int) + n) = some (c ++ g) := by
  have h0 : (0 : Int) ≤ (c.length : Int) + n := by omega
  have h1 : ((c.length : Int) + n).toNat = c.length + n := by omega
  have h2 : c.length + n - (c ++ tail).length = n - tail.length := by
    rw [List.length_append]; omega
  refine ⟨tail.take n ++ List.replicate (n - tail.length) fill, ?_, ?_⟩
  · simp only [List.length_append, List.length_take, List.length_replicate]; omega
  · simp only [realloc, if_pos h0, h1, h2, List.take_append, List.append_assoc]

/-- The three buffer operations of `addCharacter`: grow the buffer by `b.length`, move the
bytes from offset `p` on up by `b.length`, write `b` at offset `p`. -/
theorem insert_bytes (buf b : List Char) (L p : Int) (h0 : 0 ≤ p) (h1 : p ≤ L)
    (h2 : L ≤ buf.length) :
    ∃ nb nb1, realloc junk buf (L + b.length) = some nb ∧
      memcpy nb (p + b.length) nb p (L - p) = some nb1 ∧
      memcpy nb1 p b 0 b.length
        = some ((buf.take L.toNat).take p.toNat ++ b ++ (buf.take L.toNat).drop p.toNat) := by
  obtain ⟨c1, c2, tail, rfl, hc1, hc2⟩ : ∃ c1 c2 tail : List Char,
      buf = c1 ++ c2 ++ tail ∧ (c1.length : Int) = p ∧ (c2.length : Int) = L - p := by
    refine ⟨buf.take p.toNat, (buf.drop p.toNat).take (L.toNat - p.toNat), buf.drop L.toNat,
      ?_, ?_, ?_⟩
    · have e1 : buf.drop L.toNat = (buf.drop p.toNat).drop (L.toNat - p.toNat) := by
        rw [List.drop_drop]; congr 1; omega
      rw [e1, List.append_assoc, List.take_append_drop, List.take_append_drop]
    · simp only [List.length_take]; omega
    · simp only [List.length_take, List.length_drop]; omega
  have hL : L = ((c1 ++ c2).length : Nat) := by simp only [List.length_append]; omega
  obtain ⟨g, hg, hre⟩ := realloc_grow junk (c1 ++ c2) tail b.length
  have hsplit : c2 ++ g = (c2 ++ g).take b.length ++ (c2 ++ g).drop b.length :=
    (List.take_append_drop _ _).symm
  have hu : ((c2 ++ g).take b.length).length = b.length := by
    simp only [List.length_take, List.length_append]; omega
  have hv : ((c2 ++ g).drop b.length).length = c2.length := by
    simp only [List.length_drop, List.length_append]; omega
  have e5 : L.toNat = (c1 ++ c2).length := by omega
  have e6 : p.toNat = c1.length := by omega
  have hres : ((c1 ++ c2 ++ tail).take L.toNat).take p.toNat ++ b
      ++ ((c1 ++ c2 ++ tail).take L.toNat).drop p.toNat = c1 ++ b ++ c2 := by
    rw [e5, e6, List.take_left, List.take_left, List.drop_left]
  rw [hres]
  refine ⟨c1 ++ c2 ++ g, c1 ++ (c2 ++ g).take b.length ++ c2, ?_, ?_, ?_⟩
  · rw [hL]; exact hre
  · have e1 : p + (b.length : Int) = ((c1 ++ (c2 ++ g).take b.length).length : Nat) := by
      simp only [List.length_append, hu]; omega
    have e2 : c1 ++ c2 ++ g
        = (c1 ++ (c2 ++ g).take b.length) ++ (c2 ++ g).drop b.length ++ [] := by
      rw [List.append_nil, List.append_assoc c1, List.append_assoc c1, ← hsplit]
    rw [e1, ← hc2, ← hc1]
    conv_lhs => arg 1; rw [e2]
    rw [memcpy_mid _ _ [] c1 c2 g hv, List.append_nil]
  · have e3 : b = [] ++ b ++ [] := by simp
    have e4 : (0 : Int) = (([] : List Char).length : Nat) := rfl
    rw [← hc1]
    conv_lhs => arg 3; rw [e3]
    conv_lhs => arg 4; rw [e4]
    rw [memcpy_mid c1 _ c2 [] b [] hu]

theorem split_take {α : Type} (buf : List α) (L : Int) (h0 : 0 ≤ L) (h1 : L ≤ buf.length) :
    ∃ c tail : List α, buf = c ++ tail ∧ (c.length : Int) = L ∧ buf.take L.toNat = c := by
  refine ⟨buf.take L.toNat, buf.drop L.toNat, (List.take_append_drop _ _).symm, ?_, rfl⟩
  rw [List.length_take]; omega

/-- The buffer of the new line of `enter`: the bytes of the line from offset `p` on. -/
theorem tail_bytes (buf : List Char) (L p : Int) (h0 : 0 ≤ p) (h1 : p ≤ L)
    (h2 : L ≤ buf.length) :
    ∃ nb, malloc junk (L - p) = some nb ∧
      memcpy nb 0 buf p (L - p) = some ((buf.take L.toNat).drop p.toNat) := by
  obtain ⟨c, tail, rfl, hc, hct⟩ := split_take buf L (by omega) h2
  obtain ⟨c1, c2, rfl, hc1, hc1t⟩ := split_take c p h0 (by omega)
  have hc2 : (c2.length : Int) = L - p := by
    rw [← hc, ← hc1]; simp only [List.length_append]; push_cast; ring
  have hp : p.toNat = c1.length := by omega
  refine ⟨List.replicate c2.length junk, by rw [malloc_eq junk (by omega), ← hc2]; simp, ?_⟩
  have e1 : List.replicate c2.length junk = [] ++ List.replicate c2.length junk ++ [] := by simp
  have e4 : (0 : Int) = (([] : List Char).length : Nat) := rfl
  rw [hct, ← hc2, ← hc1, Int.toNat_ofNat, List.drop_left]
  conv_lhs => arg 1; rw [e1]
  conv_lhs => arg 2; rw [e4]
  rw [memcpy_mid [] _ [] c1 c2 tail (by simp)]
  simp

/-! ## EditEngine: the welcome-message block -/

theorem Doc_set (s : editorInfo) (rows : List erow) (k : Nat) (v : erow)
    (hd : s.numrows = rows.length ∧ ∀ r ∈ rows, r.len ≤ r.buf.length)
    (hv : v.len ≤ v.buf.length) :
    s.numrows = (rows.set k v).length ∧ ∀ r ∈ rows.set k v, r.len ≤ r.buf.length := by
  refine ⟨by rw [List.length_set]; exact hd.1, fun r hr => ?_⟩
  rcases List.mem_or_eq_of_mem_set hr with h | h
  · exact hd.2 r h
  · rw [h]; exact hv

/-- What the welcome-message block does when its index `screen_row / 2 - 2` is a line
index: that line, if it is a placeholder longer than one byte, is cut to its first byte;
nothing else changes. -/
theorem removeWelcomeMessage_spec (s : editorInfo)
    (hwi : 0 ≤ Int.tdiv s.screen_row 2 - 2 ∧ Int.tdiv s.screen_row 2 - 2 < s.rows.length) :
    ∃ rows', removeWelcomeMessage s = some { s with rows := rows' } ∧
      rows'.length = s.rows.length ∧
      ∀ (k : Nat) (r : erow), s.rows[k]? = some r →
        rows'[k]? = some
          (if (k : Int) = Int.tdiv s.screen_row 2 - 2 ∧ r.dirty = 0 ∧ r.len > 1 then r.cut
          else r) := by
  obtain ⟨w, hw⟩ : ∃ w : Nat, Int.tdiv s.screen_row 2 - 2 = (w : Int) :=
    ⟨(Int.tdiv s.screen_row 2 - 2).toNat, by omega⟩
  rw [hw] at hwi
  have hlt : w < s.rows.length := by omega
  have hget : s.rows[w]? = some s.rows[w] := List.getElem?_eq_getElem hlt
  by_cases hc : s.rows[w].dirty = 0 ∧ s.rows[w].len > 1
  · refine ⟨s.rows.set w s.rows[w].cut, ?_, ?_, ?_⟩
    · simp only [removeWelcomeMessage, hw, index_natCast, hget, Option.bind_eq_bind,
        Option.some_bind, if_pos hc, store_natCast _ _ _ hlt]
      simp [realloc, erow.cut]
    · simp
    · intro k r hk
      by_cases hkw : k = w
      · subst hkw
        rw [hget] at hk
        cases hk
        rw [hw, if_pos ⟨rfl, hc⟩, List.getElem?_set_self hlt]
      · have : ¬ ((k : Int) = Int.tdiv s.screen_row 2 - 2 ∧ r.dirty = 0 ∧ r.len > 1) := by
          rw [hw]; intro h; exact hkw (by omega)
        rw [if_neg this, List.getElem?_set_ne (Ne.symm hkw), hk]
  · refine ⟨s.rows, ?_, rfl, ?_⟩
    · simp only [removeWelcomeMessage, hw, index_natCast, hget, Option.bind_eq_bind,
        Option.some_bind, if_neg hc]
    · intro k r hk
      have : ¬ ((k : Int) = Int.tdiv s.screen_row 2 - 2 ∧ r.dirty = 0 ∧ r.len > 1) := by
        rw [hw]
        rintro ⟨h1, h2⟩
        have hkw : k = w := by omega
        subst hkw
        rw [hget] at hk
        cases hk
        exact hc h2
      rw [if_neg this, hk]

theorem removeWelcomeMessage_Doc (s : editorInfo) (hd : s.Doc)
    (hwi : 0 ≤ Int.tdiv s.screen_row 2 - 2 ∧ Int.tdiv s.screen_row 2 - 2 < s.rows.length) :
    ∃ sw, removeWelcomeMessage s = some sw ∧ sw.Doc ∧ sw.screen_col = s.screen_col ∧
      sw.rows.length = s.rows.length ∧
      ∀ (k : Nat) (r : erow), s.rows[k]? = some r → r.dirty ≠ 0 → sw.rows[k]? = some r := by
  obtain ⟨rows', h1, h2, h3⟩ := removeWelcomeMessage_spec s hwi
  refine ⟨_, h1, ⟨by simp only [h2]; exact hd.1, ?_⟩, rfl, h2, ?_⟩
  · intro r hr
    obtain ⟨k, hk, hkr⟩ := List.getElem_of_mem hr
    have hk2 : k < s.rows.length := h2 ▸ hk
    have := h3 k _ (List.getElem?_eq_getElem hk2)
    rw [List.getElem?_eq_getElem hk, hkr] at this
    cases this
    split
    · simp only [erow.cut, List.length_append, List.length_take, List.length_replicate]; omega
    · exact hd.2 _ (List.getElem_mem hk2)
  · intro k r hk hdirty
    rw [h3 k r hk, if_neg (fun h => hdirty h.2.1)]

/-! ## EditEngine: `addCharacter` -/

theorem truncatePlaceholder_eq (r : erow) :
    truncatePlaceholder r = some (if r.dirty = 0 then { r with len := 0, buf := [] } else r) := by
  by_cases h : r.dirty = 0
  · simp [truncatePlaceholder, h, realloc]
  · simp [truncatePlaceholder, h]

theorem getElem?_lt {α : Type} {xs : List α} {i : Nat} {a : α} (h : xs[i]? = some a) :
    i < xs.length := by
  rcases Nat.lt_or_ge i xs.length with h1 | h1
  · exact h1
  · rw [List.getElem?_eq_none h1] at h; cases h

theorem addCharacter_core (s : editorInfo) (b : List Char) (i : Nat) (d : srow) (r cur : erow)
    (P : Int) (hw : 1 ≤ s.screen_col) (hd : s.Doc)
    (hcur : index s.srows (s.cursor_y + s.cursor_y_offset - 1) = some d)
    (hown : d.row_index = i) (hrow : s.rows[i]? = some r)
    (hP : getSrowLen s i = some P)
    (hwi : 0 ≤ Int.tdiv s.screen_row 2 - 2 ∧ Int.tdiv s.screen_row 2 - 2 < s.numrows)
    (hdirty : cur = if r.dirty = 0 then { r with len := 0, buf := [] } else r)
    (hp0 : 0 ≤ P + s.cursor_x - 1) (hp1 : P + s.cursor_x - 1 ≤ cur.len)
    (hlen : cur.len ≤ cur.buf.length) :
    ∃ s', addCharacter s b b.length = some ((b.length : Int), s') ∧
      s'.rows[i]? = some (erow.mk 1 (cur.len + b.length)
        (cur.content.take (P + s.cursor_x - 1).toNat ++ b
          ++ cur.content.drop (P + s.cursor_x - 1).toNat)) ∧
      s'.Doc ∧ s'.screen_col = s.screen_col := by
  have hilt : i < s.rows.length := getElem?_lt hrow
  have hstep : truncatePlaceholder r = some cur := by rw [truncatePlaceholder_eq, hdirty]
  obtain ⟨nb, nb1, h1, h2, h3⟩ := insert_bytes cur.buf b cur.len _ hp0 hp1 hlen
  have h2' : memcpy nb (P + s.cursor_x + b.length - 1) nb (P + s.cursor_x - 1)
      (cur.len - P - s.cursor_x + 1) = some nb1 := by
    have e1 : P + s.cursor_x + (b.length : Int) - 1 = P + s.cursor_x - 1 + b.length := by ring
    have e2 : cur.len - P - s.cursor_x + 1 = cur.len - (P + s.cursor_x - 1) := by ring
    rw [e1, e2]; exact h2
  have hP' : getSrowLen { s with rows := s.rows.set i cur } i = some P := hP
  have hilt2 : i < (s.rows.set i cur).length := by rw [List.length_set]; exact hilt
  obtain ⟨newrow, hnew⟩ : ∃ newrow : erow, newrow = erow.mk 1 (cur.len + b.length)
      (cur.content.take (P + s.cursor_x - 1).toNat ++ b
        ++ cur.content.drop (P + s.cursor_x - 1).toNat) := ⟨_, rfl⟩
  have hdoc2 : editorInfo.Doc { s with rows := (s.rows.set i cur).set i newrow } := by
    apply Doc_set s _ _ _ (Doc_set s _ _ _ hd hlen)
    rw [hnew]
    simp only [erow.content, List.length_append, List.length_take, List.length_drop]
    omega
  obtain ⟨sw, h4, h5, h6, h7, h8⟩ := removeWelcomeMessage_Doc _ hdoc2
    (by simp only [List.length_set]; rw [← hd.1]; exact hwi)
  obtain ⟨s', h9, h10, h11, h12, _⟩ := updateSrows_owned sw (by rw [h6]; exact hw) h5
  refine ⟨s', ?_, ?_, ⟨by rw [h11, h10]; exact h5.1, by rw [h10]; exact h5.2⟩, by rw [h12, h6]⟩
  · unfold addCharacter
    simp only [hcur, hown, index_natCast, hrow, Option.bind_eq_bind, Option.some_bind, hstep,
      store_natCast _ _ _ hilt, h1, hP', h2', h3, store_natCast _ _ _ hilt2]
    simp only [hnew, erow.content] at h4
    simp only [h4, Option.some_bind, h9]
  · rw [h10, ← hnew]
    exact h8 i _ (by simp [hilt]) (by rw [hnew]; simp)

/-- C6: take a state (a document, viewport width `>= 1`, welcome index `screen_row / 2 - 2`
a line index) whose cursor is on a display line owned by logical line `i`, and let `p` be
the prefix length `getSrowLen` returns plus `cursor_x - 1`. If line `i` is real content `c`
and `0 <= p <= |c|`, then `addCharacter(b, n)` with `n = |b|` returns `n` and leaves line `i`
flagged real (`dirty = 1`) with length `|c| + n` and content `c[0..p) ++ b ++ c[p..)`. If
line `i` is a placeholder and `p = 0` (cursor at column 1), it returns `n` and leaves line
`i` flagged real with content exactly `b`. -/
theorem addCharacter_spec (s : editorInfo) (b : List Char) (i : Nat) (d : srow) (r : erow)
    (P : Int) (hw : 1 ≤ s.screen_col) (hd : s.Doc)
    (hwi : 0 ≤ Int.tdiv s.screen_row 2 - 2 ∧ Int.tdiv s.screen_row 2 - 2 < s.numrows)
    (hcur : index s.srows (s.cursor_y + s.cursor_y_offset - 1) = some d)
    (hown : d.row_index = i) (hrow : s.rows[i]? = some r) (hP : getSrowLen s i = some P) :
    (r.dirty ≠ 0 → 0 ≤ P + s.cursor_x - 1 → P + s.cursor_x - 1 ≤ r.len →
      ∃ s', addCharacter s b b.length = some ((b.length : Int), s') ∧
        s'.rows[i]? = some (erow.mk 1 (r.len + b.length)
          (r.content.take (P + s.cursor_x - 1).toNat ++ b
            ++ r.content.drop (P + s.cursor_x - 1).toNat))) ∧
    (r.dirty = 0 → P + s.cursor_x - 1 = 0 →
      ∃ s', addCharacter s b b.length = some ((b.length : Int), s') ∧
        s'.rows[i]? = some (erow.mk 1 b.length b)) := by
  constructor
  · intro hdirty hp0 hp1
    obtain ⟨s', h1, h2, _⟩ := addCharacter_core s b i d r r P hw hd hcur hown hrow hP hwi
      (by rw [if_neg hdirty]) hp0 hp1 (hd.2 r (List.getElem?_mem hrow))
    exact ⟨s', h1, h2⟩
  · intro hdirty hp
    obtain ⟨s', h1, h2, _⟩ := addCharacter_core s b i d r { r with len := 0, buf := [] } P hw hd
      hcur hown hrow hP hwi (by rw [if_pos hdirty]) (by rw [hp]) (by rw [hp]) (by simp)
    refine ⟨s', h1, ?_⟩
    rw [h2]
    simp [erow.content]

theorem mkDoc_wrap_Doc (screen_row screen_col : Int) (lines : List (List Char)) (x y off : Int)
    (h : 1 ≤ screen_col) : ((wrapOf (mkDoc screen_row screen_col lines)).at x y off).Doc := by
  obtain ⟨s', h1, h2, h3, _⟩ :=
    updateSrows_owned (mkDoc screen_row screen_col lines) h (mkDoc_Doc _ _ _)
  have h4 := mkDoc_Doc screen_row screen_col lines
  simp only [wrapOf, h1, Option.getD_some, editorInfo.at, editorInfo.Doc, h2, h3]
  exact h4

theorem addCharacter_spec_witness :
    (∃ s', addCharacter ((wrapOf (mkDoc 4 10 ["abcdefg".toList, "xy".toList])).at 3 1 0)
        "QR".toList ("QR".toList.length : Nat) = some ((("QR".toList.length : Nat) : Int), s') ∧
      s'.rows[0]? = some (erow.mk 1 9 "abQRcdefg".toList)) ∧
    (∃ s', addCharacter ((wrapOf (blankDoc 4 10)).at 1 1 0)
        "QR".toList ("QR".toList.length : Nat) = some ((("QR".toList.length : Nat) : Int), s') ∧
      s'.rows[0]? = some (erow.mk 1 2 "QR".toList)) :=
  ⟨(addCharacter_spec ((wrapOf (mkDoc 4 10 ["abcdefg".toList, "xy".toList])).at 3 1 0)
      "QR".toList 0 (srow.mk 0 7 "abcdefg".toList) (erow.mk 1 7 "abcdefg".toList) 0
      (by decide) (mkDoc_wrap_Doc _ _ _ _ _ _ (by decide)) (by decide) (by decide) (by decide)
      (by decide) (by decide)).1 (by decide) (by decide) (by decide),
   (addCharacter_spec ((wrapOf (blankDoc 4 10)).at 1 1 0)
      "QR".toList 0 (srow.mk 0 1 ['~']) placeholder 0
      (by decide) ⟨by decide, by decide⟩ (by decide) (by decide) (by decide)
      (by decide) (by decide)).2 (by decide) (by decide)⟩

/-! ## EditEngine: `deleteCharacter` -/

/-- C7, evaluated where it fails. Width 4, line "abcdefg" (wrapped as "abcd", "efg"), cursor
on the continuation segment at column 2, so the prefix length is 4 and the true offset is
`p = 5`: `DELETE_KEY` with `len = 1` should leave "abcdeg" and `BACKSPACE` with `len = 1`
should leave "abcdfg", yet the line becomes "agcdef" and "fgcdef". Width 10, the same line
unwrapped, cursor at column 4 (`p = 3`): `BACKSPACE` with `len = 2` should leave "adefg",
yet the line becomes "abefg". -/
theorem deleteCharacter_splice_misplaced :
    getSrowLen ((wrapOf (mkDoc 5 4 ["abcdefg".toList])).at 2 2 0) 0 = some 4 ∧
    (deleteCharacter ((wrapOf (mkDoc 5 4 ["abcdefg".toList])).at 2 2 0) DELETE_KEY 1).map
        (fun res => (res.1, res.2.text)) = some (1, ["agcdef".toList]) ∧
    (deleteCharacter ((wrapOf (mkDoc 5 4 ["abcdefg".toList])).at 2 2 0) BACKSPACE 1).map
        (fun res => (res.1, res.2.text)) = some (1, ["fgcdef".toList]) ∧
    getSrowLen ((wrapOf (mkDoc 5 10 ["abcdefg".toList])).at 4 1 0) 0 = some 0 ∧
    (deleteCharacter ((wrapOf (mkDoc 5 10 ["abcdefg".toList])).at 4 1 0) BACKSPACE 2).map
        (fun res => (res.1, res.2.text)) = some (2, ["abefg".toList]) := by
  decide

/-- The buffer operations of the splice of `deleteCharacter` when the bytes `[a, q)` of a
line of length `L` go: the tail from `q` on is saved, the buffer is cut to `L - (q - a)`
bytes, the tail is written at `a`. -/
theorem splice_bytes (buf : List Char) (L a q : Int) (h0 : 0 ≤ a) (h1 : a ≤ q) (h2 : q ≤ L)
    (h3 : L ≤ buf.length) :
    ∃ tmp0 tmp nb, malloc junk (L - q) = some tmp0 ∧
      realloc junk buf (L - (q - a)) = some nb ∧
      memcpy tmp0 0 buf q (L - q) = some tmp ∧
      memcpy nb a tmp 0 (L - q)
        = some ((buf.take L.toNat).take a.toNat ++ (buf.take L.toNat).drop q.toNat) := by
  obtain ⟨tmp0, h4, h5⟩ := tail_bytes buf L q (by omega) h2 h3
  obtain ⟨c, tail, rfl, hc, hct⟩ := split_take buf L (by omega) h3
  obtain ⟨c1, c23, rfl, hc1, _⟩ := split_take c a h0 (by omega)
  have hq : 0 ≤ q - a ∧ q - a ≤ (c23.length : Int) := by
    simp only [List.length_append] at hc; omega
  obtain ⟨c2, c3, rfl, hc2, _⟩ := split_take c23 (q - a) hq.1 hq.2
  have hlen3 : (c3.length : Int) = L - q := by
    simp only [List.length_append] at hc; omega
  have hre : realloc junk (c1 ++ (c2 ++ c3) ++ tail) (L - (q - a))
      = some (c1 ++ (c2 ++ c3 ++ tail).take c3.length) := by
    have e1 : (0 : Int) ≤ L - (q - a) := by omega
    have e2 : (L - (q - a)).toNat = c1.length + c3.length := by omega
    have e3 : c1 ++ (c2 ++ c3) ++ tail = c1 ++ (c2 ++ c3 ++ tail) := by simp
    simp only [realloc, if_pos e1, e2]
    rw [e3, List.take_append]
    simp only [List.length_append]
    have e4 : c1.length + c3.length - (c1.length + (c2.length + c3.length + tail.length)) = 0 := by
      omega
    rw [e4]
    simp
  have hm : ((c2 ++ c3 ++ tail).take c3.length).length = c3.length := by
    simp only [List.length_take, List.length_append]; omega
  refine ⟨tmp0, (c1 ++ (c2 ++ c3)).drop q.toNat, _, h4, hre, ?_, ?_⟩
  · rw [h5, hct]
  · have hqn : q.toNat = (c1 ++ c2).length := by
      simp only [List.length_append]; omega
    have e5 : c1 ++ (c2 ++ c3) = (c1 ++ c2) ++ c3 := by simp
    have e6 : c1 ++ (c2 ++ c3 ++ tail).take c3.length
        = c1 ++ (c2 ++ c3 ++ tail).take c3.length ++ [] := by simp
    have e7 : c3 = [] ++ c3 ++ [] := by simp
    have e4 : (0 : Int) = (([] : List Char).length : Nat) := rfl
    have han : a.toNat = c1.length := by omega
    rw [hct, hqn, e5, List.drop_left, ← e5, han, List.take_left, ← hlen3, ← hc1]
    conv_lhs => arg 1; rw [e6]
    conv_lhs => arg 3; rw [e7]
    conv_lhs => arg 4; rw [e4]
    rw [memcpy_mid c1 _ [] [] c3 [] hm, List.append_nil]

/-- Where the splice of `deleteCharacter` is right, as long as the old pointer still shows
the bytes that `realloc` dropped: on the first display line of a logical
line (prefix length 0), outside the document-start, merge and emptying cases, the bytes
from `cursor_x - offset` up to `cursor_x + len - offset` go (`offset` is 1 for
`DELETE_KEY`, 2 for `BACKSPACE`). For `DELETE_KEY` these are the `len` bytes from the
cursor on; for `BACKSPACE` they are the `len` bytes before the cursor only when `len = 1`.
What is left when the old pointer shows other bytes is in
`deleteCharacter.reading_first_segment`. -/
theorem deleteCharacter_first_segment (s : editorInfo) (mode len offset : Int) (i : Nat)
    (d : srow) (r : erow) (hw : 1 ≤ s.screen_col) (hd : s.Doc)
    (hcur : index s.srows (s.cursor_y + s.cursor_y_offset - 1) = some d)
    (hown : d.row_index = i) (hrow : s.rows[i]? = some r) (hP : getSrowLen s i = some 0)
    (hmode : (mode = DELETE_KEY ∧ offset = 1) ∨ (mode = BACKSPACE ∧ offset = 2))
    (hstart : ¬ (s.cursor_x = 1 ∧ s.cursor_y = 1))
    (hmerge : ¬ (mode = BACKSPACE ∧ s.cursor_x = 1 ∧ s.cursor_y > 1))
    (hne : r.len - len ≠ 0) (hlen : 0 ≤ len) (hx : 0 ≤ s.cursor_x - offset)
    (hend : s.cursor_x + len - offset ≤ r.len) :
    ∃ s', deleteCharacter s mode len = some (len, s') ∧
      s'.rows = s.rows.set i (erow.mk r.dirty (r.len - len)
        (r.content.take (s.cursor_x - offset).toNat
          ++ r.content.drop (s.cursor_x + len - offset).toNat)) := by
  have hbuf := hd.2 r (List.getElem?_mem hrow)
  have hilt := getElem?_lt hrow
  obtain ⟨tmp0, tmp, nb, h1, h2, h3, h4⟩ := splice_bytes r.buf r.len (s.cursor_x - offset)
    (s.cursor_x + len - offset) hx (by omega) hend hbuf
  have e1 : r.len - 0 - s.cursor_x - len + offset = r.len - (s.cursor_x + len - offset) := by
    ring
  have e2 : r.len - len = r.len - (s.cursor_x + len - offset - (s.cursor_x - offset)) := by
    ring
  have e3 : 0 + s.cursor_x + len - offset = s.cursor_x + len - offset := by ring
  obtain ⟨newrow, hnew⟩ : ∃ newrow : erow, newrow = erow.mk r.dirty (r.len - len)
      (r.content.take (s.cursor_x - offset).toNat
        ++ r.content.drop (s.cursor_x + len - offset).toNat) := ⟨_, rfl⟩
  have hdoc : editorInfo.Doc { s with rows := s.rows.set i newrow } := by
    apply Doc_set s _ _ _ hd
    rw [hnew]
    simp only [erow.content, List.length_append, List.length_take, List.length_drop]
    omega
  obtain ⟨s', h5, h6, _⟩ := updateSrows_owned { s with rows := s.rows.set i newrow } hw hdoc
  have hoff : deleteCharacter.offset mode = some offset := by
    rcases hmode with ⟨hm, ho⟩ | ⟨hm, ho⟩
    · rw [deleteCharacter.offset, if_pos hm, ho]
    · have : ¬ mode = DELETE_KEY := by rw [hm]; decide
      rw [deleteCharacter.offset, if_neg this, if_pos hm, ho]
  refine ⟨s', ?_, by rw [h6, hnew]⟩
  unfold deleteCharacter
  rw [← e2] at h2
  simp only [hcur, hown, index_natCast, hrow, Option.bind_eq_bind, Option.some_bind,
    if_neg hstart, if_neg hmerge, if_neg hne, hoff, hP, e1, e3, h1, h2, h3, h4,
    store_natCast _ _ _ hilt]
  simp only [hnew, erow.content] at h5
  simp only [h5, Option.some_bind]

theorem deleteCharacter.reading_id (s : editorInfo) (mode len : Int) :
    deleteCharacter.reading id s mode len = deleteCharacter s mode len := rfl

/-- The buffer operations of the splice of `deleteCharacter` when the bytes `[a, q)` of a
line of length `L` go and the tail is read from `v`, what the old pointer shows: the new
buffer holds the first `a` bytes of the line, then the bytes `[q, L)` of `v`. -/
theorem splice_view (buf v : List Char) (L a q : Int) (h0 : 0 ≤ a) (h1 : a ≤ q) (h2 : q ≤ L)
    (h3 : L ≤ buf.length) (h4 : L ≤ v.length) :
    ∃ tmp0 nb, malloc junk (L - q) = some tmp0 ∧
      realloc junk buf (L - (q - a)) = some nb ∧
      memcpy tmp0 0 v q (L - q) = some ((v.take L.toNat).drop q.toNat) ∧
      memcpy nb a ((v.take L.toNat).drop q.toNat) 0 (L - q)
        = some ((buf.take L.toNat).take a.toNat ++ (v.take L.toNat).drop q.toNat) := by
  obtain ⟨tmp0, h5, h6⟩ := tail_bytes v L q (by omega) h2 h4
  obtain ⟨T, hT⟩ : ∃ T, T = (v.take L.toNat).drop q.toNat := ⟨_, rfl⟩
  have hTlen : (T.length : Int) = L - q := by
    rw [hT, List.length_drop, List.length_take]; omega
  have e1 : (0 : Int) ≤ L - (q - a) := by omega
  have e2 : (L - (q - a)).toNat - buf.length = 0 := by omega
  have hre : realloc junk buf (L - (q - a)) = some (buf.take (L - (q - a)).toNat) := by
    simp only [realloc, if_pos e1, e2, List.replicate_zero, List.append_nil]
  refine ⟨tmp0, _, h5, hre, h6, ?_⟩
  rw [← hT]
  obtain ⟨A, hA⟩ : ∃ A, A = buf.take a.toNat := ⟨_, rfl⟩
  obtain ⟨M, hM⟩ : ∃ M, M = (buf.take (L - (q - a)).toNat).drop a.toNat := ⟨_, rfl⟩
  have hAlen : (A.length : Int) = a := by
    rw [hA, List.length_take]; omega
  have hMlen : M.length = T.length := by
    have : (M.length : Int) = L - q := by
      rw [hM, List.length_drop, List.length_take]; omega
    omega
  have hnb : buf.take (L - (q - a)).toNat = A ++ M ++ [] := by
    rw [hA, hM, List.append_nil]
    have : buf.take a.toNat = (buf.take (L - (q - a)).toNat).take a.toNat := by
      rw [List.take_take]
      congr 1
      omega
    rw [this, List.take_append_drop]
  have hres : (buf.take L.toNat).take a.toNat = A := by
    rw [hA, List.take_take]
    congr 1
    omega
  have hsrc : T = [] ++ T ++ [] := by simp
  rw [hnb, hres, ← hAlen, ← hTlen]
  conv_lhs => arg 3; rw [hsrc]
  have e0 : (0 : Int) = (([] : List Char).length : Nat) := rfl
  conv_lhs => arg 4; rw [e0]
  rw [memcpy_mid A M [] [] T [] hMlen, List.append_nil]

/-- The splice of `deleteCharacter` on the first display line of a logical line (prefix
length 0), outside the document-start, merge and emptying cases, whatever the old pointer
shows after `realloc`: the line keeps its first `cursor_x - offset` bytes, and behind them
come the bytes that the old pointer shows from `cursor_x + len - offset` up to the old
length. -/
theorem deleteCharacter.reading_first_segment (view : List Char → List Char) (s : editorInfo)
    (mode len offset : Int) (i : Nat)
    (d : srow) (r : erow) (hw : 1 ≤ s.screen_col) (hd : s.Doc)
    (hcur : index s.srows (s.cursor_y + s.cursor_y_offset - 1) = some d)
    (hown : d.row_index = i) (hrow : s.rows[i]? = some r) (hP : getSrowLen s i = some 0)
    (hmode : (mode = DELETE_KEY ∧ offset = 1) ∨ (mode = BACKSPACE ∧ offset = 2))
    (hstart : ¬ (s.cursor_x = 1 ∧ s.cursor_y = 1))
    (hmerge : ¬ (mode = BACKSPACE ∧ s.cursor_x = 1 ∧ s.cursor_y > 1))
    (hne : r.len - len ≠ 0) (hlen : 0 ≤ len) (hx : 0 ≤ s.cursor_x - offset)
    (hend : s.cursor_x + len - offset ≤ r.len) (hv : r.len ≤ (view r.buf).length) :
    ∃ s', deleteCharacter.reading view s mode len = some (len, s') ∧
      s'.rows = s.rows.set i (erow.mk r.dirty (r.len - len)
        (r.content.take (s.cursor_x - offset).toNat
          ++ ((view r.buf).take r.len.toNat).drop (s.cursor_x + len - offset).toNat)) := by
  have hbuf := hd.2 r (List.getElem?_mem hrow)
  have hilt := getElem?_lt hrow
  obtain ⟨tmp0, nb, h1, h2, h3, h4⟩ := splice_view r.buf (view r.buf) r.len
    (s.cursor_x - offset) (s.cursor_x + len - offset) hx (by omega) hend hbuf hv
  have e1 : r.len - 0 - s.cursor_x - len + offset = r.len - (s.cursor_x + len - offset) := by
    ring
  have e2 : r.len - len = r.len - (s.cursor_x + len - offset - (s.cursor_x - offset)) := by
    ring
  have e3 : 0 + s.cursor_x + len - offset = s.cursor_x + len - offset := by ring
  obtain ⟨newrow, hnew⟩ : ∃ newrow : erow, newrow = erow.mk r.dirty (r.len - len)
      (r.content.take (s.cursor_x - offset).toNat
        ++ ((view r.buf).take r.len.toNat).drop (s.cursor_x + len - offset).toNat) :=
    ⟨_, rfl⟩
  have hdoc : editorInfo.Doc { s with rows := s.rows.set i newrow } := by
    apply Doc_set s _ _ _ hd
    rw [hnew]
    simp only [erow.content, List.length_append, List.length_take, List.length_drop]
    omega
  obtain ⟨s', h5, h6, _⟩ := updateSrows_owned { s with rows := s.rows.set i newrow } hw hdoc
  have hoff : deleteCharacter.offset mode = some offset := by
    rcases hmode with ⟨hm, ho⟩ | ⟨hm, ho⟩
    · rw [deleteCharacter.offset, if_pos hm, ho]
    · have : ¬ mode = DELETE_KEY := by rw [hm]; decide
      rw [deleteCharacter.offset, if_neg this, if_pos hm, ho]
  refine ⟨s', ?_, by rw [h6, hnew]⟩
  unfold deleteCharacter.reading
  rw [← e2] at h2
  simp only [hcur, hown, index_natCast, hrow, Option.bind_eq_bind, Option.some_bind,
    if_neg hstart, if_neg hmerge, if_neg hne, hoff, hP, e1, e3, h1, h2, h3, h4,
    store_natCast _ _ _ hilt]
  simp only [hnew, erow.content] at h5
  simp only [h5, Option.some_bind]

/-- C8: in every state whose cursor is at row 1, column 1 (on an existing display line),
`deleteCharacter` returns `-1` for every mode and every `len`, and the state (logical
lines, display lines, cursor) is unchanged; no merge happens. -/
theorem deleteCharacter_at_start (s : editorInfo) (mode len : Int) (d : srow)
    (hcur : index s.srows (s.cursor_y + s.cursor_y_offset - 1) = some d)
    (hx : s.cursor_x = 1) (hy : s.cursor_y = 1) :
    deleteCharacter s mode len = some (-1, s) := by
  unfold deleteCharacter
  simp only [hcur, Option.bind_eq_bind, Option.some_bind]
  rw [if_pos ⟨hx, hy⟩]

theorem deleteCharacter_at_start_witness :
    deleteCharacter ((wrapOf (mkDoc 5 10 ["abc".toList, "de".toList])).at 1 1 0) BACKSPACE 1
      = some (-1, (wrapOf (mkDoc 5 10 ["abc".toList, "de".toList])).at 1 1 0) ∧
    deleteCharacter ((wrapOf (mkDoc 5 10 ["abc".toList, "de".toList])).at 1 1 0) DELETE_KEY 1
      = some (-1, (wrapOf (mkDoc 5 10 ["abc".toList, "de".toList])).at 1 1 0) :=
  ⟨deleteCharacter_at_start _ BACKSPACE 1 (srow.mk 0 3 "abc".toList) (by decide) (by decide)
      (by decide),
   deleteCharacter_at_start _ DELETE_KEY 1 (srow.mk 0 3 "abc".toList) (by decide) (by decide)
      (by decide)⟩

/-- The two buffer operations of `removeErow`: grow the buffer of the previous line, copy
the bytes of the current line behind its own. -/
theorem append_bytes (pbuf cbuf : List Char) (pl cl : Int) (hp0 : 0 ≤ pl)
    (hp1 : pl ≤ pbuf.length) (hc0 : 0 ≤ cl) (hc1 : cl ≤ cbuf.length) :
    ∃ nb, realloc junk pbuf (pl + cl) = some nb ∧
      memcpy nb pl cbuf 0 cl = some (pbuf.take pl.toNat ++ cbuf.take cl.toNat) := by
  obtain ⟨c, tail, rfl, hc, hct⟩ := split_take pbuf pl hp0 hp1
  obtain ⟨y, w, rfl, hy, hyt⟩ := split_take cbuf cl hc0 hc1
  obtain ⟨g, hg, hre⟩ := realloc_grow junk c tail y.length
  refine ⟨c ++ g, by rw [← hc, ← hy]; exact hre, ?_⟩
  have e1 : c ++ g = c ++ g ++ [] := by simp
  have e2 : y ++ w = [] ++ y ++ w := by simp
  have e4 : (0 : Int) = (([] : List Char).length : Nat) := rfl
  rw [hct, hyt, ← hc, ← hy]
  conv_lhs => arg 1; rw [e1]
  conv_lhs => arg 3; rw [e2]
  conv_lhs => arg 4; rw [e4]
  rw [memcpy_mid c g [] [] y w hg, List.append_nil]

theorem set_append_cons {α : Type} (A B : List α) (x m : α) :
    (A ++ x :: B).set A.length m = A ++ m :: B := by
  induction A with
  | nil => rfl
  | cons a A ih => simp [ih]

/-- The array operations of `removeErow` on `rows = A ++ x :: y :: B` with
`row_index = |A| + 1`: the lines behind `y` move one place down and `m` is stored in the
place of `x`. -/
theorem remove_row (A B : List erow) (x y m : erow) (n ri : Int)
    (hn : n = ((A ++ x :: y :: B).length : Nat)) (hri : ri = (A.length : Int) + 1) :
    ∃ tmp0 tmp new0 new1, malloc default (n - ri - 1) = some tmp0 ∧
      memcpy tmp0 0 (A ++ x :: y :: B) (ri + 1) (n - ri - 1) = some tmp ∧
      realloc default (A ++ x :: y :: B) (n - 1) = some new0 ∧
      memcpy new0 ri tmp 0 (n - ri - 1) = some new1 ∧
      store new1 (ri - 1) m = some (A ++ m :: B) := by
  have hsz : n - ri - 1 = (B.length : Int) := by
    rw [hn, hri]; simp only [List.length_append, List.length_cons]; push_cast; ring
  have hri1 : ri + 1 = ((A ++ [x, y]).length : Nat) := by
    rw [hri]; simp only [List.length_append, List.length_cons, List.length_nil]; push_cast; ring
  have hri0 : ri = ((A ++ [x]).length : Nat) := by
    rw [hri]; simp only [List.length_append, List.length_cons, List.length_nil]; push_cast; ring
  have hri2 : ri - 1 = (A.length : Nat) := by rw [hri]; ring
  have hn1 : (0 : Int) ≤ n - 1 ∧ (n - 1).toNat = (A ++ [x]).length + B.length := by
    rw [hn]; simp only [List.length_append, List.length_cons, List.length_nil]; omega
  have hM : ((y :: B).take B.length).length = B.length := by
    simp only [List.length_take, List.length_cons]; omega
  refine ⟨List.replicate B.length default, B, (A ++ [x]) ++ (y :: B).take B.length,
    A ++ x :: B, ?_, ?_, ?_, ?_, ?_⟩
  · rw [hsz, malloc_eq default (by omega)]; simp
  · have e1 : List.replicate B.length (default : erow)
        = [] ++ List.replicate B.length default ++ [] := by simp
    have e2 : A ++ x :: y :: B = (A ++ [x, y]) ++ B ++ [] := by simp
    have e4 : (0 : Int) = (([] : List erow).length : Nat) := rfl
    rw [hsz, hri1]
    conv_lhs => arg 1; rw [e1]
    conv_lhs => arg 3; rw [e2]
    conv_lhs => arg 2; rw [e4]
    rw [memcpy_mid [] _ [] (A ++ [x, y]) B [] (by simp)]
    simp
  · have e2 : A ++ x :: y :: B = (A ++ [x]) ++ (y :: B) := by simp
    simp only [realloc, if_pos hn1.1, hn1.2]
    rw [e2, List.take_append, List.length_append (A ++ [x])]
    simp
  · have e1 : (A ++ [x]) ++ (y :: B).take B.length
        = (A ++ [x]) ++ (y :: B).take B.length ++ [] := by simp
    have e2 : B = [] ++ B ++ [] := by simp
    have e4 : (0 : Int) = (([] : List erow).length : Nat) := rfl
    rw [hsz, hri0]
    conv_lhs => arg 1; rw [e1]
    conv_lhs => arg 3; rw [e2]
    conv_lhs => arg 4; rw [e4]
    rw [memcpy_mid (A ++ [x]) _ [] [] B [] hM]
    simp
  · rw [hri2, store_natCast _ _ _ (by simp), set_append_cons]

theorem getElem?_split {α : Type} {xs : List α} {i : Nat} {a : α} (h : xs[i]? = some a) :
    xs = xs.take i ++ a :: xs.drop (i + 1) := by
  have hlt := getElem?_lt h
  have h2 : xs[i] = a := by
    rw [List.getElem?_eq_getElem hlt] at h
    exact Option.some.inj h
  conv_lhs => rw [← List.take_append_drop i xs, List.drop_eq_getElem_cons hlt, h2]

theorem absorb_eq (prev cur : erow) (hp0 : 0 ≤ prev.len) (hp1 : prev.len ≤ prev.buf.length)
    (hc0 : 0 ≤ cur.len) (hc1 : cur.len ≤ cur.buf.length) :
    removeErow.absorb prev cur = some (mergeRows prev cur) := by
  by_cases h : cur.dirty ≠ 0
  · obtain ⟨nb, h1, h2⟩ := append_bytes prev.buf cur.buf prev.len cur.len hp0 hp1 hc0 hc1
    simp only [removeErow.absorb, if_pos h, h1, h2, Option.bind_eq_bind, Option.some_bind,
      mergeRows, erow.content]
  · simp only [removeErow.absorb, if_neg h, mergeRows]

theorem mergeRows_len (prev cur : erow) :
    (mergeRows prev cur).len = prev.len + (if cur.dirty ≠ 0 then cur.len else 0) := by
  by_cases h : cur.dirty ≠ 0
  · simp only [mergeRows, if_pos h]
  · simp only [mergeRows, if_neg h, add_zero]

theorem mergeRows_content (prev cur : erow) (hp0 : 0 ≤ prev.len)
    (hp1 : prev.len ≤ prev.buf.length) (hc0 : 0 ≤ cur.len) (hc1 : cur.len ≤ cur.buf.length) :
    (mergeRows prev cur).content = prev.content ++ (if cur.dirty ≠ 0 then cur.content else []) ∧
    (mergeRows prev cur).len ≤ (mergeRows prev cur).buf.length := by
  by_cases h : cur.dirty ≠ 0
  · simp only [mergeRows, if_pos h, erow.content, List.length_append, List.length_take]
    refine ⟨?_, by omega⟩
    apply List.take_of_length_le
    simp only [List.length_append, List.length_take]
    omega
  · simp only [mergeRows, if_neg h, List.append_nil]
    exact ⟨trivial, hp1⟩

/-- What `removeErow` does on a document at `row_index = i + 1`. -/
theorem removeErow_spec (s : editorInfo) (i : Nat) (prev cur : erow) (hd : s.Doc)
    (hprev : s.rows[i]? = some prev) (hcurrow : s.rows[i + 1]? = some cur)
    (hp0 : 0 ≤ prev.len) (hc0 : 0 ≤ cur.len) :
    removeErow s ((i : Int) + 1) = some { s with
      rows := s.rows.take i ++ mergeRows prev cur :: s.rows.drop (i + 2),
      numrows := s.numrows - 1, cursor_y := s.cursor_y - 1, cursor_x := prev.len + 1 } := by
  have hp1 := hd.2 prev (List.getElem?_mem hprev)
  have hc1 := hd.2 cur (List.getElem?_mem hcurrow)
  have hA : (s.rows.take i).length = i := by
    rw [List.length_take]; have := getElem?_lt hprev; omega
  have hsplit : s.rows = s.rows.take i ++ prev :: cur :: s.rows.drop (i + 2) := by
    have h1 := getElem?_split hprev
    have h2 : (s.rows.drop (i + 1))[0]? = some cur := by
      rw [List.getElem?_drop]; exact hcurrow
    have h3 := getElem?_split h2
    rw [List.take_zero, List.nil_append, List.drop_drop] at h3
    rw [h3] at h1
    exact h1
  obtain ⟨tmp0, tmp, new0, new1, h1, h2, h3, h4, h5⟩ :=
    remove_row (s.rows.take i) (s.rows.drop (i + 2)) prev cur (mergeRows prev cur) s.numrows
      ((i : Int) + 1) (by rw [← hsplit]; exact hd.1) (by rw [hA])
  rw [← hsplit] at h2 h3
  have e1 : (i : Int) + 1 - 1 = (i : Int) := by ring
  have e2 : (i : Int) + 1 = ((i + 1 : Nat) : Int) := by push_cast; rfl
  have hi1 : index s.rows ((i : Int) + 1 - 1) = some prev := by rw [e1, index_natCast, hprev]
  have hi2 : index s.rows ((i : Int) + 1) = some cur := by rw [e2, index_natCast, hcurrow]
  have hx : (if cur.dirty ≠ 0 then (mergeRows prev cur).len - cur.len + 1
      else (mergeRows prev cur).len + 1) = prev.len + 1 := by
    rw [mergeRows_len]
    split <;> ring
  unfold removeErow
  simp only [hi1, hi2, absorb_eq prev cur hp0 hp1 hc0 hc1, h1, h2, h3, h4, h5, hx,
    Option.bind_eq_bind, Option.some_bind, hA]

/-- What the merge case of `deleteCharacter` does, with the facts on the new state that
later steps need. -/
theorem merge_core (s : editorInfo) (len : Int) (i : Nat) (d : srow)
    (prev cur : erow) (hw : 1 ≤ s.screen_col) (hd : s.Doc)
    (hcur : index s.srows (s.cursor_y + s.cursor_y_offset - 1) = some d)
    (hown : d.row_index = (i : Int) + 1)
    (hprev : s.rows[i]? = some prev) (hcurrow : s.rows[i + 1]? = some cur)
    (hp0 : 0 ≤ prev.len) (hc0 : 0 ≤ cur.len) (hx : s.cursor_x = 1) (hy : 1 < s.cursor_y) :
    ∃ s' : editorInfo, deleteCharacter s BACKSPACE len = some (-2, s') ∧
      s'.rows = s.rows.take i ++ mergeRows prev cur :: s.rows.drop (i + 2) ∧
      s'.numrows = s.numrows - 1 ∧ s'.Doc ∧ s'.screen_col = s.screen_col ∧
      s'.screen_row = s.screen_row ∧ (s'.rows.length : Int) = s.numrows - 1 := by
  have hp1 := hd.2 prev (List.getElem?_mem hprev)
  have hc1 := hd.2 cur (List.getElem?_mem hcurrow)
  have hrem := removeErow_spec s i prev cur hd hprev hcurrow hp0 hc0
  have hlt := getElem?_lt hcurrow
  have hlen : ((s.rows.take i ++ mergeRows prev cur :: s.rows.drop (i + 2)).length : Int)
      = s.numrows - 1 := by
    simp only [List.length_append, List.length_take, List.length_cons, List.length_drop]
    rw [hd.1]; omega
  obtain ⟨_, hml⟩ := mergeRows_content prev cur hp0 hp1 hc0 hc1
  have hdoc : editorInfo.Doc { s with
      rows := s.rows.take i ++ mergeRows prev cur :: s.rows.drop (i + 2),
      numrows := s.numrows - 1, cursor_y := s.cursor_y - 1, cursor_x := prev.len + 1 } := by
    refine ⟨hlen.symm, ?_⟩
    intro r hr
    simp only [List.mem_append, List.mem_cons] at hr
    rcases hr with hr | hr | hr
    · exact hd.2 r (List.mem_of_mem_take hr)
    · rw [hr]; exact hml
    · exact hd.2 r (List.mem_of_mem_drop hr)
  obtain ⟨s', h1, h2, h3, h4, h5, _⟩ := updateSrows_owned { s with
      rows := s.rows.take i ++ mergeRows prev cur :: s.rows.drop (i + 2),
      numrows := s.numrows - 1, cursor_y := s.cursor_y - 1, cursor_x := prev.len + 1 } hw hdoc
  refine ⟨s', ?_, h2, h3, ⟨by rw [h3, h2]; exact hdoc.1, by rw [h2]; exact hdoc.2⟩, h4, h5, ?_⟩
  · unfold deleteCharacter
    have hn : ¬ (s.cursor_x = 1 ∧ s.cursor_y = 1) := fun h => by omega
    simp only [hcur, hown, Option.bind_eq_bind, Option.some_bind, if_neg hn, hrem, h1]
    rw [if_pos ⟨trivial, hx, hy⟩]
  · rw [h2]; exact hlen

/-- C9: take a document with the cursor at column 1, viewport row `> 1`, on a display line
owned by logical line `i + 1` (so the document has at least two lines). Then
`deleteCharacter(BACKSPACE, len)` returns `-2`, and the resulting document is
`rows[0..i) ++ [m] ++ rows[i+2..)` with one line less, where the content of `m` is the
content of line `i` followed by the content of line `i + 1` if that line is real content,
and by nothing otherwise; `numrows` is one less and all other lines keep content and order. -/
theorem deleteCharacter_merge (s : editorInfo) (len : Int) (i : Nat) (d : srow)
    (prev cur : erow) (hw : 1 ≤ s.screen_col) (hd : s.Doc)
    (hcur : index s.srows (s.cursor_y + s.cursor_y_offset - 1) = some d)
    (hown : d.row_index = (i : Int) + 1)
    (hprev : s.rows[i]? = some prev) (hcurrow : s.rows[i + 1]? = some cur)
    (hp0 : 0 ≤ prev.len) (hc0 : 0 ≤ cur.len) (hx : s.cursor_x = 1) (hy : 1 < s.cursor_y) :
    ∃ (s' : editorInfo) (m : erow), deleteCharacter s BACKSPACE len = some (-2, s') ∧
      s'.rows = s.rows.take i ++ m :: s.rows.drop (i + 2) ∧
      m.content = prev.content ++ (if cur.dirty ≠ 0 then cur.content else []) ∧
      m.len = prev.len + (if cur.dirty ≠ 0 then cur.len else 0) ∧ m.dirty = prev.dirty ∧
      s'.numrows = s.numrows - 1 ∧ (s'.rows.length : Int) = s.numrows - 1 := by
  have hp1 := hd.2 prev (List.getElem?_mem hprev)
  have hc1 := hd.2 cur (List.getElem?_mem hcurrow)
  obtain ⟨hmc, _⟩ := mergeRows_content prev cur hp0 hp1 hc0 hc1
  obtain ⟨s', h1, h2, h3, _, _, _, h4⟩ :=
    merge_core s len i d prev cur hw hd hcur hown hprev hcurrow hp0 hc0 hx hy
  refine ⟨s', mergeRows prev cur, h1, h2, hmc, mergeRows_len prev cur, ?_, h3, h4⟩
  unfold mergeRows; split <;> rfl

theorem deleteCharacter_merge_witness :
    ∃ (s' : editorInfo) (m : erow),
      deleteCharacter ((wrapOf (mkDoc 5 10 ["ab".toList, "cd".toList, "e".toList])).at 1 2 0)
        BACKSPACE 1 = some (-2, s') ∧
      s'.rows = [] ++ m :: [erow.mk 1 1 "e".toList] ∧ m.content = "abcd".toList ∧
      s'.numrows = 2 :=
  (deleteCharacter_merge
    ((wrapOf (mkDoc 5 10 ["ab".toList, "cd".toList, "e".toList])).at 1 2 0) 1 0
    (srow.mk 1 2 "cd".toList) (erow.mk 1 2 "ab".toList) (erow.mk 1 2 "cd".toList)
    (by decide) (mkDoc_wrap_Doc _ _ _ _ _ _ (by decide)) (by decide) (by decide) (by decide)
    (by decide) (by decide) (by decide) (by decide) (by decide)).imp fun _ h =>
      h.imp fun _ h => ⟨h.1, h.2.1, h.2.2.1, h.2.2.2.2.2.1⟩

/-! ## EditEngine: `enter` -/

/-- The array operations of `enter` on `rows = A ++ r :: B` with `row_index = |A|`: the
lines behind `r` move one place up, `ed` and `nw` are stored at `row_index` and
`row_index + 1`. -/
theorem insert_row (A B : List erow) (r ed nw : erow) (n ri : Int)
    (hn : n = ((A ++ r :: B).length : Nat)) (hri : ri = (A.length : Int)) :
    ∃ new0 new1 new2, realloc default (A ++ r :: B) (n + 1) = some new0 ∧
      memcpy new0 (ri + 2) new0 (ri + 1) (n - ri - 1) = some new1 ∧
      store new1 ri ed = some new2 ∧
      store new2 (ri + 1) nw = some (A ++ ed :: nw :: B) := by
  obtain ⟨g, hg, hre⟩ := realloc_grow default (A ++ r :: B) [] 1
  rw [List.append_nil] at hre
  obtain ⟨x, M, hxM, hM⟩ : ∃ (x : erow) (M : List erow), B ++ g = x :: M ∧ M.length = B.length := by
    cases hBg : B ++ g with
    | nil =>
      have := congrArg List.length hBg
      simp only [List.length_append, hg, List.length_nil] at this
      omega
    | cons x M =>
      refine ⟨x, M, rfl, ?_⟩
      have := congrArg List.length hBg
      simp only [List.length_append, hg, List.length_cons] at this
      omega
  have hsz : n - ri - 1 = (B.length : Int) := by
    rw [hn, hri]; simp only [List.length_append, List.length_cons]; push_cast; ring
  have hri2 : ri + 2 = ((A ++ [r, x]).length : Nat) := by
    rw [hri]; simp only [List.length_append, List.length_cons, List.length_nil]; push_cast; ring
  have hri1 : ri + 1 = ((A ++ [r]).length : Nat) := by
    rw [hri]; simp only [List.length_append, List.length_cons, List.length_nil]; push_cast; ring
  have hri1' : ri + 1 = ((A ++ [ed]).length : Nat) := by
    rw [hri]; simp only [List.length_append, List.length_cons, List.length_nil]; push_cast; ring
  have e0 : A ++ r :: B ++ g = A ++ [r, x] ++ M ++ [] := by
    rw [List.append_assoc A, List.cons_append, hxM]; simp
  have e0' : A ++ r :: B ++ g = A ++ [r] ++ B ++ g := by simp
  refine ⟨A ++ r :: B ++ g, A ++ r :: x :: B, A ++ ed :: x :: B, ?_, ?_, ?_, ?_⟩
  · rw [hn]; exact hre
  · rw [hsz, hri2, hri1]
    conv_lhs => arg 1; rw [e0]
    conv_lhs => arg 3; rw [e0']
    rw [memcpy_mid (A ++ [r, x]) M [] (A ++ [r]) B g hM]
    simp
  · rw [hri, store_natCast _ _ _ (by simp), set_append_cons]
  · have e1 : A ++ ed :: x :: B = (A ++ [ed]) ++ x :: B := by simp
    rw [hri1', e1, store_natCast _ _ _ (by simp), set_append_cons]
    simp

/-- What `enter` does on a real line, with the facts on the new state that later steps
need. -/
theorem enter_core (s : editorInfo) (i : Nat) (d : srow) (r : erow) (P : Int)
    (hw : 1 ≤ s.screen_col) (hd : s.Doc)
    (hwi : 0 ≤ Int.tdiv s.screen_row 2 - 2 ∧ Int.tdiv s.screen_row 2 - 2 < s.numrows)
    (hcur : index s.srows (s.cursor_y + s.cursor_y_offset - 1) = some d)
    (hown : d.row_index = i) (hrow : s.rows[i]? = some r) (hdirty : r.dirty ≠ 0)
    (hP : getSrowLen s i = some P)
    (hp0 : 0 ≤ P + s.cursor_x - 1) (hp1 : P + s.cursor_x - 1 ≤ r.len) :
    ∃ (s' sw : editorInfo), enter s = some (0, s') ∧ removeWelcomeMessage s = some sw ∧
      s'.rows = sw.rows.take i
        ++ erow.mk 1 (P + s.cursor_x - 1) (r.content.take (P + s.cursor_x - 1).toNat)
        :: erow.mk 1 (r.len - (P + s.cursor_x - 1)) (r.content.drop (P + s.cursor_x - 1).toNat)
        :: sw.rows.drop (i + 1) ∧
      s'.numrows = s.numrows + 1 ∧ s'.Doc ∧ s'.screen_col = s.screen_col ∧
      s'.screen_row = s.screen_row ∧ sw.rows.length = s.rows.length ∧
      ∀ (k : Nat) (r' : erow), s.rows[k]? = some r' →
        sw.rows[k]? = some
          (if (k : Int) = Int.tdiv s.screen_row 2 - 2 ∧ r'.dirty = 0 ∧ r'.len > 1 then r'.cut
          else r') := by
  have hlen := hd.2 r (List.getElem?_mem hrow)
  have hwi' : 0 ≤ Int.tdiv s.screen_row 2 - 2 ∧ Int.tdiv s.screen_row 2 - 2 < s.rows.length := by
    rw [← hd.1]; exact hwi
  obtain ⟨rows', h1, h2, h3⟩ := removeWelcomeMessage_spec s hwi'
  obtain ⟨sw, h4, h5, h6, h7, h8⟩ := removeWelcomeMessage_Doc s hd hwi'
  rw [h1] at h4
  cases h4
  have hrow' : rows'[i]? = some r := h8 i r hrow hdirty
  have hA : (rows'.take i).length = i := by
    rw [List.length_take]; have := getElem?_lt hrow'; omega
  have hsplit := getElem?_split hrow'
  obtain ⟨nb, h9, h10⟩ := tail_bytes r.buf r.len _ hp0 hp1 hlen
  have h11 := memcpy_fresh junk r.buf hp0 (le_trans hp1 hlen)
  have h11' : r.buf.take (P + s.cursor_x - 1).toNat
      = (r.buf.take r.len.toNat).take (P + s.cursor_x - 1).toNat := by
    rw [List.take_take, Nat.min_eq_left (by omega)]
  obtain ⟨ed, hed⟩ : ∃ ed : erow, ed = erow.mk 1 (P + s.cursor_x - 1)
      (r.content.take (P + s.cursor_x - 1).toNat) := ⟨_, rfl⟩
  obtain ⟨nw, hnw⟩ : ∃ nw : erow, nw = erow.mk 1 (r.len - (P + s.cursor_x - 1))
      (r.content.drop (P + s.cursor_x - 1).toNat) := ⟨_, rfl⟩
  obtain ⟨new0, new1, new2, h12, h13, h14, h15⟩ :=
    insert_row (rows'.take i) (rows'.drop (i + 1)) r ed nw s.numrows i
      (by rw [← hsplit, h2]; exact hd.1) (by rw [hA])
  rw [← hsplit] at h12
  have hdoc : editorInfo.Doc { s with
      rows := rows'.take i ++ ed :: nw :: rows'.drop (i + 1), numrows := s.numrows + 1 } := by
    constructor
    · have := congrArg List.length hsplit
      simp only [List.length_append, List.length_cons] at this ⊢
      rw [hd.1, ← h2]; push_cast; omega
    · intro x hx
      simp only [List.mem_append, List.mem_cons] at hx
      rcases hx with hx | hx | hx | hx
      · exact h5.2 x (List.mem_of_mem_take hx)
      · rw [hx, hed]
        simp only [erow.content, List.length_take]; omega
      · rw [hx, hnw]
        simp only [erow.content, List.length_drop, List.length_take]; omega
      · exact h5.2 x (List.mem_of_mem_drop hx)
  obtain ⟨s', h16, h17, h18, h19, h20, _⟩ := updateSrows_owned { s with
      rows := rows'.take i ++ ed :: nw :: rows'.drop (i + 1), numrows := s.numrows + 1 } hw hdoc
  refine ⟨s', _, ?_, h1, ?_, h18, ?_, h19, h20, h2, h3⟩
  · unfold enter
    have e : r.len - P - s.cursor_x + 1 = r.len - (P + s.cursor_x - 1) := by ring
    subst hed hnw
    simp only [erow.content] at h14 h15 h16
    simp only [hcur, hown, index_natCast, hrow, truncatePlaceholder_eq, if_neg hdirty, hP,
      Option.bind_eq_bind, Option.some_bind, malloc_eq junk hp0, h1, h11, h12, h13,
      h11', e, h9, h10, h14, h15, h16]
  · rw [h17, hed, hnw]
  · exact ⟨by rw [h18, h17]; exact hdoc.1, by rw [h17]; exact hdoc.2⟩

/-- C10: take a state (a document, viewport width `>= 1`, welcome index a line index) whose
cursor is on a display line owned by logical line `i`, a line of real content `c`, and let
`p` be the prefix length `getSrowLen` returns plus `cursor_x - 1`, with `0 <= p <= |c|`.
Then `enter()` returns `0` and the document becomes
`rows[0..i) ++ [c[0..p), c[p..|c|)] ++ rows[i+1..)`, where `rows` are the lines as the
welcome-message block leaves them (all unchanged, except that the line at index
`screen_row / 2 - 2` is cut to one byte if it is a placeholder longer than one byte): both
new lines are flagged real (`dirty = 1`), their lengths `p` and `|c| - p` add up to `|c|`,
and the line count grows by one. -/
theorem enter_spec (s : editorInfo) (i : Nat) (d : srow) (r : erow) (P : Int)
    (hw : 1 ≤ s.screen_col) (hd : s.Doc)
    (hwi : 0 ≤ Int.tdiv s.screen_row 2 - 2 ∧ Int.tdiv s.screen_row 2 - 2 < s.numrows)
    (hcur : index s.srows (s.cursor_y + s.cursor_y_offset - 1) = some d)
    (hown : d.row_index = i) (hrow : s.rows[i]? = some r) (hdirty : r.dirty ≠ 0)
    (hP : getSrowLen s i = some P)
    (hp0 : 0 ≤ P + s.cursor_x - 1) (hp1 : P + s.cursor_x - 1 ≤ r.len) :
    ∃ (s' sw : editorInfo), enter s = some (0, s') ∧ removeWelcomeMessage s = some sw ∧
      s'.rows = sw.rows.take i
        ++ erow.mk 1 (P + s.cursor_x - 1) (r.content.take (P + s.cursor_x - 1).toNat)
        :: erow.mk 1 (r.len - (P + s.cursor_x - 1)) (r.content.drop (P + s.cursor_x - 1).toNat)
        :: sw.rows.drop (i + 1) ∧
      (P + s.cursor_x - 1) + (r.len - (P + s.cursor_x - 1)) = r.len ∧
      s'.numrows = s.numrows + 1 ∧ s'.rows.length = s.rows.length + 1 ∧
      sw.rows.length = s.rows.length ∧
      ∀ (k : Nat) (r' : erow), s.rows[k]? = some r' →
        sw.rows[k]? = some
          (if (k : Int) = Int.tdiv s.screen_row 2 - 2 ∧ r'.dirty = 0 ∧ r'.len > 1 then r'.cut
          else r') := by
  obtain ⟨s', sw, h1, h2, h3, h4, h5, _, _, h6, h7⟩ :=
    enter_core s i d r P hw hd hwi hcur hown hrow hdirty hP hp0 hp1
  refine ⟨s', sw, h1, h2, h3, by ring, h4, ?_, h6, h7⟩
  have := h5.1
  rw [h4, hd.1] at this
  exact_mod_cast this.symm

theorem enter_spec_witness :
    ∃ (s' : editorInfo),
      enter ((wrapOf (mkDoc 4 10 ["abcdefg".toList, "xy".toList])).at 3 1 0) = some (0, s') ∧
      s'.rows = [erow.mk 1 2 "ab".toList, erow.mk 1 5 "cdefg".toList, erow.mk 1 2 "xy".toList] ∧
      s'.numrows = 3 := by
  obtain ⟨s', sw, h1, h2, h3, _, h4, _⟩ :=
    enter_spec ((wrapOf (mkDoc 4 10 ["abcdefg".toList, "xy".toList])).at 3 1 0) 0
      (srow.mk 0 7 "abcdefg".toList) (erow.mk 1 7 "abcdefg".toList) 0
      (by decide) (mkDoc_wrap_Doc _ _ _ _ _ _ (by decide)) (by decide) (by decide) (by decide)
      (by decide) (by decide) (by decide) (by decide) (by decide)
  have h5 : removeWelcomeMessage ((wrapOf (mkDoc 4 10 ["abcdefg".toList, "xy".toList])).at 3 1 0)
      = some ((wrapOf (mkDoc 4 10 ["abcdefg".toList, "xy".toList])).at 3 1 0) := by decide
  rw [h5] at h2
  cases h2
  exact ⟨s', h1, h3, h4⟩

/-! ## Later claims on the EditEngine -/

/-- C13: take a state whose cursor is on a display line owned by logical line `i` of length
`n`, not at row 1 column 1 and outside the merge case. Then `deleteCharacter(mode, n)`
returns `n` for either mode and leaves line `i` as a placeholder: `dirty = 0`, length 1,
content the byte `~` (not length 0); no other line changes. -/
theorem deleteCharacter_empties (s : editorInfo) (mode : Int) (i : Nat) (d : srow) (r : erow)
    (hcur : index s.srows (s.cursor_y + s.cursor_y_offset - 1) = some d)
    (hown : d.row_index = i) (hrow : s.rows[i]? = some r)
    (hstart : ¬ (s.cursor_x = 1 ∧ s.cursor_y = 1))
    (hmerge : ¬ (mode = BACKSPACE ∧ s.cursor_x = 1 ∧ s.cursor_y > 1)) :
    ∃ s', deleteCharacter s mode r.len = some (r.len, s') ∧
      s'.rows = s.rows.set i (erow.mk 0 1 ['~']) ∧
      s'.rows[i]? = some (erow.mk 0 1 ['~']) ∧ (erow.mk 0 1 ['~']).content = ['~'] := by
  have hilt := getElem?_lt hrow
  have hre : (realloc junk r.buf 1).bind (fun b => memcpy b 0 ['~'] 0 1) = some ['~'] := by
    cases hb : r.buf with
    | nil => simp [realloc, memcpy]
    | cons a l => simp [realloc, memcpy]
  refine ⟨{ s with rows := s.rows.set i (erow.mk 0 1 ['~']) }, ?_, rfl, ?_, rfl⟩
  · unfold deleteCharacter
    simp only [hcur, hown, index_natCast, hrow, Option.bind_eq_bind, Option.some_bind,
      if_neg hstart, if_neg hmerge, sub_self, if_true]
    cases hb : realloc junk r.buf 1 with
    | none => rw [hb] at hre; simp at hre
    | some b =>
      rw [hb] at hre
      simp only [Option.some_bind] at hre ⊢
      simp only [hre, Option.some_bind, store_natCast _ _ _ hilt]
  · simp [hilt]

theorem deleteCharacter_empties_witness :
    ∃ s', deleteCharacter ((wrapOf (mkDoc 5 10 ["abc".toList, "de".toList])).at 1 2 0)
        DELETE_KEY 2 = some (2, s') ∧
      s'.rows = [erow.mk 1 3 "abc".toList, erow.mk 0 1 ['~']] :=
  (deleteCharacter_empties ((wrapOf (mkDoc 5 10 ["abc".toList, "de".toList])).at 1 2 0)
    DELETE_KEY 1 (srow.mk 1 2 "de".toList) (erow.mk 1 2 "de".toList) (by decide) (by decide)
    (by decide) (by decide) (by decide)).imp fun _ h => ⟨h.1, h.2.1⟩

/-! ## Claims on the cursor -/

/-- C14, evaluated where it fails. Screen of 5 rows and 4 columns, file "abcdef\ng\n": the
load gives the lines "abcd", "ef", "g" and the display lines "abcd", "", "ef", "g". The keys
Down, Down, Backspace merge "ef" into "abcd": the cursor goes to row 2 with
`cursor_x = 5`, and the display line under it is "ef" of length 2, so `cursor_x` is
beyond `len + 1 = 3`. -/
theorem cursor_x_after_merge :
    ((fileStart 5 4 "abcdef\ng\n".toList).bind fun s =>
        run s [ARROW_DOWN, ARROW_DOWN, BACKSPACE]).map
      (fun s => (s.text, s.cursor_x, s.cursor_y, s.cursor_y_offset, s.lineLen))
      = some (["abcdef".toList, "g".toList], 5, 2, 0, some 2) ∧
    ¬ ((5 : Int) ≤ 2 + 1) := by
  decide

theorem getSrowLen.loop_eq (srows : List srow) (i : Int) :
    ∀ (n : Nat) (acc : Int), n ≤ srows.length →
      getSrowLen.loop srows i n acc = some (acc + prefixLength srows n i) := by
  intro n
  induction n with
  | zero => intro acc _; simp [getSrowLen.loop, prefixLength]
  | succ n ih =>
    intro acc hn
    have hlt : n < srows.length := hn
    have htake : srows.take (n + 1) = srows.take n ++ [srows[n]] := by
      rw [List.take_succ, List.getElem?_eq_getElem hlt]; rfl
    by_cases hown : srows[n].row_index = i
    · have hne : ¬ (srows[n].row_index ≠ i) := fun h => h hown
      simp only [getSrowLen.loop, List.getElem?_eq_getElem hlt, Option.bind_eq_bind,
        Option.some_bind, if_neg hne]
      rw [ih _ (Nat.le_of_lt hlt)]
      simp only [prefixLength, htake, List.reverse_append, List.reverse_cons, List.reverse_nil,
        List.nil_append, List.singleton_append, List.takeWhile_cons, hown, decide_True,
        if_true, List.map_cons, List.sum_cons]
      congr 1
      ring
    · simp only [getSrowLen.loop, List.getElem?_eq_getElem hlt, Option.bind_eq_bind,
        Option.some_bind, if_pos hown]
      have hd : decide (srows[n].row_index = i) = false := decide_eq_false hown
      simp only [prefixLength, htake, List.reverse_append, List.reverse_cons, List.reverse_nil,
        List.nil_append, List.singleton_append, List.takeWhile_cons, hd]
      simp

/-- Where `getSrowLen` is right: without scroll (`cursor_y_offset = 0`, so the absolute
display index is `cursor_y - 1`) it returns the prefix length of the spec. -/
theorem getSrowLen_no_scroll (s : editorInfo) (i : Int) (hy : 1 ≤ s.cursor_y)
    (hin : s.cursor_y - 1 ≤ s.srows.length) :
    getSrowLen s i = some (prefixLength s.srows (s.cursor_y - 1).toNat i) := by
  rw [getSrowLen, getSrowLen.loop_eq _ _ _ _ (by omega), zero_add]

/-- C17, evaluated where it fails. Screen of 4 rows and 4 columns, file "a\nb\nc\nabcd":
the display lines are "a", "b", "c", "abcd", "" (the last two owned by line 3). Four times
Down puts the cursor on row 4 with scroll offset 1, that is on the absolute display index
4, the continuation of line 3, which starts at byte 4 of the line; `getSrowLen(3)` walks
from index `cursor_y - 2 = 2` and returns 0. The byte `Z` typed there goes in at offset 0
("Zabcd"), not at offset 4. -/
theorem getSrowLen_scrolled :
    ((fileStart 4 4 "a\nb\nc\nabcd".toList).bind fun s =>
        run s [ARROW_DOWN, ARROW_DOWN, ARROW_DOWN, ARROW_DOWN]).map
      (fun s => (s.cursor_y, s.cursor_y_offset, s.owner, getSrowLen s 3,
        prefixLength s.srows (s.cursor_y + s.cursor_y_offset - 1).toNat 3))
      = some (4, 1, some 3, some 0, 4) ∧
    ((fileStart 4 4 "a\nb\nc\nabcd".toList).bind fun s =>
        run s [ARROW_DOWN, ARROW_DOWN, ARROW_DOWN, ARROW_DOWN, 90]).map editorInfo.text
      = some ["a".toList, "b".toList, "c".toList, "Zabcd".toList] := by
  decide

/-- A rebuild of the display lines does not depend on the display lines there were. -/
theorem updateSrows_idem (s s' : editorInfo) (hw : 1 ≤ s.screen_col) (hd : s.Doc)
    (h : updateSrows s = some s') : updateSrows s' = some s' := by
  obtain ⟨segss, h1, _⟩ := updateSrows_spec s hw hd
  rw [h1] at h
  cases h
  rw [← h1]
  rfl

/-- C18, evaluated where it fails. Width 10, one line "ab" with the display line "ab" of
length 2, cursor at column 2 of row 1: `deleteCharacter(DELETE_KEY, 2)` empties the line,
returns 2 and leaves the placeholder `~` of length 1, but the display lines are those of
before (first one "ab", length 2), not the wrap of the new line (first one `~`, length 1):
this branch returns without a call of `updateSrows`. -/
theorem deleteCharacter_leaves_stale :
    ∃ s', deleteCharacter ((wrapOf (mkDoc 3 10 ["ab".toList])).at 2 1 0) DELETE_KEY 2
        = some (2, s') ∧
      s'.rows = [erow.mk 0 1 ['~']] ∧
      s'.srows = (wrapOf (mkDoc 3 10 ["ab".toList])).srows ∧
      s'.srows.map srow.len = [2, 1, 1] ∧
      (updateSrows s').map (fun t => t.srows.map srow.len) = some [1, 1, 1] ∧
      updateSrows s' ≠ some s' := by
  refine ⟨_, rfl, ?_, ?_, ?_, ?_, ?_⟩ <;> decide

/-- C19, evaluated where it fails. Screen of 4 rows and 4 columns, file "abcd": one line
with the display lines "abcd" and "". After End (cursor at column 5 of row 1) the Enter
key splits the line into "abcd" and ""; the display lines are then owned by 0, 0, 1 (and a
filler), so the first display line of the new line 1 has index 2, while the cursor, moved
one row down, is on index 1, the second display line of line 0. -/
theorem enter_key_cursor_off :
    ((fileStart 4 4 "abcd".toList).bind fun s => run s [END_KEY, ENTER_KEY]).map
      (fun s => (s.text, s.srows.map srow.row_index)) = some (["abcd".toList, []], [0, 0, 1, -1]) ∧
    ((fileStart 4 4 "abcd".toList).bind fun s => run s [END_KEY, ENTER_KEY]).map
      (fun s => (s.cursor_x, s.cursor_y, s.cursor_y_offset, s.owner)) = some (1, 2, 0, some 0) := by
  decide

/-- C20, evaluated where it fails. After the load of an empty file on a screen of 24 rows
and 80 columns there is no logical line, all 24 display lines are fillers and the cursor
is on one (owner `-1`): any key that reads the owner's line, here the byte `a` or Down,
reads `rows[-1]`. After the load of the one-line file "hi" the welcome index
`24 / 2 - 2 = 10` is not below `numrows = 1`, and the byte `a` makes `addCharacter` read
`rows[10]`. -/
theorem index_out_of_range :
    (fileStart 24 80 []).map (fun s => (s.numrows, s.numsrows, s.owner)) = some (0, 24, some (-1)) ∧
    ((fileStart 24 80 []).bind fun s => index s.rows (-1)) = none ∧
    ((fileStart 24 80 []).bind fun s => manageKeyInput s 97) = none ∧
    ((fileStart 24 80 []).bind fun s => manageKeyInput s ARROW_DOWN) = none ∧
    (fileStart 24 80 "hi".toList).map
        (fun s => (s.numrows, s.owner, Int.tdiv s.screen_row 2 - 2)) = some (1, some 0, 10) ∧
    ((fileStart 24 80 "hi".toList).bind fun s => index s.rows (Int.tdiv s.screen_row 2 - 2))
      = none ∧
    ((fileStart 24 80 "hi".toList).bind fun s => manageKeyInput s 97) = none := by
  refine ⟨?_, ?_, ?_, ?_, ?_, ?_, ?_⟩
  · decide
  · decide
  · decide
  · decide
  · decide
  · decide
  · decide

/-! ## Round trips of the EditEngine -/

/-- C11, evaluated where it fails. Blank start on a screen of 6 rows and 60 columns: line 0
is a placeholder, the byte `~` with length 1. `enter` at its start and then Backspace at
column 1 of line 1 restore the line count 6, and leave line 0 as real content of length 0:
the `~` of length 1 is not reproduced. -/
theorem enter_backspace_placeholder :
    ((blankStart 6 60).map fun s => (s.numrows, s.rows[0]?))
      = some (6, some (erow.mk 0 1 ['~'])) ∧
    (((blankStart 6 60).bind enter).bind fun r =>
        (deleteCharacter (r.2.at 1 2 0) BACKSPACE 1).map fun q =>
          (r.2.numrows, q.1, q.2.numrows, q.2.rows[0]?))
      = some (7, -2, 6, some (erow.mk 1 0 [])) := by
  set_option maxRecDepth 20000 in
  constructor
  · decide
  · decide

/-- C11, amended: take a document, the cursor on a display line owned by a real line `i`
(`dirty ≠ 0`) of length `n` with prefix length `P`, the cursor at line offset
`k = P + cursor_x - 1`, `0 ≤ k ≤ n`, and the welcome index a line index. `enter` returns 0.
Then, with the cursor at column 1 of any display line owned by line `i + 1` below screen
row 1, `deleteCharacter` in `BACKSPACE` mode returns -2, the line count is the original one,
and the lines are the ones after the welcome-message block with line `i` real content of
length `n` and the original content. -/
theorem enter_then_backspace (s : editorInfo) (i : Nat) (d : srow) (r : erow) (P : Int)
    (hw : 1 ≤ s.screen_col) (hd : s.Doc)
    (hwi : 0 ≤ Int.tdiv s.screen_row 2 - 2 ∧ Int.tdiv s.screen_row 2 - 2 < s.numrows)
    (hcur : index s.srows (s.cursor_y + s.cursor_y_offset - 1) = some d)
    (hown : d.row_index = i) (hrow : s.rows[i]? = some r) (hdirty : r.dirty ≠ 0)
    (hP : getSrowLen s i = some P)
    (hp0 : 0 ≤ P + s.cursor_x - 1) (hp1 : P + s.cursor_x - 1 ≤ r.len) :
    ∃ (s1 sw : editorInfo), enter s = some (0, s1) ∧ removeWelcomeMessage s = some sw ∧
      s1.numrows = s.numrows + 1 ∧
      ∀ (y off : Int) (d1 : srow), index s1.srows (y + off - 1) = some d1 →
        d1.row_index = (i : Int) + 1 → 1 < y →
        ∃ s2, deleteCharacter (s1.at 1 y off) BACKSPACE 1 = some (-2, s2) ∧
          s2.numrows = s.numrows ∧
          s2.rows = sw.rows.set i (erow.mk 1 r.len r.content) ∧
          (erow.mk 1 r.len r.content).content = r.content := by
  have hlen := hd.2 r (List.getElem?_mem hrow)
  have hilt := getElem?_lt hrow
  obtain ⟨s1, sw, h1, h2, h3, h4, h5, h6, _, h7, _⟩ :=
    enter_core s i d r P hw hd hwi hcur hown hrow hdirty hP hp0 hp1
  refine ⟨s1, sw, h1, h2, h4, ?_⟩
  intro y off d1 hd1 hown1 hy
  obtain ⟨k, hk⟩ : ∃ k : Int, k = P + s.cursor_x - 1 := ⟨_, rfl⟩
  rw [← hk] at h3 hp0 hp1
  have hA : (sw.rows.take i).length = i := by
    rw [List.length_take, h7]; omega
  have hprev : s1.rows[i]? = some (erow.mk 1 k (r.content.take k.toNat)) := by
    rw [h3, List.getElem?_append_right (by omega), hA]; simp
  have hnext : s1.rows[i + 1]? = some (erow.mk 1 (r.len - k) (r.content.drop k.toNat)) := by
    rw [h3, List.getElem?_append_right (by omega), hA]; simp
  have hclen : r.content.length = r.len.toNat := by
    simp only [erow.content, List.length_take]; omega
  obtain ⟨s2, g1, g2, g3, _, _, _, _⟩ := merge_core (s1.at 1 y off) 1 i d1 _ _
    (by simpa [editorInfo.at] using h6.symm ▸ hw) (by simpa [editorInfo.at, editorInfo.Doc] using h5)
    hd1 hown1 hprev hnext hp0 (by simp only; omega) rfl hy
  have hm : mergeRows (erow.mk 1 k (r.content.take k.toNat))
      (erow.mk 1 (r.len - k) (r.content.drop k.toNat)) = erow.mk 1 r.len r.content := by
    have e1 : (r.content.take k.toNat).take k.toNat = r.content.take k.toNat := by
      rw [List.take_take, min_self]
    have e2 : (r.content.drop k.toNat).take (r.len - k).toNat = r.content.drop k.toNat := by
      apply List.take_of_length_le
      rw [List.length_drop, hclen]; omega
    have c1 : (erow.mk 1 k (r.content.take k.toNat)).content = r.content.take k.toNat := e1
    have c2 : (erow.mk 1 (r.len - k) (r.content.drop k.toNat)).content
        = r.content.drop k.toNat := e2
    simp only [mergeRows, ne_eq, one_ne_zero, not_false_eq_true, if_true]
    rw [c1, c2, List.take_append_drop, erow.mk.injEq]
    exact ⟨rfl, by ring, rfl⟩
  refine ⟨s2, g1, ?_, ?_, ?_⟩
  · rw [g3]; simp only [editorInfo.at]; rw [h4]; ring
  · rw [g2, hm]
    simp only [editorInfo.at]
    rw [h3, List.take_left' hA]
    have e3 : sw.rows.take i ++ erow.mk 1 k (r.content.take k.toNat)
        :: erow.mk 1 (r.len - k) (r.content.drop k.toNat) :: sw.rows.drop (i + 1)
        = (sw.rows.take i ++ [erow.mk 1 k (r.content.take k.toNat),
            erow.mk 1 (r.len - k) (r.content.drop k.toNat)]) ++ sw.rows.drop (i + 1) := by simp
    rw [e3, List.drop_left' (by simp [hA])]
    rw [List.set_eq_take_append_cons_drop, if_pos (by omega)]
  · simp only [erow.content]
    apply List.take_of_length_le
    rw [List.length_take]; omega

theorem enter_then_backspace_witness :
    ∃ (s1 s2 : editorInfo),
      enter ((wrapOf (mkDoc 4 10 ["abcdefg".toList, "xy".toList])).at 3 1 0) = some (0, s1) ∧
      s1.numrows = 3 ∧
      deleteCharacter (s1.at 1 2 0) BACKSPACE 1 = some (-2, s2) ∧ s2.numrows = 2 ∧
      s2.rows = [erow.mk 1 7 "abcdefg".toList, erow.mk 1 2 "xy".toList] := by
  obtain ⟨s1, sw, h1, h2, h3, h4⟩ :=
    enter_then_backspace ((wrapOf (mkDoc 4 10 ["abcdefg".toList, "xy".toList])).at 3 1 0) 0
      (srow.mk 0 7 "abcdefg".toList) (erow.mk 1 7 "abcdefg".toList) 0
      (by decide) (mkDoc_wrap_Doc _ _ _ _ _ _ (by decide)) (by decide) (by decide) (by decide)
      (by decide) (by decide) (by decide) (by decide) (by decide)
  have h5 : removeWelcomeMessage ((wrapOf (mkDoc 4 10 ["abcdefg".toList, "xy".toList])).at 3 1 0)
      = some ((wrapOf (mkDoc 4 10 ["abcdefg".toList, "xy".toList])).at 3 1 0) := by decide
  have h6 : ((enter ((wrapOf (mkDoc 4 10 ["abcdefg".toList, "xy".toList])).at 3 1 0)).bind
      fun q => index q.2.srows (2 + 0 - 1)) = some (srow.mk 1 5 "cdefg".toList) := by decide
  rw [h1] at h6
  rw [h5] at h2
  cases h2
  obtain ⟨s2, g1, g2, g3, _⟩ := h4 2 0 _ h6 rfl (by decide)
  exact ⟨s1, s2, h1, h3, g1, g2, g3⟩

theorem cut_inserted (c b : List Char) (q : Nat) (hq : q ≤ c.length) :
    (c.take q ++ b ++ c.drop q).take q
      ++ (c.take q ++ b ++ c.drop q).drop (q + b.length) = c := by
  have h1 : (c.take q).length = q := by rw [List.length_take]; omega
  have h2 : (c.take q ++ b).length = q + b.length := by rw [List.length_append, h1]
  rw [List.drop_left' h2, List.append_assoc, List.take_left' h1, List.take_append_drop]

/-- C12, evaluated where it fails. Screen of 4 rows and 10 columns, the real lines "ab" and
"" (as the file "ab\n\n" loads). On the empty line, `addCharacter` of the byte `Q` and then
`deleteCharacter` of 1 byte, in `DELETE_KEY` mode at column 1 or in `BACKSPACE` mode at
column 2, return 1 and leave the line a placeholder with the byte `~` and length 1, not the
empty real line. On line 0 at row 1 column 1, `addCharacter` of `Q` and then
`deleteCharacter` in `DELETE_KEY` mode return -1 and leave "Qab". -/
theorem insert_delete_not_restored :
    (wrapOf (mkDoc 4 10 ["ab".toList, []])).rows = [erow.mk 1 2 "ab".toList, erow.mk 1 0 []] ∧
    ((addCharacter ((wrapOf (mkDoc 4 10 ["ab".toList, []])).at 1 2 0) ['Q'] 1).bind fun r =>
        (deleteCharacter (r.2.at 1 2 0) DELETE_KEY 1).map fun q => (r.2.rows, q.1, q.2.rows))
      = some ([erow.mk 1 2 "ab".toList, erow.mk 1 1 ['Q']], 1,
          [erow.mk 1 2 "ab".toList, erow.mk 0 1 ['~']]) ∧
    ((addCharacter ((wrapOf (mkDoc 4 10 ["ab".toList, []])).at 1 2 0) ['Q'] 1).bind fun r =>
        (deleteCharacter (r.2.at 2 2 0) BACKSPACE 1).map fun q => (q.1, q.2.rows))
      = some (1, [erow.mk 1 2 "ab".toList, erow.mk 0 1 ['~']]) ∧
    ((addCharacter ((wrapOf (mkDoc 4 10 ["ab".toList, []])).at 1 1 0) ['Q'] 1).bind fun r =>
        (deleteCharacter (r.2.at 1 1 0) DELETE_KEY 1).map fun q => (q.1, q.2.rows))
      = some (-1, [erow.mk 1 3 "Qab".toList, erow.mk 1 0 []]) := by
  refine ⟨?_, ?_, ?_, ?_⟩
  · decide
  · decide
  · decide
  · decide

/-- What the splice leaves where the real bytes are lost. Screen of 4 rows and 80 columns,
the line "abcdefghij", cursor at column 5: 40 bytes `X` are inserted at offset 4 and then
deleted in `DELETE_KEY` mode at the same column. When the old pointer shows other bytes
(here `?`) behind the 10 bytes that `realloc` keeps, the line comes back as "abcd??????":
the first 4 bytes and the length are those of before, the 6 bytes of the tail are what was
read from the dropped part. When the old pointer still shows all bytes, it comes back as
"abcdefghij". -/
theorem deleteCharacter_reads_dropped_bytes :
    ((addCharacter ((wrapOf (mkDoc 4 80 ["abcdefghij".toList])).at 5 1 0)
        (List.replicate 40 'X') 40).bind fun q =>
      (deleteCharacter.reading (fun buf => buf.take 10 ++ List.replicate (buf.length - 10) '?')
        (q.2.at 5 1 0) DELETE_KEY 40).map fun q2 => (q2.1, q2.2.rows))
      = some (40, [erow.mk 1 10 "abcd??????".toList]) ∧
    ((addCharacter ((wrapOf (mkDoc 4 80 ["abcdefghij".toList])).at 5 1 0)
        (List.replicate 40 'X') 40).bind fun q =>
      (deleteCharacter.reading id (q.2.at 5 1 0) DELETE_KEY 40).map fun q2 =>
        (q2.1, q2.2.rows))
      = some (40, [erow.mk 1 10 "abcdefghij".toList]) := by
  constructor
  · decide
  · decide

/-- C12, amended: take a document, the cursor on a display line owned by a real line `i`
(`dirty ≠ 0`) of content `c` and length `n ≠ 0`, the cursor at line offset
`p = P + cursor_x - 1` with `0 ≤ p ≤ n` (`P` the prefix length), the welcome index a line
index, and let `view` give what the old pointer shows after the `realloc` of
`deleteCharacter`, at least `n + |b|` bytes. `addCharacter(b, |b|)` returns `|b|`. Then,
with the cursor on a display line owned by line `i` whose prefix length is 0,
`deleteCharacter` in `DELETE_KEY` mode with count `|b|` at column `p + 1`, not at row 1
column 1, returns `|b|` and leaves line `i` real content of length `n` with the bytes
`back`: the first `p` bytes of `c`, then the `n - p` bytes that the old pointer shows from
offset `p + |b|` on. For `|b| = 1`, `deleteCharacter` in `BACKSPACE` mode with count 1 at
column `p + 2` does the same. `back` is `c` when `p = n` (nothing is read back), and when
the old pointer still shows the bytes it held. -/
theorem insert_then_delete (view : List Char → List Char) (s : editorInfo) (b : List Char)
    (i : Nat) (d : srow) (r : erow)
    (P : Int) (hw : 1 ≤ s.screen_col) (hd : s.Doc)
    (hwi : 0 ≤ Int.tdiv s.screen_row 2 - 2 ∧ Int.tdiv s.screen_row 2 - 2 < s.numrows)
    (hcur : index s.srows (s.cursor_y + s.cursor_y_offset - 1) = some d)
    (hown : d.row_index = i) (hrow : s.rows[i]? = some r) (hP : getSrowLen s i = some P)
    (hdirty : r.dirty ≠ 0) (hne : r.len ≠ 0)
    (hp0 : 0 ≤ P + s.cursor_x - 1) (hp1 : P + s.cursor_x - 1 ≤ r.len)
    (hview : r.len + b.length ≤ ((view (r.content.take (P + s.cursor_x - 1).toNat ++ b
      ++ r.content.drop (P + s.cursor_x - 1).toNat)).length : Int)) :
    ∃ (s1 : editorInfo) (back : List Char),
      addCharacter s b b.length = some ((b.length : Int), s1) ∧
      back = r.content.take (P + s.cursor_x - 1).toNat
        ++ ((view (r.content.take (P + s.cursor_x - 1).toNat ++ b
              ++ r.content.drop (P + s.cursor_x - 1).toNat)).take
            (r.len + b.length).toNat).drop (P + s.cursor_x - 1 + b.length).toNat ∧
      (back.length : Int) = r.len ∧
      back.take (P + s.cursor_x - 1).toNat = r.content.take (P + s.cursor_x - 1).toNat ∧
      (P + s.cursor_x - 1 = r.len → back = r.content) ∧
      (view (r.content.take (P + s.cursor_x - 1).toNat ++ b
          ++ r.content.drop (P + s.cursor_x - 1).toNat)
        = r.content.take (P + s.cursor_x - 1).toNat ++ b
          ++ r.content.drop (P + s.cursor_x - 1).toNat → back = r.content) ∧
      (erow.mk 1 r.len back).content = back ∧
      (∀ (y off : Int) (d1 : srow), index s1.srows (y + off - 1) = some d1 →
        d1.row_index = i → getSrowLen (s1.at (P + s.cursor_x) y off) i = some 0 →
        ¬ (P + s.cursor_x = 1 ∧ y = 1) →
        ∃ s2, deleteCharacter.reading view (s1.at (P + s.cursor_x) y off) DELETE_KEY b.length
            = some ((b.length : Int), s2) ∧
          s2.rows[i]? = some (erow.mk 1 r.len back)) ∧
      (b.length = 1 → ∀ (y off : Int) (d1 : srow), index s1.srows (y + off - 1) = some d1 →
        d1.row_index = i → getSrowLen (s1.at (P + s.cursor_x + 1) y off) i = some 0 →
        ∃ s2, deleteCharacter.reading view (s1.at (P + s.cursor_x + 1) y off) BACKSPACE 1
            = some (1, s2) ∧
          s2.rows[i]? = some (erow.mk 1 r.len back)) := by
  have hlen := hd.2 r (List.getElem?_mem hrow)
  obtain ⟨s1, h1, h2, h3, h4⟩ := addCharacter_core s b i d r r P hw hd hcur hown hrow hP hwi
    (by rw [if_neg hdirty]) hp0 hp1 hlen
  have hilt := getElem?_lt h2
  obtain ⟨p, hp⟩ : ∃ p : Int, p = P + s.cursor_x - 1 := ⟨_, rfl⟩
  rw [← hp] at h2 hp0 hp1 hview ⊢
  obtain ⟨c, hc⟩ : ∃ c, c = r.content := ⟨_, rfl⟩
  have hclen : c.length = r.len.toNat := by
    rw [hc]; simp only [erow.content, List.length_take]; omega
  rw [← hc] at h2 hview ⊢
  obtain ⟨ins, hins⟩ : ∃ ins, ins = c.take p.toNat ++ b ++ c.drop p.toNat := ⟨_, rfl⟩
  have hinslen : ins.length = r.len.toNat + b.length := by
    rw [hins]
    simp only [List.length_append, List.length_take, List.length_drop]
    omega
  rw [← hins] at h2 hview ⊢
  obtain ⟨back, hback⟩ : ∃ back, back = c.take p.toNat
      ++ ((view ins).take (r.len + b.length).toNat).drop (p + b.length).toNat := ⟨_, rfl⟩
  have e1 : (r.len + (b.length : Int)).toNat = r.len.toNat + b.length := by omega
  have e2 : (p + (b.length : Int)).toNat = p.toNat + b.length := by omega
  have htk : (c.take p.toNat).length = p.toNat := by
    rw [List.length_take]; omega
  have hblen : (back.length : Int) = r.len := by
    rw [hback]
    simp only [List.length_append, List.length_take, List.length_drop]
    omega
  have hr1 : (erow.mk 1 (r.len + b.length) ins).content = ins := by
    simp only [erow.content]
    apply List.take_of_length_le
    omega
  have hrow2 : ∀ (x len offset : Int), x - offset = p → len = b.length →
      erow.mk 1 (r.len + b.length - len)
        (ins.take (x - offset).toNat
          ++ ((view ins).take (r.len + b.length).toNat).drop (x + len - offset).toNat)
        = erow.mk 1 r.len back := by
    intro x len offset hx hl
    have e3 : (x - offset).toNat = p.toNat := by rw [hx]
    have e4 : (x + len - offset).toNat = (p + (b.length : Int)).toNat := by
      congr 1; omega
    have e5 : ins.take p.toNat = c.take p.toNat := by
      rw [hins, List.append_assoc, List.take_left' htk]
    rw [e3, e4, e5, ← hback, hl]
    congr 1
    ring
  have hw1 : ∀ x y off, 1 ≤ (s1.at x y off).screen_col := fun x y off => by
    simpa [editorInfo.at, h4] using hw
  have hd1 : ∀ x y off, (s1.at x y off).Doc := fun x y off => by
    simpa [editorInfo.at, editorInfo.Doc] using h3
  refine ⟨s1, back, h1, hback, hblen, ?_, ?_, ?_, ?_, ?_, ?_⟩
  · rw [hback, List.take_left' htk]
  · intro hpn
    have e6 : p.toNat = c.length := by omega
    rw [hback, e2, e1, e6, ← hclen, List.take_length]
    rw [List.drop_eq_nil_of_le (by rw [List.length_take]; omega), List.append_nil]
  · intro hv
    rw [hback, hv, e1, e2, ← hinslen, List.take_length]
    have h5 : (c.take p.toNat ++ b).length = p.toNat + b.length := by
      rw [List.length_append, htk]
    rw [hins, List.drop_left' h5, List.take_append_drop]
  · simp only [erow.content]
    apply List.take_of_length_le
    omega
  · intro y off d1 hcur1 hown1 hP1 hstart
    obtain ⟨s2, g1, g2⟩ := deleteCharacter.reading_first_segment view
      (s1.at (P + s.cursor_x) y off)
      DELETE_KEY b.length 1 i d1 _ (hw1 _ _ _) (hd1 _ _ _) hcur1 hown1 h2 hP1
      (Or.inl ⟨rfl, rfl⟩) hstart (fun h => absurd h.1 (by decide))
      (by simp only; omega) (by omega) (by simp only [editorInfo.at]; omega)
      (by simp only [editorInfo.at]; omega) hview
    refine ⟨s2, g1, ?_⟩
    rw [g2, hr1]
    simp only [editorInfo.at]
    rw [hrow2 _ _ _ (by omega) rfl, List.getElem?_set_self hilt]
  · intro hb1 y off d1 hcur1 hown1 hP1
    obtain ⟨s2, g1, g2⟩ := deleteCharacter.reading_first_segment view
      (s1.at (P + s.cursor_x + 1) y off)
      BACKSPACE 1 2 i d1 _ (hw1 _ _ _) (hd1 _ _ _) hcur1 hown1 h2 hP1
      (Or.inr ⟨rfl, rfl⟩) (fun h => by simp only [editorInfo.at] at h; omega)
      (fun h => by simp only [editorInfo.at] at h; omega)
      (by simp only; omega) (by omega) (by simp only [editorInfo.at]; omega)
      (by simp only [editorInfo.at]; omega) hview
    refine ⟨s2, g1, ?_⟩
    rw [g2, hr1]
    simp only [editorInfo.at]
    rw [hrow2 _ _ _ (by omega) (by omega), List.getElem?_set_self hilt]

theorem insert_then_delete_witness :
    (∃ (s1 s2 s3 : editorInfo),
      addCharacter ((wrapOf (mkDoc 4 10 ["abcdefg".toList, "xy".toList])).at 8 1 0) ['Q']
        (['Q'].length : Nat) = some (((['Q'].length : Nat) : Int), s1) ∧
      s1.rows[0]? = some (erow.mk 1 8 "abcdefgQ".toList) ∧
      deleteCharacter.reading (fun buf => buf.map fun _ => '?') (s1.at 8 1 0) DELETE_KEY
        (['Q'].length : Nat) = some (((['Q'].length : Nat) : Int), s2) ∧
      s2.rows[0]? = some (erow.mk 1 7 "abcdefg".toList) ∧
      deleteCharacter.reading (fun buf => buf.map fun _ => '?') (s1.at 9 1 0) BACKSPACE 1
        = some (1, s3) ∧
      s3.rows[0]? = some (erow.mk 1 7 "abcdefg".toList)) ∧
    (∃ (s1 s2 : editorInfo),
      addCharacter ((wrapOf (mkDoc 4 10 ["abcdefg".toList, "xy".toList])).at 3 1 0) ['Q']
        (['Q'].length : Nat) = some (((['Q'].length : Nat) : Int), s1) ∧
      s1.rows[0]? = some (erow.mk 1 8 "abQcdefg".toList) ∧
      deleteCharacter.reading id (s1.at 3 1 0) DELETE_KEY (['Q'].length : Nat)
        = some (((['Q'].length : Nat) : Int), s2) ∧
      s2.rows[0]? = some (erow.mk 1 7 "abcdefg".toList)) := by
  constructor
  · obtain ⟨s1, back, h1, _, _, _, hpn, _, _, h2, h3⟩ :=
      insert_then_delete (fun buf => buf.map fun _ => '?')
        ((wrapOf (mkDoc 4 10 ["abcdefg".toList, "xy".toList])).at 8 1 0)
        ['Q'] 0 (srow.mk 0 7 "abcdefg".toList) (erow.mk 1 7 "abcdefg".toList) 0
        (by decide) (mkDoc_wrap_Doc _ _ _ _ _ _ (by decide)) (by decide) (by decide)
        (by decide) (by decide) (by decide) (by decide) (by decide) (by decide) (by decide)
        (by decide)
    have hb : back = "abcdefg".toList := hpn (by decide)
    subst hb
    have h4 : ((addCharacter ((wrapOf (mkDoc 4 10 ["abcdefg".toList, "xy".toList])).at 8 1 0)
        ['Q'] (['Q'].length : Nat)).bind fun q => index q.2.srows (1 + 0 - 1))
        = some (srow.mk 0 8 "abcdefgQ".toList) := by decide
    have h5 : ((addCharacter ((wrapOf (mkDoc 4 10 ["abcdefg".toList, "xy".toList])).at 8 1 0)
        ['Q'] (['Q'].length : Nat)).bind fun q => q.2.rows[0]?)
        = some (erow.mk 1 8 "abcdefgQ".toList) := by decide
    rw [h1] at h4 h5
    obtain ⟨s2, g1, g2⟩ := h2 1 0 _ h4 rfl rfl (by decide)
    obtain ⟨s3, g3, g4⟩ := h3 rfl 1 0 _ h4 rfl rfl
    exact ⟨s1, s2, s3, h1, h5, g1, g2, g3, g4⟩
  · obtain ⟨s1, back, h1, _, _, _, _, hid, _, h2, _⟩ :=
      insert_then_delete id
        ((wrapOf (mkDoc 4 10 ["abcdefg".toList, "xy".toList])).at 3 1 0)
        ['Q'] 0 (srow.mk 0 7 "abcdefg".toList) (erow.mk 1 7 "abcdefg".toList) 0
        (by decide) (mkDoc_wrap_Doc _ _ _ _ _ _ (by decide)) (by decide) (by decide)
        (by decide) (by decide) (by decide) (by decide) (by decide) (by decide) (by decide)
        (by decide)
    have hb : back = "abcdefg".toList := hid rfl
    subst hb
    have h4 : ((addCharacter ((wrapOf (mkDoc 4 10 ["abcdefg".toList, "xy".toList])).at 3 1 0)
        ['Q'] (['Q'].length : Nat)).bind fun q => index q.2.srows (1 + 0 - 1))
        = some (srow.mk 0 8 "abQcdefg".toList) := by decide
    have h5 : ((addCharacter ((wrapOf (mkDoc 4 10 ["abcdefg".toList, "xy".toList])).at 3 1 0)
        ['Q'] (['Q'].length : Nat)).bind fun q => q.2.rows[0]?)
        = some (erow.mk 1 8 "abQcdefg".toList) := by decide
    rw [h1] at h4 h5
    obtain ⟨s2, g1, g2⟩ := h2 1 0 _ h4 rfl rfl (by decide)
    exact ⟨s1, s2, h1, h5, g1, g2⟩

/-! ## Loading: the text buffer -/

theorem addToCbuf_eq (B x : List Char) :
    addToCbuf (cbuf.mk B.length B) x x.length
      = some ((x.length : Int), cbuf.mk ((B ++ x).length : Nat) (B ++ x)) := by
  obtain ⟨nb, h1, h2⟩ := append_bytes B x B.length x.length (by omega) (by omega) (by omega)
    (by omega)
  simp only [addToCbuf, h1, h2, Option.bind_eq_bind, Option.some_bind, Int.toNat_ofNat,
    List.take_length, List.length_append, Nat.cast_add]

theorem openFile.byte_eq (B : List Char) (c : Char) :
    openFile.byte (cbuf.mk B.length B) c
      = some (cbuf.mk ((B ++ (if c = '\n' then ['\r', '\n'] else [c])).length : Nat)
          (B ++ (if c = '\n' then ['\r', '\n'] else [c]))) := by
  have h1 := addToCbuf_eq B ['\r']
  have h2 := addToCbuf_eq (B ++ ['\r']) [c]
  have h3 := addToCbuf_eq B [c]
  simp only [List.length_singleton, Nat.cast_one] at h1 h2 h3
  by_cases h : c = '\n'
  · simp only [openFile.byte, if_pos h, h1, Option.map_some', Option.bind_eq_bind,
      Option.some_bind, h2]
    subst h
    simp
  · simp only [openFile.byte, if_neg h, Option.bind_eq_bind, Option.some_bind, h3]

/-- The read loop of `openFile` on a stretch of bytes without a newline. -/
theorem openFile.read_plain (l rest : List Char) (hl : '\n' ∉ l) (B : List Char) :
    openFile.read (l ++ rest) (cbuf.mk B.length B)
      = openFile.read rest (cbuf.mk ((B ++ l).length : Nat) (B ++ l)) := by
  induction l generalizing B with
  | nil => simp
  | cons c l ih =>
    have hc : c ≠ '\n' := fun h => hl (by simp [h])
    have hl2 : '\n' ∉ l := fun h => hl (by simp [h])
    have := openFile.byte_eq B c
    rw [if_neg hc] at this
    show openFile.read (c :: (l ++ rest)) _ = _
    simp only [openFile.read, this, Option.bind_eq_bind, Option.some_bind]
    rw [ih hl2]
    simp

/-- The read loop of `openFile` on newline-terminated lines followed by a last stretch
without a newline: every newline gets a `\r` in front. -/
theorem openFile.read_lines (lines : List (List Char)) (last : List Char)
    (hl : ∀ l ∈ lines, '\n' ∉ l) (hlast : '\n' ∉ last) (B : List Char) :
    openFile.read ((lines.map fun l => l ++ ['\n']).flatten ++ last) (cbuf.mk B.length B)
      = some (cbuf.mk
          ((B ++ (lines.map fun l => l ++ ['\r', '\n']).flatten ++ last).length : Nat)
          (B ++ (lines.map fun l => l ++ ['\r', '\n']).flatten ++ last)) := by
  induction lines generalizing B with
  | nil =>
    have := openFile.read_plain last [] hlast B
    simp only [List.append_nil] at this
    simp only [List.map_nil, List.flatten_nil, List.nil_append, List.append_nil, this,
      openFile.read]
  | cons l lines ih =>
    have h1 : '\n' ∉ l := hl l (by simp)
    have h2 : ∀ l ∈ lines, '\n' ∉ l := fun l h => hl l (by simp [h])
    have h3 := openFile.byte_eq (B ++ l) '\n'
    rw [if_pos rfl] at h3
    simp only [List.map_cons, List.flatten_cons, List.append_assoc]
    rw [openFile.read_plain l _ h1 B]
    simp only [List.cons_append, List.nil_append, openFile.read, h3, Option.bind_eq_bind,
      Option.some_bind]
    have := ih h2 (B ++ l ++ ['\r', '\n'])
    simp only [List.append_assoc, List.cons_append, List.nil_append] at this ⊢
    exact this

/-! ## Loading: `updateRows` -/

theorem getElem?_mid {α : Type} (pre m rest : List α) (j : Nat) (hj : j < m.length) :
    (pre ++ m ++ rest)[pre.length + j]? = m[j]? := by
  rw [List.append_assoc, List.getElem?_append_right (by omega)]
  rw [show pre.length + j - pre.length = j by omega, List.getElem?_append_left hj]

/-- The scan of `updateRows` over a stretch `m` without a newline that a newline follows
within the viewport width: it stops at the newline with `is_entered = 1`. -/
theorem updateRows.scan_newline (L lc : Int) (B pre m rest : List Char)
    (hB : B = pre ++ m ++ '\n' :: rest) (hoff : L - lc = pre.length)
    (hlc : lc = (m.length : Int) + 1 + rest.length) (hm : '\n' ∉ m) :
    ∀ (k j todo : Nat) (bl : Int), j + k = m.length → k < todo →
      updateRows.scan (cbuf.mk L B) lc todo j bl = some ((m.length : Int) + 1, 1) := by
  intro k
  induction k with
  | zero =>
    intro j todo bl hj ht
    obtain ⟨t, rfl⟩ : ∃ t, todo = t + 1 := ⟨todo - 1, by omega⟩
    have e1 : L - lc + (j : Int) = ((pre.length + m.length : Nat) : Int) := by
      push_cast; omega
    have e2 : B[pre.length + m.length]? = some '\n' := by
      rw [hB, ← List.length_append, List.getElem?_append_right (le_refl _)]
      simp
    simp only [updateRows.scan, e1, index_natCast, e2, Option.bind_eq_bind, Option.some_bind,
      if_true]
    have : (j : Int) = m.length := by omega
    rw [this]
  | succ k ih =>
    intro j todo bl hj ht
    obtain ⟨t, rfl⟩ : ∃ t, todo = t + 1 := ⟨todo - 1, by omega⟩
    have hjm : j < m.length := by omega
    have e1 : L - lc + (j : Int) = ((pre.length + j : Nat) : Int) := by
      push_cast; omega
    have e2 : B[pre.length + j]? = some m[j] := by
      rw [hB, getElem?_mid pre m _ j hjm, List.getElem?_eq_getElem hjm]
    have e3 : m[j] ≠ '\n' := fun h => hm (h ▸ List.getElem_mem hjm)
    have e4 : ¬ ((j : Int) = lc - 1) := by omega
    simp only [updateRows.scan, e1, index_natCast, e2, Option.bind_eq_bind, Option.some_bind,
      if_neg e3, if_neg e4]
    have := ih (j + 1) t ((j : Int) + 1) (by omega) (by omega)
    rw [← this]
    push_cast
    rfl

/-- The scan of `updateRows` over a last stretch `m` without a newline, no longer than the
viewport width: it stops at the end of the text with `is_entered = 0`. -/
theorem updateRows.scan_end (L lc : Int) (B pre m : List Char)
    (hB : B = pre ++ m) (hoff : L - lc = pre.length)
    (hlc : lc = (m.length : Int)) (hm : '\n' ∉ m) :
    ∀ (k j todo : Nat) (bl : Int), j + k + 1 = m.length → k < todo →
      updateRows.scan (cbuf.mk L B) lc todo j bl = some ((m.length : Int), 0) := by
  intro k
  induction k with
  | zero =>
    intro j todo bl hj ht
    obtain ⟨t, rfl⟩ : ∃ t, todo = t + 1 := ⟨todo - 1, by omega⟩
    have hjm : j < m.length := by omega
    have e1 : L - lc + (j : Int) = ((pre.length + j : Nat) : Int) := by
      push_cast; omega
    have e2 : B[pre.length + j]? = some m[j] := by
      have := getElem?_mid pre m [] j hjm
      rw [List.append_nil] at this
      rw [hB, this, List.getElem?_eq_getElem hjm]
    have e3 : m[j] ≠ '\n' := fun h => hm (h ▸ List.getElem_mem hjm)
    have e4 : (j : Int) = lc - 1 := by omega
    simp only [updateRows.scan, e1, index_natCast, e2, Option.bind_eq_bind, Option.some_bind,
      if_neg e3, if_pos e4]
    have : (j : Int) + 1 = m.length := by omega
    rw [this]
  | succ k ih =>
    intro j todo bl hj ht
    obtain ⟨t, rfl⟩ : ∃ t, todo = t + 1 := ⟨todo - 1, by omega⟩
    have hjm : j < m.length := by omega
    have e1 : L - lc + (j : Int) = ((pre.length + j : Nat) : Int) := by
      push_cast; omega
    have e2 : B[pre.length + j]? = some m[j] := by
      have := getElem?_mid pre m [] j hjm
      rw [List.append_nil] at this
      rw [hB, this, List.getElem?_eq_getElem hjm]
    have e3 : m[j] ≠ '\n' := fun h => hm (h ▸ List.getElem_mem hjm)
    have e4 : ¬ ((j : Int) = lc - 1) := by omega
    simp only [updateRows.scan, e1, index_natCast, e2, Option.bind_eq_bind, Option.some_bind,
      if_neg e3, if_neg e4]
    have := ih (j + 1) t ((j : Int) + 1) (by omega) (by omega)
    rw [← this]
    push_cast
    rfl

theorem chunk_bytes (pre l rest : List Char) (n off : Int) (hn : n = l.length)
    (hoff : off = pre.length) :
    ∃ nb, malloc junk n = some nb ∧ memcpy nb 0 (pre ++ l ++ rest) off n = some l := by
  refine ⟨List.replicate l.length junk, by rw [malloc_eq junk (by omega), hn]; simp, ?_⟩
  have := memcpy_mid [] (List.replicate l.length junk) [] pre l rest (by simp)
  simp only [List.nil_append, List.append_nil, List.length_nil, Nat.cast_zero] at this
  rw [hn, hoff]
  exact this

theorem addRowToErows_eq (s : editorInfo) (dirty : Int) (buf : List Char) (len : Int)
    (h : s.numrows = s.rows.length) :
    ∃ s', addRowToErows s dirty buf len = some (1, s') ∧
      s'.rows = s.rows ++ [erow.mk dirty len buf] ∧ s'.numrows = s'.rows.length ∧
      s'.screen_col = s.screen_col ∧ s'.screen_row = s.screen_row := by
  obtain ⟨g, hg, hre⟩ := realloc_grow default s.rows [] 1
  obtain ⟨x, rfl⟩ : ∃ x, g = [x] := by
    match g, hg with
    | [x], _ => exact ⟨x, rfl⟩
  rw [List.append_nil, Nat.cast_one, ← h] at hre
  have hst : store (s.rows ++ [x]) s.numrows (erow.mk dirty len buf)
      = some (s.rows ++ [erow.mk dirty len buf]) := by
    rw [h, store_natCast _ _ _ (by simp), set_append_cons]
  refine ⟨{ s with rows := s.rows ++ [erow.mk dirty len buf], numrows := s.numrows + 1 },
    ?_, rfl, ?_, rfl, rfl⟩
  · simp only [addRowToErows, hre, hst, Option.bind_eq_bind, Option.some_bind]
  · simp only [List.length_append, List.length_singleton, h]
    push_cast
    rfl

/-- The loop of `updateRows` over newline-terminated short lines followed by a last stretch
without a newline: one logical line per line, `\r\n` dropped. -/
theorem updateRows.loop_lines (dirty : Int) (B last : List Char) (hlast : '\n' ∉ last) :
    ∀ (lines : List (List Char)) (pre : List Char) (fuel : Nat) (s : editorInfo),
      (∀ l ∈ lines, '\n' ∉ l ∧ (l.length : Int) + 2 ≤ s.screen_col) →
      (last.length : Int) ≤ s.screen_col →
      B = pre ++ ((lines.map fun l => l ++ ['\r', '\n']).flatten ++ last) →
      s.numrows = s.rows.length →
      ((lines.map fun l => l ++ ['\r', '\n']).flatten ++ last).length ≤ fuel →
      ∃ s', updateRows.loop dirty (cbuf.mk B.length B) fuel s
          (((lines.map fun l => l ++ ['\r', '\n']).flatten ++ last).length : Nat)
          = some (s', true) ∧
        s'.rows = s.rows ++ (lines ++ (if last = [] then [] else [last])).map
          (fun l => erow.mk dirty l.length l) ∧
        s'.numrows = s'.rows.length ∧ s'.screen_col = s.screen_col ∧
        s'.screen_row = s.screen_row := by
  intro lines
  induction lines with
  | nil =>
    intro pre fuel s _ hw hB hn hf
    simp only [List.map_nil, List.flatten_nil, List.nil_append, List.append_nil] at hB hf ⊢
    by_cases hl : last = []
    · subst hl
      refine ⟨s, ?_, by simp, hn, rfl, rfl⟩
      cases fuel <;> simp [updateRows.loop]
    · have hpos : 0 < last.length := List.length_pos.mpr hl
      obtain ⟨f, rfl⟩ : ∃ f, fuel = f + 1 := ⟨fuel - 1, by omega⟩
      have hsc := updateRows.scan_end B.length last.length B pre last hB
        (by rw [hB, List.length_append]; push_cast; ring) rfl hlast
        (last.length - 1) 0 s.screen_col.toNat 0 (by omega) (by omega)
      obtain ⟨nb, hm1, hm2⟩ := chunk_bytes pre last [] last.length
        ((B.length : Int) - last.length) rfl (by rw [hB, List.length_append]; push_cast; ring)
      rw [List.append_nil, ← hB] at hm2
      obtain ⟨s', ha1, ha2, ha3, ha4, ha5⟩ := addRowToErows_eq s dirty last last.length hn
      refine ⟨s', ?_, by rw [ha2, if_neg hl]; rfl, ha3, ha4, ha5⟩
      have h1 : (last.length : Int) > 0 := by omega
      have h2 : ¬ (s.screen_col ≤ 0) := by omega
      simp only [updateRows.loop, if_pos h1, if_neg h2, Nat.cast_zero] at hsc ⊢
      simp only [hsc, Option.bind_eq_bind, Option.some_bind, ne_eq, not_true_eq_false,
        if_false, hm1, hm2, ha1, sub_self]
      cases f <;> simp [updateRows.loop]
  | cons l lines ih =>
    intro pre fuel s hls hw hB hn hf
    obtain ⟨hl1, hl2⟩ := hls l (by simp)
    obtain ⟨R, hR⟩ : ∃ R, R = (lines.map fun l => l ++ ['\r', '\n']).flatten ++ last :=
      ⟨_, rfl⟩
    have hrem : (List.map (fun l => l ++ ['\r', '\n']) (l :: lines)).flatten ++ last
        = l ++ ['\r'] ++ '\n' :: R := by
      rw [hR]; simp
    rw [hrem] at hB hf ⊢
    have hlen : (l ++ ['\r'] ++ '\n' :: R).length = l.length + 2 + R.length := by
      simp only [List.length_append, List.length_cons, List.length_nil]; omega
    rw [hlen] at hf ⊢
    obtain ⟨f, rfl⟩ : ∃ f, fuel = f + 1 := ⟨fuel - 1, by omega⟩
    have hB2 : B = pre ++ (l ++ ['\r']) ++ '\n' :: R := by
      rw [hB]; simp
    have hBl : (B.length : Int) = pre.length + (l.length + 2 + R.length) := by
      rw [hB2]
      simp only [List.length_append, List.length_cons, List.length_nil]
      push_cast; ring
    have hm : '\n' ∉ l ++ ['\r'] := by
      simp only [List.mem_append, List.mem_singleton, not_or]
      exact ⟨hl1, by decide⟩
    have hsc := updateRows.scan_newline B.length ((l.length + 2 + R.length : Nat) : Int)
      B pre (l ++ ['\r']) R hB2 (by rw [hBl]; push_cast; ring)
      (by simp only [List.length_append, List.length_singleton]; push_cast; ring) hm
      (l.length + 1) 0 s.screen_col.toNat 0 (by simp) (by omega)
    have hmlen : (((l ++ ['\r']).length : Nat) : Int) + 1 = (l.length : Int) + 2 := by
      simp only [List.length_append, List.length_singleton]; push_cast; ring
    rw [hmlen] at hsc
    obtain ⟨nb, hm1, hm2⟩ := chunk_bytes pre l (['\r'] ++ '\n' :: R) l.length
      ((B.length : Int) - ((l.length + 2 + R.length : Nat) : Int)) rfl
      (by rw [hBl]; push_cast; ring)
    have hB3 : pre ++ l ++ (['\r'] ++ '\n' :: R) = B := by rw [hB2]; simp
    rw [hB3] at hm2
    obtain ⟨s1, ha1, ha2, ha3, ha4, ha5⟩ := addRowToErows_eq s dirty l l.length hn
    obtain ⟨s', hi1, hi2, hi3, hi4, hi5⟩ := ih (pre ++ l ++ ['\r', '\n']) f s1
      (fun l' h' => by rw [ha4]; exact hls l' (by simp [h'])) (by rw [ha4]; exact hw)
      (by rw [hB2, hR]; simp) ha3 (by rw [← hR]; omega)
    refine ⟨s', ?_, ?_, hi3, by rw [hi4, ha4], by rw [hi5, ha5]⟩
    · have h1 : ((l.length + 2 + R.length : Nat) : Int) > 0 := by omega
      have h2 : ¬ (s.screen_col ≤ 0) := by omega
      have e1 : (l.length : Int) + 2 - 2 = l.length := by ring
      have e2 : ((l.length + 2 + R.length : Nat) : Int) - ((l.length : Int) + 2)
          = (R.length : Nat) := by push_cast; ring
      simp only [updateRows.loop, if_pos h1, if_neg h2, Nat.cast_zero] at hsc ⊢
      simp only [hsc, Option.bind_eq_bind, Option.some_bind, ne_eq, one_ne_zero,
        not_false_eq_true, if_true, e1, hm1, hm2, ha1, e2]
      rw [hR]
      exact hi1
    · rw [hi2, ha2]
      simp

/-! ## Claims on loading -/

/-- C15, evaluated where it fails. Screen of 5 rows and 4 columns, file "abcdef\n" (one text
line of 6 bytes): the load gives two logical lines, "abcd" and "ef", both real content. The
split by width is made by `updateRows` in the logical lines, not only in the display
lines. -/
theorem fileStart_chunks_by_width :
    (fileStart 5 4 "abcdef\n".toList).map (fun s => (s.numrows, s.rows))
      = some (2, [erow.mk 1 4 "abcd".toList, erow.mk 1 2 "ef".toList]) := by
  decide

/-- C15, amended: take a viewport width `w ≥ 1` and a text made of lines without a newline
byte, each of at most `w - 2` bytes and ended by a newline, followed by a last stretch
without a newline of at most `w` bytes (empty when the text ends in a newline). Loading it
returns a state with exactly one logical line per text line (and one for the last stretch
when it is not empty), in order, each flagged real (`dirty = 1`) with the length and the
bytes of its text line. -/
theorem fileStart_short_lines (ws_row ws_col : Int) (lines : List (List Char))
    (last : List Char) (hw : 1 ≤ ws_col)
    (hls : ∀ l ∈ lines, '\n' ∉ l ∧ (l.length : Int) + 2 ≤ ws_col)
    (hlast : '\n' ∉ last ∧ (last.length : Int) ≤ ws_col) :
    ∃ s, fileStart ws_row ws_col ((lines.map fun l => l ++ ['\n']).flatten ++ last) = some s ∧
      s.rows = (lines ++ (if last = [] then [] else [last])).map
        (fun l => erow.mk 1 l.length l) ∧
      s.numrows = s.rows.length ∧
      s.text = lines ++ (if last = [] then [] else [last]) := by
  obtain ⟨B, hB⟩ : ∃ B, B = (lines.map fun l => l ++ ['\r', '\n']).flatten ++ last :=
    ⟨_, rfl⟩
  have hread := openFile.read_lines lines last (fun l h => (hls l h).1) hlast.1 []
  simp only [List.nil_append, List.length_nil, Nat.cast_zero] at hread
  rw [← hB] at hread
  obtain ⟨s1, h1, h2, h3, h4, h5⟩ := updateRows.loop_lines 1 B last hlast.1 lines []
    B.length (initializeEditorInfo ws_row ws_col) hls hlast.2 (by rw [hB]; simp) rfl
    (by rw [hB])
  rw [← hB] at h1
  simp only [initializeEditorInfo, List.nil_append] at h2 h4
  have hdoc : s1.Doc := by
    refine ⟨h3, ?_⟩
    intro r hr
    rw [h2] at hr
    obtain ⟨l, _, rfl⟩ := List.mem_map.mp hr
    exact le_refl _
  obtain ⟨s', g1, g2, g3, _⟩ := updateSrows_owned s1 (by rw [h4]; exact hw) hdoc
  refine ⟨s', ?_, by rw [g2, h2], by rw [g3, g2]; exact h3, ?_⟩
  · simp only [fileStart, openFile, hread, Option.bind_eq_bind, Option.some_bind, updateRows,
      Int.toNat_ofNat, h1, if_true, g1, Option.map_some']
  · rw [editorInfo.text, g2, h2, List.map_map]
    conv_rhs => rw [← List.map_id (lines ++ if last = [] then [] else [last])]
    apply List.map_congr_left
    intro l _
    simp [erow.content]

theorem fileStart_short_lines_witness :
    ∃ s, fileStart 5 10 "abc\nde\nf".toList = some s ∧
      s.rows = [erow.mk 1 3 "abc".toList, erow.mk 1 2 "de".toList, erow.mk 1 1 "f".toList] ∧
      s.numrows = 3 ∧ s.text = ["abc".toList, "de".toList, "f".toList] := by
  obtain ⟨s, h1, h2, h3, h4⟩ :=
    fileStart_short_lines 5 10 ["abc".toList, "de".toList] "f".toList (by decide)
      (by decide) (by decide)
  refine ⟨s, h1, h2, ?_, h4⟩
  rw [h3, h2]
  rfl

/-- Two loads that the amended statement leaves out, on a screen of 5 rows and 4 columns.
A line of `w - 1 = 3` bytes, file "abc\ng\n": the first chunk of 4 bytes takes the `\r`
with it, the next one starts at the newline and asks `malloc` for `-1` bytes, and the load
ends there, with the one line "abc\r" and no display line. A line of `w = 4` bytes, file
"abcd\ng\n": the chunk "abcd" is followed by an empty line made of the `\r\n` alone. -/
theorem updateRows_line_near_width :
    (fileStart 5 4 "abc\ng\n".toList).map (fun s => (s.rows, s.numsrows))
      = some ([erow.mk 1 4 "abc\r".toList], 0) ∧
    (fileStart 5 4 "abcd\ng\n".toList).map editorInfo.text
      = some ["abcd".toList, [], "g".toList] := by
  constructor
  · decide
  · decide

/-! ## The lines that each operation leaves -/

theorem addRowToSrows_rows {s s' : editorInfo} {ri ai : Int} {buf : List Char} {len : Int}
    (h : addRowToSrows s ri ai buf len = some s') :
    s'.rows = s.rows ∧ s'.numrows = s.numrows := by
  simp only [addRowToSrows, Option.bind_eq_bind] at h
  obtain ⟨_, _, h⟩ := Option.bind_eq_some.mp h
  obtain ⟨_, _, h⟩ := Option.bind_eq_some.mp h
  cases h
  exact ⟨rfl, rfl⟩

theorem updateSrows.carve_rows (i : Int) :
    ∀ (fuel : Nat) (s : editorInfo) (rowlen : Int) (tmpbuf : List Char)
      (r : editorInfo × Int × List Char),
      updateSrows.carve i fuel s rowlen tmpbuf = some r →
      r.1.rows = s.rows ∧ r.1.numrows = s.numrows := by
  intro fuel
  induction fuel with
  | zero =>
    intro s rowlen tmpbuf r h
    simp only [updateSrows.carve] at h
    split at h
    · cases h
    · cases h; exact ⟨rfl, rfl⟩
  | succ fuel ih =>
    intro s rowlen tmpbuf r h
    simp only [updateSrows.carve, Option.bind_eq_bind] at h
    split at h
    · obtain ⟨_, _, h⟩ := Option.bind_eq_some.mp h
      obtain ⟨_, _, h⟩ := Option.bind_eq_some.mp h
      obtain ⟨s1, h1, h⟩ := Option.bind_eq_some.mp h
      obtain ⟨g1, g2⟩ := addRowToSrows_rows h1
      obtain ⟨g3, g4⟩ := ih _ _ _ _ h
      exact ⟨g3.trans g1, g4.trans g2⟩
    · cases h; exact ⟨rfl, rfl⟩

theorem updateSrows.row_rows {s s' : editorInfo} {i : Int} (h : updateSrows.row s i = some s') :
    s'.rows = s.rows ∧ s'.numrows = s.numrows := by
  simp only [updateSrows.row, Option.bind_eq_bind] at h
  obtain ⟨currow, _, h⟩ := Option.bind_eq_some.mp h
  split at h
  · obtain ⟨_, _, h⟩ := Option.bind_eq_some.mp h
    obtain ⟨_, _, h⟩ := Option.bind_eq_some.mp h
    obtain ⟨r, h1, h⟩ := Option.bind_eq_some.mp h
    obtain ⟨g1, g2⟩ := updateSrows.carve_rows _ _ _ _ _ _ h1
    obtain ⟨s1, rowlen, tmpbuf⟩ := r
    simp only at h g1 g2
    split at h
    · obtain ⟨g3, g4⟩ := addRowToSrows_rows h
      exact ⟨g3.trans g1, g4.trans g2⟩
    · cases h; exact ⟨g1, g2⟩
  · exact addRowToSrows_rows h

theorem updateSrows.rows_rows :
    ∀ (todo : Nat) (s s' : editorInfo) (i : Int), updateSrows.rows todo s i = some s' →
      s'.rows = s.rows ∧ s'.numrows = s.numrows := by
  intro todo
  induction todo with
  | zero => intro s s' i h; cases h; exact ⟨rfl, rfl⟩
  | succ todo ih =>
    intro s s' i h
    simp only [updateSrows.rows, Option.bind_eq_bind] at h
    obtain ⟨s1, h1, h⟩ := Option.bind_eq_some.mp h
    obtain ⟨g1, g2⟩ := updateSrows.row_rows h1
    obtain ⟨g3, g4⟩ := ih _ _ _ h
    exact ⟨g3.trans g1, g4.trans g2⟩

theorem updateSrows.fill_rows :
    ∀ (todo : Nat) (s s' : editorInfo), updateSrows.fill todo s = some s' →
      s'.rows = s.rows ∧ s'.numrows = s.numrows := by
  intro todo
  induction todo with
  | zero => intro s s' h; cases h; exact ⟨rfl, rfl⟩
  | succ todo ih =>
    intro s s' h
    simp only [updateSrows.fill, Option.bind_eq_bind] at h
    obtain ⟨s1, h1, h⟩ := Option.bind_eq_some.mp h
    obtain ⟨g1, g2⟩ := addRowToSrows_rows h1
    obtain ⟨g3, g4⟩ := ih _ _ h
    exact ⟨g3.trans g1, g4.trans g2⟩

/-- A rebuild of the display lines leaves the logical lines as they are. -/
theorem updateSrows_rows {s s' : editorInfo} (h : updateSrows s = some s') :
    s'.rows = s.rows ∧ s'.numrows = s.numrows := by
  simp only [updateSrows, Option.bind_eq_bind] at h
  obtain ⟨s1, h1, h⟩ := Option.bind_eq_some.mp h
  obtain ⟨g1, g2⟩ := updateSrows.rows_rows _ _ _ _ h1
  obtain ⟨g3, g4⟩ := updateSrows.fill_rows _ _ _ h
  exact ⟨g3.trans g1, g4.trans g2⟩

theorem updateSrows_Lens {s s' : editorInfo} (h : updateSrows s = some s') :
    (s.Lens → s'.Lens) ∧ (s.Placeholders → s'.Placeholders) := by
  obtain ⟨g1, g2⟩ := updateSrows_rows h
  simp only [editorInfo.Lens, editorInfo.Placeholders, g1, g2]
  exact ⟨id, id⟩

theorem store_eq {α : Type} {xs ys : List α} {i : Int} {v : α} (h : store xs i v = some ys) :
    ys = xs.set i.toNat v ∧ 0 ≤ i ∧ i.toNat < xs.length := by
  simp only [store] at h
  split at h
  · rename_i hc
    cases h
    exact ⟨rfl, hc.1, by omega⟩
  · cases h

theorem realloc_nonneg {α : Type} {fill : α} {xs ys : List α} {n : Int}
    (h : realloc fill xs n = some ys) : 0 ≤ n := by
  simp only [realloc] at h
  split at h
  · assumption
  · cases h

theorem realloc_none {α : Type} {fill : α} {xs : List α} {n : Int}
    (h : realloc fill xs n = none) : n < 0 := by
  simp only [realloc] at h
  split at h
  · cases h
  · omega

theorem index_mem {α : Type} {xs : List α} {i : Int} {a : α} (h : index xs i = some a) :
    a ∈ xs ∧ 0 ≤ i ∧ xs[i.toNat]? = some a := by
  simp only [index] at h
  split at h
  · exact ⟨List.getElem?_mem h, by assumption, h⟩
  · cases h

theorem forall_mem_set {α : Type} {P : α → Prop} {xs : List α} (k : Nat) {v : α}
    (h : ∀ r ∈ xs, P r) (hv : P v) : ∀ r ∈ xs.set k v, P r := by
  intro r hr
  rcases List.mem_or_eq_of_mem_set hr with h1 | h1
  · exact h r h1
  · rw [h1]; exact hv

theorem removeWelcomeMessage_Lens {s sw : editorInfo} (h : removeWelcomeMessage s = some sw) :
    (s.Lens → sw.Lens) ∧ (s.Placeholders → sw = s) := by
  simp only [removeWelcomeMessage, Option.bind_eq_bind] at h
  obtain ⟨wr, h1, h⟩ := Option.bind_eq_some.mp h
  split at h
  · rename_i hc
    obtain ⟨buf, _, h⟩ := Option.bind_eq_some.mp h
    obtain ⟨rows, h3, h⟩ := Option.bind_eq_some.mp h
    cases h
    obtain ⟨rfl, _, _⟩ := store_eq h3
    constructor
    · intro hl
      refine ⟨by simp only [List.length_set]; exact hl.1, ?_⟩
      exact forall_mem_set _ hl.2 (by simp)
    · intro hp
      have := (hp wr (index_mem h1).1 hc.1).1
      omega
  · cases h
    exact ⟨id, fun _ => rfl⟩

theorem truncatePlaceholder_len {r c : erow} (h : truncatePlaceholder r = some c)
    (hr : 0 ≤ r.len) : 0 ≤ c.len := by
  rw [truncatePlaceholder_eq] at h
  cases h
  split
  · exact le_refl _
  · exact hr

/-- The lines after `addCharacter`: none has a negative length, and a placeholder is the
filler byte when that held before. -/
theorem addCharacter_Lens {s s' : editorInfo} {b : List Char} {ret : Int}
    (h : addCharacter s b b.length = some (ret, s')) :
    (s.Lens → s'.Lens) ∧ (s.Lens → s.Placeholders → s'.Placeholders) := by
  simp only [addCharacter, Option.bind_eq_bind] at h
  obtain ⟨d, _, h⟩ := Option.bind_eq_some.mp h
  obtain ⟨r0, h1, h⟩ := Option.bind_eq_some.mp h
  obtain ⟨c, h2, h⟩ := Option.bind_eq_some.mp h
  obtain ⟨rows1, h3, h⟩ := Option.bind_eq_some.mp h
  obtain ⟨rfl, _, hk⟩ := store_eq h3
  have key : s.Lens → s'.Lens ∧ (s.Placeholders → s'.Placeholders) := by
    intro hl
    have hc := truncatePlaceholder_len h2 (hl.2 r0 (index_mem h1).1)
    cases hre : realloc junk c.buf (c.len + b.length) with
    | none => have := realloc_none hre; omega
    | some newbuf =>
      rw [hre] at h
      simp only at h
      obtain ⟨P, _, h⟩ := Option.bind_eq_some.mp h
      obtain ⟨nb1, _, h⟩ := Option.bind_eq_some.mp h
      obtain ⟨nb2, _, h⟩ := Option.bind_eq_some.mp h
      obtain ⟨rows2, h4, h⟩ := Option.bind_eq_some.mp h
      obtain ⟨sw, h5, h⟩ := Option.bind_eq_some.mp h
      obtain ⟨s2, h6, h⟩ := Option.bind_eq_some.mp h
      cases h
      obtain ⟨rfl, _, _⟩ := store_eq h4
      simp only [List.set_set] at h5
      obtain ⟨g1, g2⟩ := removeWelcomeMessage_Lens h5
      obtain ⟨g3, g4⟩ := updateSrows_Lens h6
      have hl2 : editorInfo.Lens { s with
          rows := s.rows.set d.row_index.toNat (erow.mk 1 (c.len + b.length) nb2) } :=
        ⟨by simp only [List.length_set]; exact hl.1,
          forall_mem_set _ hl.2 (by simp only; omega)⟩
      refine ⟨g3 (g1 hl2), fun hp => ?_⟩
      have hp2 : editorInfo.Placeholders { s with
          rows := s.rows.set d.row_index.toNat (erow.mk 1 (c.len + b.length) nb2) } :=
        forall_mem_set _ hp (fun h0 => absurd h0 (show ¬ ((1 : Int) = 0) by decide))
      have := g2 hp2
      rw [this] at g4
      exact g4 hp2
  exact ⟨fun hl => (key hl).1, fun hl hp => (key hl).2 hp⟩

theorem removeWelcomeMessage_numrows {s sw : editorInfo}
    (h : removeWelcomeMessage s = some sw) : sw.numrows = s.numrows := by
  simp only [removeWelcomeMessage, Option.bind_eq_bind] at h
  obtain ⟨wr, _, h⟩ := Option.bind_eq_some.mp h
  split at h
  · obtain ⟨buf, _, h⟩ := Option.bind_eq_some.mp h
    obtain ⟨rows, _, h⟩ := Option.bind_eq_some.mp h
    cases h
    rfl
  · cases h
    rfl

theorem split_at_index {α : Type} {xs : List α} {i : Int} (h0 : 0 ≤ i)
    (h1 : i.toNat < xs.length) :
    ∃ (A B : List α) (x : α), xs = A ++ x :: B ∧ i = (A.length : Int) := by
  refine ⟨xs.take i.toNat, xs.drop (i.toNat + 1), xs[i.toNat],
    getElem?_split (List.getElem?_eq_getElem h1), ?_⟩
  rw [List.length_take]
  omega

/-- The lines after `enter`: none has a negative length, and a placeholder is the filler
byte when that held before. -/
theorem enter_Lens {s s' : editorInfo} {ret : Int} (h : enter s = some (ret, s')) :
    (s.Lens → s'.Lens) ∧ (s.Lens → s.Placeholders → s'.Placeholders) := by
  simp only [enter, Option.bind_eq_bind] at h
  obtain ⟨d, _, h⟩ := Option.bind_eq_some.mp h
  obtain ⟨r0, h1, h⟩ := Option.bind_eq_some.mp h
  obtain ⟨c, _, h⟩ := Option.bind_eq_some.mp h
  obtain ⟨P, _, h⟩ := Option.bind_eq_some.mp h
  obtain ⟨nb0, h2, h⟩ := Option.bind_eq_some.mp h
  obtain ⟨eb0, h3, h⟩ := Option.bind_eq_some.mp h
  obtain ⟨sw, h4, h⟩ := Option.bind_eq_some.mp h
  obtain ⟨nb, _, h⟩ := Option.bind_eq_some.mp h
  obtain ⟨eb, _, h⟩ := Option.bind_eq_some.mp h
  have hn0 := realloc_nonneg h2
  have he0 := realloc_nonneg h3
  obtain ⟨g1, g2⟩ := removeWelcomeMessage_Lens h4
  have gn := removeWelcomeMessage_numrows h4
  have key : s.Lens → s'.Lens ∧ (s.Placeholders → s'.Placeholders) := by
    intro hl
    have hlw := g1 hl
    cases hre : realloc default sw.rows (sw.numrows + 1) with
    | none =>
      rw [hre] at h
      cases h
      exact ⟨hlw, fun hp => by rw [g2 hp]; exact hp⟩
    | some newrows =>
      obtain ⟨_, hi0, hi1⟩ := index_mem h1
      have hi2 : d.row_index.toNat < sw.rows.length := by
        have := getElem?_lt hi1
        have e1 := hlw.1
        have e2 := hl.1
        omega
      obtain ⟨A, B, x, hsplit, hri⟩ := split_at_index hi0 hi2
      obtain ⟨new0, new1, new2, k1, k2, k3, k4⟩ := insert_row A B x
        (erow.mk 1 (P + s.cursor_x - 1) eb)
        (erow.mk 1 (c.len - P - s.cursor_x + 1) nb) sw.numrows d.row_index
        (by rw [hlw.1, hsplit]) hri
      rw [← hsplit] at k1
      rw [hre] at k1
      cases k1
      rw [hre] at h
      simp only at h
      obtain ⟨m1, j1, h⟩ := Option.bind_eq_some.mp h
      rw [k2] at j1
      cases j1
      obtain ⟨m2, j2, h⟩ := Option.bind_eq_some.mp h
      rw [k3] at j2
      cases j2
      obtain ⟨m3, j3, h⟩ := Option.bind_eq_some.mp h
      rw [k4] at j3
      cases j3
      obtain ⟨s2, j4, h⟩ := Option.bind_eq_some.mp h
      cases h
      obtain ⟨g3, g4⟩ := updateSrows_Lens j4
      have hmem : ∀ r ∈ A ++ erow.mk 1 (P + s.cursor_x - 1) eb
          :: erow.mk 1 (c.len - P - s.cursor_x + 1) nb :: B,
          r ∈ sw.rows ∨ (r.dirty = 1 ∧ 0 ≤ r.len) := by
        intro r hr
        simp only [List.mem_append, List.mem_cons] at hr
        rcases hr with hr | hr | hr | hr
        · left; rw [hsplit]; simp [hr]
        · right; rw [hr]; exact ⟨rfl, he0⟩
        · right; rw [hr]; exact ⟨rfl, hn0⟩
        · left; rw [hsplit]; simp [hr]
      refine ⟨g3 ⟨?_, ?_⟩, fun hp => g4 ?_⟩
      · simp only [List.length_append, List.length_cons]
        rw [hlw.1, hsplit]
        simp only [List.length_append, List.length_cons]
        push_cast
        ring
      · intro r hr
        rcases hmem r hr with h5 | h5
        · exact hlw.2 r h5
        · exact h5.2
      · intro r hr hd0
        rcases hmem r hr with h5 | h5
        · rw [g2 hp] at h5
          exact hp r h5 hd0
        · rw [h5.1] at hd0
          exact absurd hd0 (show ¬ ((1 : Int) = 0) by decide)
  exact ⟨fun hl => (key hl).1, fun hl hp => (key hl).2 hp⟩

theorem absorb_Lens {prev cur m : erow} (h : removeErow.absorb prev cur = some m) :
    (0 ≤ prev.len → 0 ≤ cur.len → 0 ≤ m.len) ∧
    ((prev.dirty = 0 → prev.len = 1 ∧ prev.content = ['~']) →
      ¬ (prev.dirty = 0 ∧ cur.dirty ≠ 0 ∧ cur.len ≠ 0) →
      m.dirty = 0 → m.len = 1 ∧ m.content = ['~']) := by
  simp only [removeErow.absorb, Option.bind_eq_bind] at h
  split at h
  · rename_i hc
    obtain ⟨b0, h1, h⟩ := Option.bind_eq_some.mp h
    obtain ⟨b1, h2, h⟩ := Option.bind_eq_some.mp h
    cases h
    refine ⟨fun h3 h4 => by simp only; omega, fun hp hno hd0 => ?_⟩
    simp only at hd0
    obtain ⟨hp1, hp2⟩ := hp hd0
    have hcl : cur.len = 0 := by
      by_contra hne
      exact hno ⟨hd0, hc, hne⟩
    simp only [erow.content, hp1] at hp2
    have hb0 : b0 = ['~'] := by
      simp only [realloc, hp1, hcl] at h1
      rw [if_pos (by decide)] at h1
      have e : (1 + 0 : Int).toNat = 1 := by decide
      have e2 : (1 : Int).toNat = 1 := by decide
      rw [e, ← e2, hp2] at h1
      have hlen : 1 ≤ prev.buf.length := by
        have := congrArg List.length hp2
        rw [List.length_take] at this
        simp only [List.length_singleton] at this
        omega
      have e3 : (1 : Int).toNat - prev.buf.length = 0 := by
        rw [e2]; omega
      rw [e3] at h1
      simp only [List.replicate_zero, List.append_nil] at h1
      exact (Option.some.inj h1).symm
    rw [hb0, hp1, hcl] at h2
    simp only [memcpy] at h2
    split at h2
    · cases h2
      refine ⟨by simp only [hp1, hcl]; rfl, ?_⟩
      simp [erow.content, hp1, hcl]
    · cases h2
  · cases h
    exact ⟨fun h3 _ => h3, fun hp _ hd0 => hp hd0⟩

theorem removeErow_Lens {s s1 : editorInfo} {ri : Int} (h : removeErow s ri = some s1) :
    (s.Lens → s1.Lens) ∧
    (s.Lens → s.Placeholders →
      (∀ prev cur, index s.rows (ri - 1) = some prev → index s.rows ri = some cur →
        ¬ (prev.dirty = 0 ∧ cur.dirty ≠ 0 ∧ cur.len ≠ 0)) → s1.Placeholders) := by
  simp only [removeErow, Option.bind_eq_bind] at h
  obtain ⟨prev, h1, h⟩ := Option.bind_eq_some.mp h
  obtain ⟨cur, h2, h⟩ := Option.bind_eq_some.mp h
  obtain ⟨m, h3, h⟩ := Option.bind_eq_some.mp h
  obtain ⟨a1, a2⟩ := absorb_Lens h3
  obtain ⟨hpm, hp0, hp1⟩ := index_mem h1
  obtain ⟨hcm, hc0, hc1⟩ := index_mem h2
  have key : s.Lens → s1.Lens ∧ (s.Placeholders →
      (∀ prev cur, index s.rows (ri - 1) = some prev → index s.rows ri = some cur →
        ¬ (prev.dirty = 0 ∧ cur.dirty ≠ 0 ∧ cur.len ≠ 0)) → s1.Placeholders) := by
    intro hl
    obtain ⟨A, B0, x, hsplit, hri⟩ := split_at_index hp0 (getElem?_lt hp1)
    have hclt := getElem?_lt hc1
    obtain ⟨y, B, rfl⟩ : ∃ y B, B0 = y :: B := by
      cases B0 with
      | nil =>
        rw [hsplit] at hclt
        simp only [List.length_append, List.length_cons, List.length_nil] at hclt
        omega
      | cons y B => exact ⟨y, B, rfl⟩
    obtain ⟨t0, t1, n0, n1, k1, k2, k3, k4, k5⟩ := remove_row A B x y m s.numrows ri
      (by rw [hl.1, hsplit]) (by omega)
    rw [← hsplit] at k2 k3
    rw [k1] at h
    simp only [Option.some_bind, k2, k3, k4, k5] at h
    cases h
    have hmem : ∀ r ∈ A ++ m :: B, r ∈ s.rows ∨ r = m := by
      intro r hr
      simp only [List.mem_append, List.mem_cons] at hr
      rcases hr with hr | hr | hr
      · left; rw [hsplit]; simp [hr]
      · right; exact hr
      · left; rw [hsplit]; simp [hr]
    refine ⟨⟨?_, ?_⟩, fun hp hno => ?_⟩
    · simp only [List.length_append, List.length_cons]
      rw [hl.1, hsplit]
      simp only [List.length_append, List.length_cons]
      push_cast
      ring
    · intro r hr
      rcases hmem r hr with h5 | h5
      · exact hl.2 r h5
      · rw [h5]; exact a1 (hl.2 prev hpm) (hl.2 cur hcm)
    · intro r hr
      rcases hmem r hr with h5 | h5
      · exact hp r h5
      · rw [h5]; exact a2 (hp prev hpm) (hno prev cur h1 h2)
  exact ⟨fun hl => (key hl).1, fun hl hp hno => (key hl).2 hp hno⟩

/-- The lines after `deleteCharacter` of one byte: none has a negative length, and a
placeholder is the filler byte when that held before and the call does not merge a real
line that is not empty into a placeholder. -/
theorem deleteCharacter_Lens {s s' : editorInfo} {mode ret : Int}
    (h : deleteCharacter s mode 1 = some (ret, s')) :
    (s.Lens → s'.Lens) ∧
    (s.Lens → s.Placeholders → ¬ mergesIntoPlaceholder s mode → s'.Placeholders) := by
  simp only [deleteCharacter, Option.bind_eq_bind] at h
  obtain ⟨d, h0, h⟩ := Option.bind_eq_some.mp h
  split at h
  · cases h
    exact ⟨id, fun _ hp _ => hp⟩
  · split at h
    · rename_i hm
      obtain ⟨s1, h1, h⟩ := Option.bind_eq_some.mp h
      obtain ⟨s2, h2, h⟩ := Option.bind_eq_some.mp h
      cases h
      obtain ⟨g1, g2⟩ := removeErow_Lens h1
      obtain ⟨g3, g4⟩ := updateSrows_Lens h2
      refine ⟨fun hl => g3 (g1 hl), fun hl hp hno => g4 (g2 hl hp ?_)⟩
      intro prev cur e1 e2 e3
      exact hno ⟨hm.1, hm.2.1, hm.2.2, d, prev, cur, h0, e1, e2, e3⟩
    · obtain ⟨r, h1, h⟩ := Option.bind_eq_some.mp h
      obtain ⟨hrm, _, _⟩ := index_mem h1
      split at h
      · obtain ⟨b0, _, h⟩ := Option.bind_eq_some.mp h
        obtain ⟨b1, h3, h⟩ := Option.bind_eq_some.mp h
        obtain ⟨rows, h4, h⟩ := Option.bind_eq_some.mp h
        cases h
        obtain ⟨rfl, _, _⟩ := store_eq h4
        have hb : b1.take 1 = ['~'] := by
          simp only [memcpy] at h3
          split at h3
          · cases h3
            simp
          · cases h3
        refine ⟨fun hl => ⟨by simp only [List.length_set]; exact hl.1,
          forall_mem_set _ hl.2 (by simp)⟩, fun _ hp _ => ?_⟩
        exact forall_mem_set _ hp (fun _ => ⟨rfl, hb⟩)
      · rename_i hne
        obtain ⟨offset, _, h⟩ := Option.bind_eq_some.mp h
        obtain ⟨P, _, h⟩ := Option.bind_eq_some.mp h
        split at h
        · cases h
          exact ⟨id, fun _ hp _ => hp⟩
        · split at h
          · cases h
            exact ⟨id, fun _ hp _ => hp⟩
          · rename_i newbuf hre
            obtain ⟨t1, _, h⟩ := Option.bind_eq_some.mp h
            obtain ⟨n1, _, h⟩ := Option.bind_eq_some.mp h
            obtain ⟨rows, h4, h⟩ := Option.bind_eq_some.mp h
            obtain ⟨s2, h5, h⟩ := Option.bind_eq_some.mp h
            cases h
            obtain ⟨rfl, _, _⟩ := store_eq h4
            obtain ⟨g3, g4⟩ := updateSrows_Lens h5
            have hge := realloc_nonneg hre
            refine ⟨fun hl => g3 ⟨by simp only [List.length_set]; exact hl.1,
              forall_mem_set _ hl.2 hge⟩, fun _ hp _ => g4 ?_⟩
            refine forall_mem_set _ hp (fun hd0 => ?_)
            have := (hp r hrm hd0).1
            exact absurd (by rw [this]; rfl) hne

theorem updateRows.loop_Lens (dirty : Int) (cb : cbuf) :
    ∀ (fuel : Nat) (s : editorInfo) (lc : Int) (r : editorInfo × Bool),
      updateRows.loop dirty cb fuel s lc = some r → s.Lens →
      r.1.Lens ∧ ∀ x ∈ r.1.rows, x ∈ s.rows ∨ x.dirty = dirty := by
  intro fuel
  induction fuel with
  | zero =>
    intro s lc r h hl
    simp only [updateRows.loop] at h
    split at h
    · cases h
    · cases h
      exact ⟨hl, fun x hx => Or.inl hx⟩
  | succ fuel ih =>
    intro s lc r h hl
    simp only [updateRows.loop, Option.bind_eq_bind] at h
    split at h
    · split at h
      · cases h
      · obtain ⟨sc, _, h⟩ := Option.bind_eq_some.mp h
        split at h
        · cases h
          exact ⟨hl, fun x hx => Or.inl hx⟩
        · rename_i newbuf hm
          obtain ⟨nb, _, h⟩ := Option.bind_eq_some.mp h
          obtain ⟨a, h2, h⟩ := Option.bind_eq_some.mp h
          obtain ⟨s1, k1, k2, k3, _⟩ := addRowToErows_eq s dirty nb
            (if sc.2 ≠ 0 then sc.1 - 2 else sc.1) hl.1
          rw [k1] at h2
          cases h2
          have hl1 : s1.Lens := by
            refine ⟨k3, ?_⟩
            intro x hx
            rw [k2] at hx
            rcases List.mem_append.mp hx with hx | hx
            · exact hl.2 x hx
            · rw [List.mem_singleton.mp hx]
              exact realloc_nonneg hm
          obtain ⟨g1, g2⟩ := ih _ _ _ h hl1
          refine ⟨g1, fun x hx => ?_⟩
          rcases g2 x hx with hx | hx
          · rw [k2] at hx
            rcases List.mem_append.mp hx with hx | hx
            · exact Or.inl hx
            · right; rw [List.mem_singleton.mp hx]
          · exact Or.inr hx
    · cases h
      exact ⟨hl, fun x hx => Or.inl hx⟩

theorem updateRows_Lens {s s' : editorInfo} {dirty : Int} {cb : cbuf}
    (h : updateRows s dirty cb = some s') (hl : s.Lens) :
    s'.Lens ∧ ∀ x ∈ s'.rows, x ∈ s.rows ∨ x.dirty = dirty := by
  simp only [updateRows, Option.bind_eq_bind] at h
  obtain ⟨r, h1, h⟩ := Option.bind_eq_some.mp h
  obtain ⟨g1, g2⟩ := updateRows.loop_Lens _ _ _ _ _ _ h1 hl
  split at h
  · obtain ⟨e1, e2⟩ := updateSrows_rows h
    exact ⟨⟨by rw [e1, e2]; exact g1.1, by rw [e1]; exact g1.2⟩, by rw [e1]; exact g2⟩
  · cases h
    exact ⟨g1, g2⟩

/-- The lines after a file load: counted by `numrows`, none with a negative length, all
flagged real. -/
theorem fileStart_Lens {ws_row ws_col : Int} {bytes : List Char} {s0 : editorInfo}
    (h : fileStart ws_row ws_col bytes = some s0) : s0.Lens ∧ ∀ x ∈ s0.rows, x.dirty = 1 := by
  simp only [fileStart, openFile, Option.bind_eq_bind, Option.map_eq_some'] at h
  obtain ⟨a, h, rfl⟩ := h
  obtain ⟨cb, _, h⟩ := Option.bind_eq_some.mp h
  obtain ⟨s1, h1, h⟩ := Option.bind_eq_some.mp h
  cases h
  obtain ⟨g1, g2⟩ := updateRows_Lens h1 ⟨rfl, fun r hr => by cases hr⟩
  refine ⟨g1, fun x hx => ?_⟩
  rcases g2 x hx with hx | hx
  · cases hx
  · exact hx

/-- The lines after a blank start: counted by `numrows`, none with a negative length. -/
theorem blankStart_Lens {ws_row ws_col : Int} {s0 : editorInfo}
    (h : blankStart ws_row ws_col = some s0) : s0.Lens := by
  simp only [blankStart, initScreenNoArgs, Option.bind_eq_bind, Option.map_eq_some'] at h
  obtain ⟨a, h, rfl⟩ := h
  obtain ⟨cb, _, h⟩ := Option.bind_eq_some.mp h
  obtain ⟨r, _, h⟩ := Option.bind_eq_some.mp h
  obtain ⟨s1, h1, h⟩ := Option.bind_eq_some.mp h
  cases h
  exact (updateRows_Lens h1 ⟨rfl, fun r hr => by cases hr⟩).1

theorem EditStep_Lens {allow : editorInfo → Int → Prop} {s s' : editorInfo}
    (h : EditStep allow s s') : s.Lens → s'.Lens := by
  match h with
  | .cursor _ _ _ _ => exact id
  | .insert _ _ _ _ h => exact (addCharacter_Lens h).1
  | .delete _ _ _ _ _ _ h => exact (deleteCharacter_Lens h).1
  | .enter _ _ _ h => exact (enter_Lens h).1

theorem EditStep_Placeholders {s s' : editorInfo}
    (h : EditStep (fun s mode => ¬ mergesIntoPlaceholder s mode) s s') :
    s.Lens → s.Placeholders → s'.Placeholders := by
  match h with
  | .cursor _ _ _ _ => exact fun _ hp => hp
  | .insert _ _ _ _ h => exact (addCharacter_Lens h).2
  | .delete _ _ _ _ _ ha h => exact fun hl hp => (deleteCharacter_Lens h).2 hl hp ha
  | .enter _ _ _ h => exact (enter_Lens h).2

/-! ## The key loop as a sequence of edit operations -/

theorem moveCursor.clamp_at {s s' : editorInfo} (h : moveCursor.clamp s = some s') :
    ∃ x y off, s' = s.at x y off := by
  simp only [moveCursor.clamp, Option.bind_eq_bind] at h
  obtain ⟨d, _, h⟩ := Option.bind_eq_some.mp h
  split at h
  · cases h; exact ⟨_, s.cursor_y, s.cursor_y_offset, rfl⟩
  · cases h; exact ⟨s.cursor_x, s.cursor_y, s.cursor_y_offset, rfl⟩

theorem moveCursor_at {s s' : editorInfo} {key : Int} (h : moveCursor s key = some s') :
    ∃ x y off, s' = s.at x y off := by
  simp only [moveCursor, Option.bind_eq_bind] at h
  obtain ⟨d, _, h⟩ := Option.bind_eq_some.mp h
  obtain ⟨r, _, h⟩ := Option.bind_eq_some.mp h
  split at h
  · cases h; exact ⟨s.cursor_x, s.cursor_y, s.cursor_y_offset, rfl⟩
  · simp only [moveCursor.switch, Option.bind_eq_bind] at h
    split at h
    · obtain ⟨x, y, off, e⟩ := moveCursor.clamp_at h
      refine ⟨x, y, off, ?_⟩
      rw [e]
      simp only [moveCursor.up]
      split
      · rfl
      · split <;> rfl
    · split at h
      · obtain ⟨x, y, off, e⟩ := moveCursor.clamp_at h
        refine ⟨x, y, off, ?_⟩
        rw [e]
        simp only [moveCursor.down]
        split
        · split <;> rfl
        · rfl
      · split at h
        · obtain ⟨d1, _, h⟩ := Option.bind_eq_some.mp h
          split at h
          · cases h; exact ⟨_, s.cursor_y, s.cursor_y_offset, rfl⟩
          · cases h; exact ⟨s.cursor_x, s.cursor_y, s.cursor_y_offset, rfl⟩
        · split at h
          · split at h
            · cases h; exact ⟨_, s.cursor_y, s.cursor_y_offset, rfl⟩
            · cases h; exact ⟨s.cursor_x, s.cursor_y, s.cursor_y_offset, rfl⟩
          · cases h; exact ⟨s.cursor_x, s.cursor_y, s.cursor_y_offset, rfl⟩

theorem moveCursor_step {allow : editorInfo → Int → Prop} {s s' : editorInfo} {key : Int}
    (h : moveCursor s key = some s') : Relation.ReflTransGen (EditStep allow) s s' := by
  obtain ⟨x, y, off, rfl⟩ := moveCursor_at h
  exact Relation.ReflTransGen.single (EditStep.cursor s x y off)

theorem manageKeyInput.page_step (key : Int) :
    ∀ (todo : Nat) (s s' : editorInfo), manageKeyInput.page key todo s = some s' →
      Relation.ReflTransGen (EditStep fun _ _ => True) s s' := by
  intro todo
  induction todo with
  | zero => intro s s' h; cases h; exact Relation.ReflTransGen.refl
  | succ todo ih =>
    intro s s' h
    simp only [manageKeyInput.page, Option.bind_eq_bind] at h
    obtain ⟨s1, h1, h⟩ := Option.bind_eq_some.mp h
    exact (moveCursor_step h1).trans (ih _ _ h)

theorem manageKeyInput.tab_step :
    ∀ (todo : Nat) (s s' : editorInfo), manageKeyInput.tab todo s = some s' →
      Relation.ReflTransGen (EditStep fun _ _ => True) s s' := by
  intro todo
  induction todo with
  | zero => intro s s' h; cases h; exact Relation.ReflTransGen.refl
  | succ todo ih =>
    intro s s' h
    simp only [manageKeyInput.tab, Option.bind_eq_bind] at h
    obtain ⟨r, h1, h⟩ := Option.bind_eq_some.mp h
    obtain ⟨s1, h2, h⟩ := Option.bind_eq_some.mp h
    exact ((Relation.ReflTransGen.single
      (EditStep.insert s r.2 [' '] r.1 h1)).trans (moveCursor_step h2)).trans (ih _ _ h)

/-- One round of the key loop is a sequence of edit operations and cursor moves. -/
theorem manageKeyInput_step {s s' : editorInfo} {c : Int} (h : manageKeyInput s c = some s') :
    Relation.ReflTransGen (EditStep fun _ _ => True) s s' := by
  unfold manageKeyInput at h
  by_cases h1 : c = 17
  · rw [if_pos h1] at h
    cases h
  rw [if_neg h1] at h
  by_cases h2 : c = PAGE_UP ∨ c = PAGE_DOWN
  · rw [if_pos h2] at h
    by_cases h3 : s.screen_row ≤ 0
    · rw [if_pos h3] at h
      cases h
    · rw [if_neg h3] at h
      exact manageKeyInput.page_step _ _ _ _ h
  rw [if_neg h2] at h
  by_cases h3 : c = HOME_KEY
  · rw [if_pos h3] at h
    obtain rfl := Option.some.inj h
    exact Relation.ReflTransGen.single (EditStep.cursor s 1 s.cursor_y s.cursor_y_offset)
  rw [if_neg h3] at h
  by_cases h4 : c = END_KEY
  · rw [if_pos h4] at h
    simp only [Option.bind_eq_bind] at h
    obtain ⟨d, _, h⟩ := Option.bind_eq_some.mp h
    obtain rfl := Option.some.inj h
    exact Relation.ReflTransGen.single
      (EditStep.cursor s (d.len + 1) s.cursor_y s.cursor_y_offset)
  rw [if_neg h4] at h
  by_cases h5 : c = ARROW_UP ∨ c = ARROW_DOWN ∨ c = ARROW_RIGHT ∨ c = ARROW_LEFT
  · rw [if_pos h5] at h
    exact moveCursor_step h
  rw [if_neg h5] at h
  by_cases h6 : c = DELETE_KEY
  · rw [if_pos h6] at h
    simp only [Option.bind_eq_bind] at h
    obtain ⟨r, h1, h⟩ := Option.bind_eq_some.mp h
    obtain rfl := Option.some.inj h
    exact Relation.ReflTransGen.single
      (EditStep.delete s r.2 DELETE_KEY r.1 (Or.inl rfl) trivial h1)
  rw [if_neg h6] at h
  by_cases h7 : c = ENTER_KEY
  · rw [if_pos h7] at h
    simp only [Option.bind_eq_bind] at h
    obtain ⟨r, h1, h⟩ := Option.bind_eq_some.mp h
    obtain ⟨s1, h2, h⟩ := Option.bind_eq_some.mp h
    obtain rfl := Option.some.inj h
    exact ((Relation.ReflTransGen.single (EditStep.enter s r.2 r.1 h1)).trans
      (moveCursor_step h2)).tail (EditStep.cursor s1 1 s1.cursor_y s1.cursor_y_offset)
  rw [if_neg h7] at h
  by_cases h8 : c = BACKSPACE
  · rw [if_pos h8] at h
    simp only [Option.bind_eq_bind] at h
    obtain ⟨r, h1, h⟩ := Option.bind_eq_some.mp h
    have hd : Relation.ReflTransGen (EditStep fun _ _ => True) s r.2 :=
      Relation.ReflTransGen.single
        (EditStep.delete s r.2 BACKSPACE r.1 (Or.inr rfl) trivial h1)
    by_cases h9 : r.1 ≠ -2
    · rw [if_pos h9] at h
      exact hd.trans (moveCursor_step h)
    · rw [if_neg h9] at h
      obtain rfl := Option.some.inj h
      exact hd
  rw [if_neg h8] at h
  by_cases h9 : c = TAB_KEY
  · rw [if_pos h9] at h
    exact manageKeyInput.tab_step _ _ _ h
  rw [if_neg h9] at h
  simp only [Option.bind_eq_bind] at h
  obtain ⟨r, h1, h⟩ := Option.bind_eq_some.mp h
  have hi : Relation.ReflTransGen (EditStep fun _ _ => True) s r.2 :=
    Relation.ReflTransGen.single
      (EditStep.insert s r.2 [Char.ofNat (c % 256).toNat] r.1 h1)
  unfold manageKeyInput.advance at h
  by_cases h10 : r.2.cursor_x = r.2.screen_col
  · rw [if_pos h10] at h
    simp only [Option.bind_eq_bind] at h
    obtain ⟨d, _, h⟩ := Option.bind_eq_some.mp h
    obtain rfl := Option.some.inj h
    exact hi.tail (EditStep.cursor r.2 (d.len + 1) (r.2.cursor_y + 1) r.2.cursor_y_offset)
  · rw [if_neg h10] at h
    exact hi.trans (moveCursor_step h)

/-- The key loop is a sequence of edit operations and cursor moves. -/
theorem run_reachable : ∀ (keys : List Int) (s s' : editorInfo), run s keys = some s' →
    Relation.ReflTransGen (EditStep fun _ _ => True) s s' := by
  intro keys
  induction keys with
  | nil => intro s s' h; cases h; exact Relation.ReflTransGen.refl
  | cons c keys ih =>
    intro s s' h
    simp only [run, Option.bind_eq_bind] at h
    obtain ⟨s1, h1, h⟩ := Option.bind_eq_some.mp h
    exact (manageKeyInput_step h1).trans (ih _ _ h)

/-! ## Claims on the invariants of the lines -/

/-- C16, evaluated where it fails. Blank start on a screen of 6 rows and 60 columns, no
operation made: the line at the welcome index `6 / 2 - 2 = 1` is flagged placeholder
(`dirty = 0`) and holds the `~`, the padding and the welcome text, 57 bytes, not the single
filler byte. -/
theorem blankStart_banner :
    ((blankStart 6 60).bind fun s => s.rows[1]?).map (fun r => (r.dirty, r.len, r.content))
      = some (0, 57,
          "~    Welcome to mzim! This program is the vim for mz gen!".toList) ∧
    "~    Welcome to mzim! This program is the vim for mz gen!".toList ≠ ['~'] := by
  set_option maxRecDepth 20000 in
  constructor
  · decide
  · decide

/-- C16, amended: in every state reached from a blank start or a file load by edit
operations (insert of bytes, delete-forward or backspace of one byte, enter) with the cursor
moved anywhere in between, every logical line has a length `≥ 0`, and so in every state
that the key loop reaches on any keys; and in every state reached from a file load by such
operations, none of them a backspace that merges a real line that is not empty into a
placeholder line, every line flagged placeholder (`dirty = 0`) has length 1 and content
exactly the filler byte `~`. -/
theorem reachable_lines (ws_row ws_col : Int) (s0 s : editorInfo) :
    ((blankStart ws_row ws_col = some s0 ∨ ∃ bytes, fileStart ws_row ws_col bytes = some s0) →
      Relation.ReflTransGen (EditStep fun _ _ => True) s0 s → ∀ r ∈ s.rows, 0 ≤ r.len) ∧
    ((blankStart ws_row ws_col = some s0 ∨ ∃ bytes, fileStart ws_row ws_col bytes = some s0) →
      ∀ keys, run s0 keys = some s → ∀ r ∈ s.rows, 0 ≤ r.len) ∧
    ((∃ bytes, fileStart ws_row ws_col bytes = some s0) →
      Relation.ReflTransGen (EditStep fun s mode => ¬ mergesIntoPlaceholder s mode) s0 s →
      ∀ r ∈ s.rows, r.dirty = 0 → r.len = 1 ∧ r.content = ['~']) := by
  have first : (blankStart ws_row ws_col = some s0 ∨
      ∃ bytes, fileStart ws_row ws_col bytes = some s0) →
      Relation.ReflTransGen (EditStep fun _ _ => True) s0 s → ∀ r ∈ s.rows, 0 ≤ r.len := by
    intro h0 hreach
    have hl0 : s0.Lens := by
      rcases h0 with h0 | ⟨bytes, h0⟩
      · exact blankStart_Lens h0
      · exact (fileStart_Lens h0).1
    have : s.Lens := by
      induction hreach with
      | refl => exact hl0
      | tail _ hstep ih => exact EditStep_Lens hstep ih
    exact this.2
  refine ⟨first, fun h0 keys hrun => first h0 (run_reachable keys s0 s hrun), ?_⟩
  clear first
  · intro h0 hreach
    obtain ⟨bytes, h0⟩ := h0
    obtain ⟨hl0, hd0⟩ := fileStart_Lens h0
    have : s.Lens ∧ s.Placeholders := by
      induction hreach with
      | refl =>
        refine ⟨hl0, fun r hr hd => ?_⟩
        rw [hd0 r hr] at hd
        exact absurd hd (show ¬ ((1 : Int) = 0) by decide)
      | tail _ hstep ih =>
        exact ⟨EditStep_Lens hstep ih.1, EditStep_Placeholders hstep ih.1 ih.2⟩
    exact this.2

theorem reachable_lines_witness :
    ∃ s0 s : editorInfo, fileStart 5 10 "a\nbc".toList = some s0 ∧
      deleteCharacter (s0.at 2 1 0) BACKSPACE 1 = some (1, s) ∧
      s.rows = [erow.mk 0 1 ['~'], erow.mk 1 2 "bc".toList] ∧
      (∀ r ∈ s.rows, 0 ≤ r.len) ∧
      (∀ r ∈ s.rows, r.dirty = 0 → r.len = 1 ∧ r.content = ['~']) := by
  have h1 : ((fileStart 5 10 "a\nbc".toList).bind fun s0 =>
      (deleteCharacter (s0.at 2 1 0) BACKSPACE 1).map fun q => (q.1, q.2.rows))
      = some (1, [erow.mk 0 1 ['~'], erow.mk 1 2 "bc".toList]) := by decide
  obtain ⟨s0, h0, h1⟩ := Option.bind_eq_some.mp h1
  obtain ⟨q, h2, h3⟩ := Option.map_eq_some'.mp h1
  obtain ⟨ret, s⟩ := q
  simp only [Prod.mk.injEq] at h3
  obtain ⟨rfl, h3⟩ := h3
  have ha : Relation.ReflTransGen (EditStep fun _ _ => True) s0 s :=
    (Relation.ReflTransGen.single (EditStep.cursor s0 2 1 0)).tail
      (EditStep.delete _ _ BACKSPACE 1 (Or.inr rfl) trivial h2)
  have hb : Relation.ReflTransGen (EditStep fun s mode => ¬ mergesIntoPlaceholder s mode)
      s0 s :=
    (Relation.ReflTransGen.single (EditStep.cursor s0 2 1 0)).tail
      (EditStep.delete _ _ BACKSPACE 1 (Or.inr rfl)
        (fun h => absurd h.2.1 (show ¬ ((2 : Int) = 1) by decide)) h2)
  exact ⟨s0, s, h0, h2, h3,
    (reachable_lines 5 10 s0 s).1 (Or.inr ⟨_, h0⟩) ha,
    (reachable_lines 5 10 s0 s).2.2 ⟨_, h0⟩ hb⟩

/-- The merge that the amended statement leaves out. File "a\nbc" on a screen of 5 rows and
10 columns: backspace at column 2 of row 1 empties line 0 into a placeholder, and backspace
with the cursor put at column 1 of row 2 merges "bc" into it. The line is then "~bc" of
length 3, still flagged placeholder. -/
theorem merge_into_placeholder :
    ((fileStart 5 10 "a\nbc".toList).bind fun s =>
        (deleteCharacter (s.at 2 1 0) BACKSPACE 1).bind fun q =>
          deleteCharacter (q.2.at 1 2 0) BACKSPACE 1).map (fun q => (q.1, q.2.rows))
      = some (-2, [erow.mk 0 3 "~bc".toList]) := by
  decide

/-! ## Termination of the Wrapper -/

/-- The prefix that `findSplitPoint` carves off a remainder of at least one screen width:
at least one byte, at most the remainder, and either the width or one past an index
strictly between half the width and the width. -/
theorem findSplitPoint_bounds (s : editorInfo) (rowlen : Int) (buf : List Char)
    (hw : 1 ≤ s.screen_col) (hlen : s.screen_col ≤ rowlen) :
    1 ≤ findSplitPoint s rowlen buf ∧ findSplitPoint s rowlen buf ≤ rowlen ∧
    findSplitPoint s rowlen buf ≤ s.screen_col ∧
    (findSplitPoint s rowlen buf = s.screen_col ∨
      ∃ j : Int, findSplitPoint s rowlen buf = j + 1 ∧ Int.tdiv s.screen_col 2 < j ∧
        j < s.screen_col) := by
  rcases findSplitPoint.loop_spec s buf rowlen.toNat with ⟨h1, _⟩ | ⟨j, hj, h1, h2, _⟩
  · have h : findSplitPoint s rowlen buf = s.screen_col := h1
    rw [h]
    exact ⟨hw, hlen, le_refl _, Or.inl rfl⟩
  · have h : findSplitPoint s rowlen buf = (j : Int) + 1 := h1
    obtain ⟨_, h3, h4⟩ := h2
    rw [h]
    exact ⟨by omega, by omega, by omega, Or.inr ⟨j, rfl, h4, h3⟩⟩

/-- A result of the carving loop does not depend on the bound of its iterations: one more
allowed iteration gives the same result. -/
theorem updateSrows.carve_succ (i : Int) :
    ∀ (fuel : Nat) (s : editorInfo) (rowlen : Int) (tmpbuf : List Char)
      (r : editorInfo × Int × List Char),
      updateSrows.carve i fuel s rowlen tmpbuf = some r →
      updateSrows.carve i (fuel + 1) s rowlen tmpbuf = some r := by
  intro fuel
  induction fuel with
  | zero =>
    intro s rowlen tmpbuf r h
    by_cases hc : rowlen ≥ s.screen_col
    · rw [updateSrows.carve, if_pos hc] at h
      cases h
    · rw [updateSrows.carve, if_neg hc] at h
      rw [updateSrows.carve, if_neg hc]
      exact h
  | succ fuel ih =>
    intro s rowlen tmpbuf r h
    by_cases hc : rowlen ≥ s.screen_col
    · rw [updateSrows.carve, if_pos hc] at h
      simp only [Option.bind_eq_bind] at h
      obtain ⟨b0, h1, h⟩ := Option.bind_eq_some.mp h
      obtain ⟨b1, h2, h⟩ := Option.bind_eq_some.mp h
      obtain ⟨s1, h3, h⟩ := Option.bind_eq_some.mp h
      rw [updateSrows.carve, if_pos hc]
      simp only [Option.bind_eq_bind, h1, h2, h3, Option.some_bind]
      exact ih _ _ _ _ h
    · rw [updateSrows.carve, if_neg hc] at h
      rw [updateSrows.carve, if_neg hc]
      exact h

theorem updateSrows.carve_mono (i : Int) (fuel : Nat) (s : editorInfo) (rowlen : Int)
    (tmpbuf : List Char) (r : editorInfo × Int × List Char)
    (h : updateSrows.carve i fuel s rowlen tmpbuf = some r) :
    ∀ k : Nat, updateSrows.carve i (fuel + k) s rowlen tmpbuf = some r := by
  intro k
  induction k with
  | zero => exact h
  | succ k ih => exact updateSrows.carve_succ i _ _ _ _ _ ih

/-- Where the loop does not come to an end: with width 0 the carved prefix is empty, the
remainder stays as it is, and no bound on the iterations gives a result. -/
theorem updateSrows.carve_width_zero (i : Int) :
    ∀ (fuel : Nat) (s : editorInfo) (tmpbuf : List Char), s.screen_col = 0 →
      s.numsrows = s.srows.length → updateSrows.carve i fuel s tmpbuf.length tmpbuf = none := by
  intro fuel
  induction fuel with
  | zero =>
    intro s tmpbuf h0 _
    have hc : (tmpbuf.length : Int) ≥ s.screen_col := by omega
    rw [updateSrows.carve, if_pos hc]
  | succ fuel ih =>
    intro s tmpbuf h0 hn
    have hc : (tmpbuf.length : Int) ≥ s.screen_col := by omega
    have hsp : findSplitPoint s tmpbuf.length tmpbuf = 0 := by
      rcases findSplitPoint.loop_spec s tmpbuf (tmpbuf.length : Int).toNat with
        ⟨h1, _⟩ | ⟨j, _, _, h2, _⟩
      · exact h1.trans h0
      · have := h2.2.1
        omega
    rw [updateSrows.carve, if_pos hc]
    simp only [hsp, malloc_eq junk (le_refl (0 : Int)), Option.bind_eq_bind, Option.some_bind]
    have hm : memcpy (List.replicate (0 : Int).toNat junk) 0 tmpbuf 0 0
        = some (tmpbuf.take (0 : Int).toNat) :=
      memcpy_fresh junk tmpbuf (le_refl 0) (by omega)
    rw [hm]
    simp only [Option.some_bind, addRowToSrows_eq s i _ _ hn, sub_zero]
    exact ih _ _ (by simp [editorInfo.push, h0]) (push_inv s _ hn)

/-- C21: for every viewport width `w ≥ 1`, (1) the prefix that `findSplitPoint` carves off a
remainder of length `≥ w` has at least 1 byte and at most the remainder, and is `w` or
`j + 1` with `w/2 < j < w`, so the new remainder is `≥ 0` and strictly smaller; (2) the
carving loop of `updateSrows` on a remainder of `n` bytes returns, with a remainder in
`[0, w)`, within `n` iterations, and with the same result for every larger bound on the
iterations; (3) on every document `updateSrows` returns a state, which holds the same
logical lines. -/
theorem updateSrows_terminates (s : editorInfo) (hw : 1 ≤ s.screen_col) :
    (∀ (rowlen : Int) (tmpbuf : List Char), s.screen_col ≤ rowlen →
      1 ≤ findSplitPoint s rowlen tmpbuf ∧ findSplitPoint s rowlen tmpbuf ≤ rowlen ∧
      (findSplitPoint s rowlen tmpbuf = s.screen_col ∨
        ∃ j : Int, findSplitPoint s rowlen tmpbuf = j + 1 ∧ Int.tdiv s.screen_col 2 < j ∧
          j < s.screen_col) ∧
      0 ≤ rowlen - findSplitPoint s rowlen tmpbuf ∧
      rowlen - findSplitPoint s rowlen tmpbuf < rowlen) ∧
    (∀ (i : Int) (tmpbuf : List Char), s.numsrows = s.srows.length →
      ∃ r : editorInfo × Int × List Char,
        (∀ fuel : Nat, tmpbuf.length ≤ fuel →
          updateSrows.carve i fuel s tmpbuf.length tmpbuf = some r) ∧
        0 ≤ r.2.1 ∧ r.2.1 < s.screen_col) ∧
    (s.Doc → ∃ s', updateSrows s = some s' ∧ s'.rows = s.rows ∧ s'.numrows = s.numrows) := by
  refine ⟨?_, ?_, ?_⟩
  · intro rowlen tmpbuf hlen
    obtain ⟨h1, h2, _, h4⟩ := findSplitPoint_bounds s rowlen tmpbuf hw hlen
    exact ⟨h1, h2, h4, by omega, by omega⟩
  · intro i tmpbuf hn
    obtain ⟨segs, rest, h1, h2, _⟩ := carve_spec i tmpbuf.length s tmpbuf hw hn (le_refl _)
    refine ⟨(s.push segs, (rest.length : Int), rest), ?_, by simp only; omega, h2⟩
    intro fuel hf
    have := updateSrows.carve_mono i _ _ _ _ _ h1 (fuel - tmpbuf.length)
    rw [Nat.add_sub_cancel' hf] at this
    exact this
  · intro hd
    obtain ⟨s', h1, h2, h3, _⟩ := updateSrows_owned s hw hd
    exact ⟨s', h1, h2, h3⟩

theorem updateSrows_terminates_witness :
    (1 ≤ findSplitPoint (mkDoc 3 6 ["hello world foo".toList]) 15 "hello world foo".toList ∧
      findSplitPoint (mkDoc 3 6 ["hello world foo".toList]) 15 "hello world foo".toList ≤ 15 ∧
      (findSplitPoint (mkDoc 3 6 ["hello world foo".toList]) 15 "hello world foo".toList
          = (mkDoc 3 6 ["hello world foo".toList]).screen_col ∨
        ∃ j : Int,
          findSplitPoint (mkDoc 3 6 ["hello world foo".toList]) 15 "hello world foo".toList
            = j + 1 ∧
          Int.tdiv (mkDoc 3 6 ["hello world foo".toList]).screen_col 2 < j ∧
          j < (mkDoc 3 6 ["hello world foo".toList]).screen_col) ∧
      0 ≤ 15 - findSplitPoint (mkDoc 3 6 ["hello world foo".toList]) 15
        "hello world foo".toList ∧
      15 - findSplitPoint (mkDoc 3 6 ["hello world foo".toList]) 15 "hello world foo".toList
        < 15) ∧
    (∃ r : editorInfo × Int × List Char,
      (∀ fuel : Nat, "hello world foo".toList.length ≤ fuel →
        updateSrows.carve 0 fuel (mkDoc 3 6 ["hello world foo".toList])
          "hello world foo".toList.length "hello world foo".toList = some r) ∧
      0 ≤ r.2.1 ∧ r.2.1 < (mkDoc 3 6 ["hello world foo".toList]).screen_col) ∧
    (∃ s', updateSrows (mkDoc 3 6 ["hello world foo".toList]) = some s' ∧
      s'.rows = (mkDoc 3 6 ["hello world foo".toList]).rows ∧
      s'.numrows = (mkDoc 3 6 ["hello world foo".toList]).numrows) ∧
    (updateSrows (mkDoc 3 6 ["hello world foo".toList])).map
        (fun t => t.srows.map srow.content)
      = some ["hello ".toList, "world ".toList, "foo".toList] :=
  ⟨(updateSrows_terminates (mkDoc 3 6 ["hello world foo".toList]) (by decide)).1 15
      "hello world foo".toList (by decide),
    (updateSrows_terminates (mkDoc 3 6 ["hello world foo".toList]) (by decide)).2.1 0
      "hello world foo".toList rfl,
    (updateSrows_terminates (mkDoc 3 6 ["hello world foo".toList]) (by decide)).2.2
      (mkDoc_Doc _ _ _),
    by decide⟩

end Mzim
